import Mathlib

/-!
Verification development for the DC_Topos datacenter-topology generator.

The Python code under Code/Topologies is shallowly embedded here:
  * a networkx DiGraph is a structure holding the explicitly added node list,
    the list of directed add_edge calls in program order (set semantics:
    membership; edge count: dedup length), and a per-edge capacity attribute;
  * stateful wiring loops (pod/group cursors, plane cursors, the Jupiter
    round-robin spine cursors) are explicit-state recursions mirroring the
    Python loops statement by statement;
  * fallible construction (raising ValueError) is Except String.
-/

set_option maxHeartbeats 1000000

/-- A directed graph in the networkx sense: `nodes` are the explicitly added
nodes, `edges` records every `add_edge` call in program order (the semantic
edge set is the set of members; networkx ignores re-adds), and `cap` is the
optional capacity attribute of an edge. -/
structure DiGraph (α : Type) where
  nodes : List Nat
  edges : List (Nat × Nat)
  cap : Nat → Nat → Option α

/-- An argument passed to a Python capacity function: either a switch
identifier or the topology object itself. -/
inductive CapArg (T : Type) where
  | id : Nat → CapArg T
  | topo : T → CapArg T

/-- A Python capacity function: its inspectable arity together with the
function body, called on the list of actual arguments. -/
structure CapacityFunction (T α : Type) where
  arity : Nat
  call : List (CapArg T) → α

def capacityMsg : String :=
  "Signature of capacity function is unsupported! Expected form: cap(source_id, dest_id, topology_object=None). (2 or 3 arguments!)"

/-- Topology.__init__ arity validation: if a capacity function is given and
its parameter count is outside 2..3, raise ValueError. -/
def capacity_check {T α : Type} (cf : Option (CapacityFunction T α)) : Except String Unit :=
  match cf with
  | none => Except.ok ()
  | some f =>
      if f.arity < 2 ∨ f.arity > 3 then Except.error capacityMsg
      else Except.ok ()

/-- Topology.init_capacities: if a capacity function was supplied, set the
capacity attribute of every graph edge by calling it on the endpoints (plus
the topology object for a 3-parameter function); otherwise return G. -/
def init_capacities {T α : Type} (self : T) (cf : Option (CapacityFunction T α))
    (G : DiGraph α) : DiGraph α :=
  match cf with
  | none => G
  | some f =>
      if f.arity = 2 then
        { G with cap := fun u v =>
            if (u, v) ∈ G.edges then some (f.call [CapArg.id u, CapArg.id v]) else G.cap u v }
      else if f.arity = 3 then
        { G with cap := fun u v =>
            if (u, v) ∈ G.edges then some (f.call [CapArg.id u, CapArg.id v, CapArg.topo self])
            else G.cap u v }
      else G

/-- util.gen_nodes: a DiGraph with nodes numbered 1 .. sum of the per-layer
switch counts, no edges yet, no capacities. -/
def gen_nodes (α : Type) (switches : List Nat) : DiGraph α :=
  { nodes := List.range' 1 (switches.foldl (· + ·) 0)
    edges := []
    cap := fun _ _ => none }

/-- The semantic node set of a networkx DiGraph: the explicitly added nodes
together with every endpoint of an added edge (add_edge creates missing
endpoints). -/
def graphNodes {α : Type} (G : DiGraph α) : List Nat :=
  G.nodes ++ G.edges.map Prod.fst ++ G.edges.map Prod.snd

/-- A list of directed edges closed under reversal. -/
def SwapClosed (l : List (Nat × Nat)) : Prop :=
  ∀ p ∈ l, (p.2, p.1) ∈ l

namespace FatTree

/-- The FatTree topology object: the one structural parameter. -/
structure Params where
  port_count : Nat
deriving DecidableEq

def tor_switches (p : Nat) : Nat := p * (p / 2)

def aggregation_switches (p : Nat) : Nat := p * (p / 2)

def core_switches (p : Nat) : Nat := (p / 2) * (p / 2)

def tor_idx_range (p : Nat) : List Nat := List.range' 1 (tor_switches p)

def aggregation_idx_range (p : Nat) : List Nat :=
  List.range' (tor_switches p + 1) (aggregation_switches p)

def core_idx_range (p : Nat) : List Nat :=
  List.range' (tor_switches p + aggregation_switches p + 1) (core_switches p)

def indices (p : Nat) : List (List Nat) :=
  [tor_idx_range p, aggregation_idx_range p, core_idx_range p]

def ftMsg : String := "There must be an even nr. of ports to construct a fat-tree"

/-- FatTree.__init__: reject an odd port_count, then run the base-class
capacity-arity validation; on success the topology object exists (and only
then can a graph be generated from it). -/
def init {α : Type} (p : Nat) (cf : Option (CapacityFunction Params α)) :
    Except String Params :=
  if p % 2 ≠ 0 then Except.error ftMsg
  else (capacity_check cf).map (fun _ => ⟨p⟩)

/-- The intra-pod wiring loop of FatTree.gen_graph: iterate i over the ToR
switch positions carrying the mutable pod_step, which is advanced by
aggPerPod when a new pod starts (i divisible by torPerPod, i nonzero), then
connect ToR i+1 with both directions to the aggPerPod pod switches. -/
def intraPodGo (torCount torPerPod aggPerPod : Nat) :
    List Nat → Nat → List (Nat × Nat)
  | [], _ => []
  | i :: rest, pod_step =>
      let pod_step := if i ≠ 0 ∧ i % torPerPod = 0 then pod_step + aggPerPod else pod_step
      ((List.range aggPerPod).flatMap fun j =>
        [(i + 1, torCount + pod_step + j + 1), (torCount + pod_step + j + 1, i + 1)])
      ++ intraPodGo torCount torPerPod aggPerPod rest pod_step

def intraPodEdges (p : Nat) : List (Nat × Nat) :=
  intraPodGo (tor_switches p) (tor_switches p / p) (aggregation_switches p / p)
    (List.range (tor_switches p)) 0

/-- The core wiring loop of FatTree.gen_graph: iterate i over the aggregation
switch positions carrying group_step, which resets to 0 at a pod boundary and
grows by sPerCoreGroup after each switch; switch aggCount+i+1 connects to the
sPerCoreGroup core switches of its group. -/
def coreGo (aggCount sPerCoreGroup aggPerPod : Nat) :
    List Nat → Nat → List (Nat × Nat)
  | [], _ => []
  | i :: rest, group_step =>
      let group_step := if i ≠ 0 ∧ i % aggPerPod = 0 then 0 else group_step
      ((List.range sPerCoreGroup).flatMap fun j =>
        [(aggCount + i + 1, 2 * aggCount + group_step + j + 1),
         (2 * aggCount + group_step + j + 1, aggCount + i + 1)])
      ++ coreGo aggCount sPerCoreGroup aggPerPod rest (group_step + sPerCoreGroup)

def coreEdges (p : Nat) : List (Nat × Nat) :=
  coreGo (aggregation_switches p) (p / 2) (aggregation_switches p / p)
    (List.range (aggregation_switches p)) 0

def edges (p : Nat) : List (Nat × Nat) :=
  intraPodEdges p ++ coreEdges p

/-- FatTree.gen_graph: nodes from gen_nodes, the two wiring loops, then
init_capacities. -/
def gen_graph (α : Type) (p : Nat) (cf : Option (CapacityFunction Params α)) :
    DiGraph α :=
  init_capacities ⟨p⟩ cf
    { gen_nodes α [tor_switches p, aggregation_switches p, core_switches p] with
      edges := edges p }

end FatTree

namespace Fabric

/-- The Fabric topology object: its four structural parameters. -/
structure Params where
  server_pods : Nat
  edge_pods : Nat
  nr_of_planes : Nat
  port_count : Nat
deriving DecidableEq

def last_tor_idx (P : Params) : Nat := P.port_count * P.server_pods

def last_fabric_idx (P : Params) : Nat := last_tor_idx P + P.nr_of_planes * P.server_pods

def last_spine_idx (P : Params) : Nat := last_fabric_idx P + P.nr_of_planes * P.server_pods

def last_edge_idx (P : Params) : Nat := last_spine_idx P + P.edge_pods * P.nr_of_planes

def tor_idx_range (P : Params) : List Nat := List.range' 1 (last_tor_idx P)

def fabric_idx_range (P : Params) : List Nat :=
  List.range' (last_tor_idx P + 1) (P.nr_of_planes * P.server_pods)

def spine_idx_range (P : Params) : List Nat :=
  List.range' (last_fabric_idx P + 1) (P.nr_of_planes * P.server_pods)

def edge_idx_range (P : Params) : List Nat :=
  List.range' (last_spine_idx P + 1) (P.edge_pods * P.nr_of_planes)

def indices (P : Params) : List (List Nat) :=
  [tor_idx_range P, fabric_idx_range P, spine_idx_range P, edge_idx_range P]

/-- Fabric.__init__ performs no structural validation of its own; only the
base-class capacity-arity check can fail. -/
def init {α : Type} (P : Params) (cf : Option (CapacityFunction Params α)) :
    Except String Params :=
  (capacity_check cf).map (fun _ => P)

def fabricMsg : String :=
  "There are only %d different spine plates. Choose the plane parameter accordingly"

/-- The while loop inside connect_to_plane_switches: starting at `current`,
while current does not exceed the last spine index, add both edge directions
between the current spine switch and switch_idx, then advance by the plane
stride. The fuel argument bounds the iteration count; callers pass
last + 1 - current, which suffices whenever the stride is positive. -/
def planeWhile (switch_idx stride last : Nat) : Nat → Nat → List (Nat × Nat)
  | 0, _ => []
  | fuel + 1, current =>
      if current ≤ last then
        (current, switch_idx) :: (switch_idx, current) ::
          planeWhile switch_idx stride last fuel (current + stride)
      else []

/-- The edge list produced by a (validated) connect_to_plane_switches call. -/
def connectPlaneEdges (P : Params) (plane switch_idx : Nat) : List (Nat × Nat) :=
  planeWhile switch_idx P.nr_of_planes (last_spine_idx P)
    (last_spine_idx P + 1 - (last_fabric_idx P + 1 + plane))
    (last_fabric_idx P + 1 + plane)

/-- Fabric.gen_graph's connect_to_plane_switches (plane taken as a Python
int): raise ValueError when plane < 0 or plane > nr_of_planes, otherwise
wire switch_idx to every spine switch at positions plane, plane + stride, …
and return the added edges. -/
def connect_to_plane_switches (P : Params) (plane : Int) (switch_idx : Nat) :
    Except String (List (Nat × Nat)) :=
  if plane < 0 ∨ plane > (P.nr_of_planes : Int) then Except.error fabricMsg
  else Except.ok (connectPlaneEdges P plane.toNat switch_idx)

/-- The two plane-cursor loops of Fabric.gen_graph: walk a list of switch
indices, connecting each to the current plane and advancing the plane
counter modulo nr_of_planes. -/
def planeCursorGo (P : Params) : List Nat → Nat → List (Nat × Nat)
  | [], _ => []
  | i :: rest, plane =>
      connectPlaneEdges P plane i ++
        planeCursorGo P rest ((plane + 1) % P.nr_of_planes)

/-- The intra-pod loop of Fabric.gen_graph: every ToR switch connects in both
directions to all nr_of_planes fabric switches of its pod, the pod index
being (i - 1) / port_count. -/
def intraPodEdges (P : Params) : List (Nat × Nat) :=
  (tor_idx_range P).flatMap fun i =>
    (List.range P.nr_of_planes).flatMap fun j =>
      [(i, last_tor_idx P + 1 + P.nr_of_planes * ((i - 1) / P.port_count) + j),
       (last_tor_idx P + 1 + P.nr_of_planes * ((i - 1) / P.port_count) + j, i)]

def edges (P : Params) : List (Nat × Nat) :=
  intraPodEdges P ++ planeCursorGo P (fabric_idx_range P) 0 ++
    planeCursorGo P (edge_idx_range P) 0

/-- Fabric.gen_graph: nodes from gen_nodes over the four layer sizes, the
three wiring sections, then init_capacities. -/
def gen_graph (α : Type) (P : Params) (cf : Option (CapacityFunction Params α)) :
    DiGraph α :=
  init_capacities P cf
    { gen_nodes α [last_tor_idx P, P.nr_of_planes * P.server_pods,
        P.nr_of_planes * P.server_pods, P.edge_pods * P.nr_of_planes] with
      edges := edges P }

end Fabric

namespace Jupiter

/-- The switch-level Jupiter topology object: its two structural parameters
(the per-block switch counts are fixed constants of the class). -/
structure Params where
  spine_block_count : Nat
  aggregation_block_count : Nat
deriving DecidableEq

def switches_per_spine : Nat := 6

def switches_per_middle_block : Nat := 4

def middle_block_per_aggregation : Nat := 8

def tors_per_aggregation_block : Nat := 32

def jupMsg : String := "We need at least as many spine blocks as aggregation blocks!"

/-- Jupiter.__init__: reject spine_block_count < aggregation_block_count,
then run the base-class capacity-arity validation. -/
def init {α : Type} (S A : Nat) (cf : Option (CapacityFunction Params α)) :
    Except String Params :=
  if S < A then Except.error jupMsg
  else (capacity_check cf).map (fun _ => ⟨S, A⟩)

def tor_idx_range (A : Nat) : List Nat := List.range' 1 (A * 32)

def aggregation_idx_range (A : Nat) : List Nat := List.range' (A * 32 + 1) (A * 8 * 4)

def spine_idx_range (S A : Nat) : List Nat := List.range' (A * 32 + A * 8 * 4 + 1) (S * 6)

def indices (S A : Nat) : List (List Nat) :=
  [tor_idx_range A, aggregation_idx_range A, spine_idx_range S A]

/-- The tors nested list of gen_graph: ids are handed out by a counter
starting at 1, one per (aggregation_block, tor) pair in loop order, so
tors[ab][t] = 32 ab + t + 1. -/
def torNode (ab t : Nat) : Nat := 32 * ab + t + 1

/-- The aggregation nested list of gen_graph: the counter continues from the
first aggregation index (asserted equal to A*32 + 1), one id per
(aggregation_block, middle_block, switch) triple in loop order, so
aggregation[ab][mb][sw] = 32 A + 32 ab + 4 mb + sw + 1. -/
def aggNode (A ab mb sw : Nat) : Nat := 32 * A + 32 * ab + 4 * mb + sw + 1

/-- The spines nested list of gen_graph: the counter continues from the first
spine index (asserted equal to A*32 + A*32 + 1), one id per
(spine_block, switch) pair in loop order, so
spines[sb][j] = 64 A + 6 sb + j + 1. -/
def spineSwitch (A sb j : Nat) : Nat := 64 * A + 6 * sb + j + 1

/-- The intra-spine-block wiring: for each spine block, each switch connects
in both directions to every earlier switch of the same block (the running
spine_idx counter equals 6 sb + sw, so spine_idx_range[spine_idx] =
spineSwitch A sb sw). -/
def intraSpineEdges (S A : Nat) : List (Nat × Nat) :=
  (List.range S).flatMap fun sb =>
    (List.range switches_per_spine).flatMap fun sw =>
      (List.range sw).flatMap fun previous =>
        [(spineSwitch A sb sw, spineSwitch A sb previous),
         (spineSwitch A sb previous, spineSwitch A sb sw)]

/-- One advance of the uplink cursor (spine_block_idx, spine_switch_pos):
the block index steps modulo spine_block_count, and the switch position
steps modulo 6 exactly when the block index wraps to 0. -/
def cursorStep (S : Nat) (st : Nat × Nat) : Nat × Nat :=
  let b := (st.1 + 1) % S
  (b, if b = 0 then (st.2 + 1) % switches_per_spine else st.2)

/-- The inner uplink loop of an aggregation switch: k cursor-driven
connections (both directions) from aggId to spines[spine_block_idx]
[spine_switch_pos], threading the cursor state. -/
def uplinkBurst (S A aggId : Nat) : Nat → Nat × Nat → List (Nat × Nat) × (Nat × Nat)
  | 0, st => ([], st)
  | k + 1, st =>
      let v2 := spineSwitch A st.1 st.2
      let rest := uplinkBurst S A aggId k (cursorStep S st)
      ((aggId, v2) :: (v2, aggId) :: rest.1, rest.2)

/-- The body of the aggregation loop for one switch (ab, mb, sw): the
intra-middle-block mesh edges to every earlier switch of the middle block,
followed by its 8 cursor-driven uplinks. -/
def aggSwitchBlock (S A ab mb sw : Nat) (st : Nat × Nat) :
    List (Nat × Nat) × (Nat × Nat) :=
  let intra := (List.range sw).flatMap fun previous =>
    [(aggNode A ab mb sw, aggNode A ab mb previous),
     (aggNode A ab mb previous, aggNode A ab mb sw)]
  let up := uplinkBurst S A (aggNode A ab mb sw) 8 st
  (intra ++ up.1, up.2)

/-- The aggregation switches in loop order: (ab, mb, sw) for ab < A,
mb < 8, sw < 4. -/
def aggTriples (A : Nat) : List (Nat × Nat × Nat) :=
  (List.range A).flatMap fun ab =>
    (List.range middle_block_per_aggregation).flatMap fun mb =>
      (List.range switches_per_middle_block).map fun sw => (ab, mb, sw)

/-- The aggregation section of gen_graph: fold the per-switch bodies over the
switches in loop order, threading the global uplink cursor. -/
def aggFold (S A : Nat) : List (Nat × Nat × Nat) → Nat × Nat →
    List (Nat × Nat) × (Nat × Nat)
  | [], st => ([], st)
  | (ab, mb, sw) :: rest, st =>
      let blk := aggSwitchBlock S A ab mb sw st
      let tail := aggFold S A rest blk.2
      (blk.1 ++ tail.1, tail.2)

def aggSection (S A : Nat) : List (Nat × Nat) :=
  (aggFold S A (aggTriples A) (0, 0)).1

/-- The ToR wiring of gen_graph: each ToR (position t in its aggregation
block) connects, for each of the 8 middle blocks, in both directions to the
switches at positions t / 8 and (t / 8 + 1) % 4 of that middle block. -/
def torEdges (A : Nat) : List (Nat × Nat) :=
  (List.range A).flatMap fun ab =>
    (List.range tors_per_aggregation_block).flatMap fun t =>
      (List.range middle_block_per_aggregation).flatMap fun out =>
        [(torNode ab t, aggNode A ab out (t / 8)),
         (aggNode A ab out (t / 8), torNode ab t),
         (torNode ab t, aggNode A ab out ((t / 8 + 1) % 4)),
         (aggNode A ab out ((t / 8 + 1) % 4), torNode ab t)]

def edges (S A : Nat) : List (Nat × Nat) :=
  intraSpineEdges S A ++ aggSection S A ++ torEdges A

/-- Jupiter.gen_graph: nodes from gen_nodes over the three layer sizes, the
three wiring sections, then init_capacities. -/
def gen_graph (α : Type) (S A : Nat) (cf : Option (CapacityFunction Params α)) :
    DiGraph α :=
  init_capacities ⟨S, A⟩ cf
    { gen_nodes α [A * 32, A * 8 * 4, S * 6] with edges := edges S A }

/-- Closed form of the uplink cursor after c advances from (0, 0). -/
def stateOf (S c : Nat) : Nat × Nat := (c % S, c / S % 6)

/-- The spine switch hit by the c-th uplink (0-based, counted over the whole
generation) under the closed-form cursor. -/
def spineTarget (S A c : Nat) : Nat := spineSwitch A (c % S) (c / S % 6)

/-- Closed form of the aggregation section: the same per-switch blocks as
aggFold, with the cursor state replaced by the global uplink counter c. -/
def closedAggGo (S A : Nat) : List (Nat × Nat × Nat) → Nat → List (Nat × Nat)
  | [], _ => []
  | (ab, mb, sw) :: rest, c =>
      ((List.range sw).flatMap fun previous =>
        [(aggNode A ab mb sw, aggNode A ab mb previous),
         (aggNode A ab mb previous, aggNode A ab mb sw)])
      ++ ((List.range 8).flatMap fun t =>
        [(aggNode A ab mb sw, spineTarget S A (c + t)),
         (spineTarget S A (c + t), aggNode A ab mb sw)])
      ++ closedAggGo S A rest (c + 8)

/-- The aggregation-to-spine adds of the aggregation section in generation
order, keyed by the global uplink counter. -/
def closedUpGo (S A : Nat) : List (Nat × Nat × Nat) → Nat → List (Nat × Nat)
  | [], _ => []
  | (ab, mb, sw) :: rest, c =>
      ((List.range 8).map fun t => (aggNode A ab mb sw, spineTarget S A (c + t)))
      ++ closedUpGo S A rest (c + 8)

/-- Decides whether a directed edge points from the aggregation layer into
the spine layer. -/
def isUplink (S A : Nat) (e : Nat × Nat) : Bool :=
  decide (32 * A + 1 ≤ e.1 ∧ e.1 ≤ 64 * A ∧ 64 * A + 1 ≤ e.2 ∧ e.2 ≤ 64 * A + 6 * S)

end Jupiter

namespace JupiterBl

/-- The block-level Jupiter topology object (class Jupiter_bl): its two
structural parameters; ports_per_middle_block_up is the fixed constant 32. -/
structure Params where
  spine_block_count : Nat
  aggregation_block_count : Nat
deriving DecidableEq

def ports_per_middle_block_up : Nat := 32

/-- Jupiter_bl.__init__: identical validation to switch-level Jupiter. -/
def init {α : Type} (S A : Nat) (cf : Option (CapacityFunction Params α)) :
    Except String Params :=
  if S < A then Except.error Jupiter.jupMsg
  else (capacity_check cf).map (fun _ => ⟨S, A⟩)

def tor_idx_range (A : Nat) : List Nat := List.range' 1 (A * 32)

def aggregation_idx_range (A : Nat) : List Nat := List.range' (A * 32 + 1) (A * 8)

def spine_idx_range (S A : Nat) : List Nat := List.range' (A * 32 + A * 8 + 1) S

def indices (S A : Nat) : List (List Nat) :=
  [tor_idx_range A, aggregation_idx_range A, spine_idx_range S A]

/-- tors[ab][t] under the sequential id counter: 32 ab + t + 1. -/
def torNode (ab t : Nat) : Nat := 32 * ab + t + 1

/-- aggregation[ab][mb] under the sequential id counter (one node per middle
block): 32 A + 8 ab + mb + 1. -/
def aggNode (A ab mb : Nat) : Nat := 32 * A + 8 * ab + mb + 1

/-- spines[sb] under the sequential id counter (one node per spine block):
40 A + sb + 1. -/
def spineNode (A sb : Nat) : Nat := 40 * A + sb + 1

/-- ToR wiring: every ToR connects in both directions to each of the 8 middle
block nodes of its aggregation block. -/
def torEdges (A : Nat) : List (Nat × Nat) :=
  (List.range A).flatMap fun ab =>
    (List.range 32).flatMap fun t =>
      (List.range 8).flatMap fun out =>
        [(torNode ab t, aggNode A ab out), (aggNode A ab out, torNode ab t)]

/-- The full-bipartite branch (taken when ports_per_middle_block_up ≥
spine_block_count): every middle block node connects in both directions to
every spine node (v2 iterates over spine_idx_range). -/
def fullBipartiteEdges (S A : Nat) : List (Nat × Nat) :=
  (List.range A).flatMap fun ab =>
    (List.range 8).flatMap fun mb =>
      (List.range S).flatMap fun s =>
        [(aggNode A ab mb, spineNode A s), (spineNode A s, aggNode A ab mb)]

/-- The round-robin branch inner loop: ports_per_middle_block_up connections
(both directions) from one middle block node to spines[spine_block_idx],
incrementing the cursor and wrapping it to 0 at spine_block_count. -/
def rrBurst (S A aggId : Nat) : Nat → Nat → List (Nat × Nat) × Nat
  | 0, idx => ([], idx)
  | k + 1, idx =>
      let v2 := spineNode A idx
      let idx' := if idx + 1 = S then 0 else idx + 1
      let rest := rrBurst S A aggId k idx'
      ((aggId, v2) :: (v2, aggId) :: rest.1, rest.2)

/-- The middle block nodes in loop order: (ab, mb) for ab < A, mb < 8. -/
def mbPairs (A : Nat) : List (Nat × Nat) :=
  (List.range A).flatMap fun ab => (List.range 8).map fun mb => (ab, mb)

/-- The round-robin branch: fold the per-middle-block bursts over all middle
blocks in loop order, threading the global spine_block_idx cursor (it is
initialised once, before the aggregation-block loop, and never reset). -/
def rrFold (S A : Nat) : List (Nat × Nat) → Nat → List (Nat × Nat) × Nat
  | [], idx => ([], idx)
  | (ab, mb) :: rest, idx =>
      let blk := rrBurst S A (aggNode A ab mb) ports_per_middle_block_up idx
      let tail := rrFold S A rest blk.2
      (blk.1 ++ tail.1, tail.2)

/-- The aggregation-to-spine section of Jupiter_bl.gen_graph: the branch on
ports_per_middle_block_up ≥ spine_block_count selects full-bipartite wiring,
otherwise the global round-robin wiring. -/
def aggSpineSection (S A : Nat) : List (Nat × Nat) :=
  if ports_per_middle_block_up ≥ S then fullBipartiteEdges S A
  else (rrFold S A (mbPairs A) 0).1

def edges (S A : Nat) : List (Nat × Nat) :=
  torEdges A ++ aggSpineSection S A

/-- Jupiter_bl.gen_graph: nodes from gen_nodes over the three layer sizes,
the two wiring sections, then init_capacities. -/
def gen_graph (α : Type) (S A : Nat) (cf : Option (CapacityFunction Params α)) :
    DiGraph α :=
  init_capacities ⟨S, A⟩ cf
    { gen_nodes α [A * 32, A * 8, S] with edges := edges S A }

/-- Closed form of the round-robin branch: the same per-middle-block bursts
as rrFold, with the cursor replaced by the global link counter c. -/
def closedRRGo (S A : Nat) : List (Nat × Nat) → Nat → List (Nat × Nat)
  | [], _ => []
  | (ab, mb) :: rest, c =>
      ((List.range 32).flatMap fun t =>
        [(aggNode A ab mb, spineNode A ((c + t) % S)),
         (spineNode A ((c + t) % S), aggNode A ab mb)])
      ++ closedRRGo S A rest (c + 32)

end JupiterBl

theorem swapClosed_nil : SwapClosed [] := by
  intro p hp
  simp at hp

theorem swapClosed_pair (a b : Nat) : SwapClosed [(a, b), (b, a)] := by
  intro p hp
  simp only [List.mem_cons, List.not_mem_nil, or_false] at hp ⊢
  rcases hp with h | h <;> subst h <;> simp

theorem swapClosed_append {l₁ l₂ : List (Nat × Nat)}
    (h₁ : SwapClosed l₁) (h₂ : SwapClosed l₂) : SwapClosed (l₁ ++ l₂) := by
  intro p hp
  rcases List.mem_append.1 hp with h | h
  · exact List.mem_append.2 (Or.inl (h₁ p h))
  · exact List.mem_append.2 (Or.inr (h₂ p h))

theorem swapClosed_flatMap {β : Type} {l : List β} {f : β → List (Nat × Nat)}
    (h : ∀ x ∈ l, SwapClosed (f x)) : SwapClosed (l.flatMap f) := by
  intro p hp
  rcases List.mem_flatMap.1 hp with ⟨x, hx, hpx⟩
  exact List.mem_flatMap.2 ⟨x, hx, h x hx p hpx⟩

theorem range_flatMap_blocks {β : Type} (k : Nat) (f : Nat → List β) :
    ∀ n, (List.range n).flatMap (fun m => (List.range k).flatMap fun t => f (k * m + t)) =
      (List.range (k * n)).flatMap f := by
  intro n
  induction n with
  | zero => simp
  | succ n ih =>
      rw [List.range_succ, List.flatMap_append, ih, Nat.mul_succ, List.range_add,
        List.flatMap_append]
      congr 1
      simp [List.flatMap_map, Function.comp]

theorem range_map_blocks {β : Type} (k : Nat) (f : Nat → β) :
    ∀ n, (List.range n).flatMap (fun m => (List.range k).map fun t => f (k * m + t)) =
      (List.range (k * n)).map f := by
  intro n
  induction n with
  | zero => simp
  | succ n ih =>
      rw [List.range_succ, List.flatMap_append, ih, Nat.mul_succ, List.range_add,
        List.map_append]
      congr 1
      simp [List.flatMap_map, Function.comp]

theorem two_digit_inj {b q₁ r₁ q₂ r₂ : Nat} (h₁ : r₁ < b) (h₂ : r₂ < b)
    (h : b * q₁ + r₁ = b * q₂ + r₂) : q₁ = q₂ ∧ r₁ = r₂ := by
  have hb : 0 < b := by omega
  have hr : r₁ = r₂ := by
    have e₁ : (b * q₁ + r₁) % b = r₁ := by
      rw [Nat.mul_add_mod]
      exact Nat.mod_eq_of_lt h₁
    have e₂ : (b * q₂ + r₂) % b = r₂ := by
      rw [Nat.mul_add_mod]
      exact Nat.mod_eq_of_lt h₂
    rw [← e₁, ← e₂, h]
  refine ⟨?_, hr⟩
  subst hr
  have := Nat.add_right_cancel h
  exact Nat.eq_of_mul_eq_mul_left hb this

theorem succ_mod_wrap {S c : Nat} (hS : 1 ≤ S) :
    (c + 1) % S = if c % S + 1 = S then 0 else c % S + 1 := by
  have hlt : c % S < S := Nat.mod_lt _ (by omega)
  have key : (c + 1) % S = (c % S + 1) % S := by
    conv_lhs => rw [← Nat.mod_add_div c S]
    rw [Nat.add_right_comm, Nat.add_mul_mod_self_left]
  by_cases h : c % S + 1 = S
  · rw [key, h, Nat.mod_self, if_pos rfl]
  · rw [key, Nat.mod_eq_of_lt (by omega), if_neg h]

theorem count_mod_filter (M r : Nat) (hr : r < M) :
    ∀ K, ((List.range K).filter (fun k => k % M == r)).length =
      K / M + if r < K % M then 1 else 0 := by
  intro K
  have hM : 0 < M := by omega
  induction K with
  | zero =>
      simp only [List.range_zero, List.filter_nil, List.length_nil, Nat.zero_div,
        Nat.zero_mod]
      rw [if_neg (by omega)]
  | succ K ih =>
      rw [List.range_succ, List.filter_append, List.length_append, ih]
      have hKlt : K % M < M := Nat.mod_lt _ hM
      have hmod : (K + 1) % M = (K % M + 1) % M := by
        conv_lhs => rw [← Nat.mod_add_div K M]
        rw [Nat.add_right_comm, Nat.add_mul_mod_self_left]
      have hlast : (List.filter (fun k => k % M == r) [K]).length =
          if K % M = r then 1 else 0 := by
        by_cases hrk : K % M = r
        · rw [if_pos hrk]
          simp [hrk]
        · rw [if_neg hrk]
          simp only [List.filter_cons, List.filter_nil]
          rw [if_neg (by simpa using hrk)]
          rfl
      rw [hlast]
      by_cases hw : K % M + 1 = M
      · have hm0 : (K + 1) % M = 0 := by rw [hmod, hw, Nat.mod_self]
        have hdiv : (K + 1) / M = K / M + 1 :=
          Nat.succ_div_of_dvd (Nat.dvd_of_mod_eq_zero hm0)
        rw [hdiv, hm0]
        split_ifs <;> omega
      · have hm1 : (K + 1) % M = K % M + 1 := by
          rw [hmod, Nat.mod_eq_of_lt (by omega)]
        have hdiv : (K + 1) / M = K / M := by
          apply Nat.succ_div_of_not_dvd
          intro hdvd
          have h0 : (K + 1) % M = 0 := Nat.mod_eq_zero_of_dvd hdvd
          omega
        rw [hdiv, hm1]
        split_ifs <;> omega

namespace FatTree

theorem intraPodGo_range' (torCount per aggPer : Nat) :
    ∀ (len i : Nat),
      intraPodGo torCount per aggPer (List.range' (i + 1) len) (aggPer * (i / per)) =
      (List.range' (i + 1) len).flatMap (fun q =>
        (List.range aggPer).flatMap fun j =>
          [(q + 1, torCount + aggPer * (q / per) + j + 1),
           (torCount + aggPer * (q / per) + j + 1, q + 1)]) := by
  intro len
  induction len with
  | zero => intro i; rfl
  | succ len ih =>
      intro i
      rw [List.range'_succ, intraPodGo]
      have hstep : (if i + 1 ≠ 0 ∧ (i + 1) % per = 0
          then aggPer * (i / per) + aggPer else aggPer * (i / per)) =
          aggPer * ((i + 1) / per) := by
        by_cases hd : (i + 1) % per = 0
        · rw [if_pos ⟨by omega, hd⟩,
            Nat.succ_div_of_dvd (Nat.dvd_of_mod_eq_zero hd), Nat.mul_add, Nat.mul_one]
        · rw [if_neg (by simp [hd]),
            Nat.succ_div_of_not_dvd (fun hdvd => hd (Nat.mod_eq_zero_of_dvd hdvd))]
      rw [hstep]
      have := ih (i + 1)
      rw [List.flatMap_cons]
      congr 1

theorem intraPodEdges_closed (p : Nat) :
    intraPodEdges p = (List.range (tor_switches p)).flatMap (fun q =>
      (List.range (aggregation_switches p / p)).flatMap fun j =>
        [(q + 1, tor_switches p + (aggregation_switches p / p) * (q / (tor_switches p / p)) + j + 1),
         (tor_switches p + (aggregation_switches p / p) * (q / (tor_switches p / p)) + j + 1,
          q + 1)]) := by
  rw [intraPodEdges, List.range_eq_range']
  cases htor : tor_switches p with
  | zero => rfl
  | succ n =>
      rw [show List.range' 0 (n + 1) = 0 :: List.range' 1 n from List.range'_succ 0 n 1,
        intraPodGo]
      rw [if_neg (by simp)]
      rw [List.flatMap_cons]
      congr 1
      · simp
      · have := intraPodGo_range' (tor_switches p) (tor_switches p / p)
          (aggregation_switches p / p) n 0
        simp only [Nat.zero_div, Nat.mul_zero] at this
        rw [htor] at this
        exact this

theorem coreGo_range' (aggCount sPer per : Nat) (hper : 1 ≤ per) :
    ∀ (len i : Nat),
      coreGo aggCount sPer per (List.range' (i + 1) len) (sPer * (i % per + 1)) =
      (List.range' (i + 1) len).flatMap (fun q =>
        (List.range sPer).flatMap fun j =>
          [(aggCount + q + 1, 2 * aggCount + sPer * (q % per) + j + 1),
           (2 * aggCount + sPer * (q % per) + j + 1, aggCount + q + 1)]) := by
  intro len
  induction len with
  | zero => intro i; rfl
  | succ len ih =>
      intro i
      rw [List.range'_succ, coreGo]
      have hmodlt : i % per < per := Nat.mod_lt _ (by omega)
      have hsucc : (i + 1) % per = if i % per + 1 = per then 0 else i % per + 1 :=
        succ_mod_wrap hper
      have hstep : (if i + 1 ≠ 0 ∧ (i + 1) % per = 0 then 0 else sPer * (i % per + 1)) =
          sPer * ((i + 1) % per) := by
        by_cases hw : i % per + 1 = per
        · have h0 : (i + 1) % per = 0 := by rw [hsucc, if_pos hw]
          rw [if_pos ⟨by omega, h0⟩, h0, Nat.mul_zero]
        · have h1 : (i + 1) % per = i % per + 1 := by rw [hsucc, if_neg hw]
          rw [h1, if_neg (by omega)]
      rw [hstep]
      have hnext : sPer * ((i + 1) % per) + sPer = sPer * ((i + 1) % per + 1) := by
        ring
      rw [hnext]
      have := ih (i + 1)
      rw [List.flatMap_cons]
      congr 1

theorem coreEdges_closed (p : Nat) (hper : 1 ≤ aggregation_switches p / p) :
    coreEdges p = (List.range (aggregation_switches p)).flatMap (fun q =>
      (List.range (p / 2)).flatMap fun j =>
        [(aggregation_switches p + q + 1,
          2 * aggregation_switches p + (p / 2) * (q % (aggregation_switches p / p)) + j + 1),
         (2 * aggregation_switches p + (p / 2) * (q % (aggregation_switches p / p)) + j + 1,
          aggregation_switches p + q + 1)]) := by
  rw [coreEdges, List.range_eq_range']
  cases hagg : aggregation_switches p with
  | zero => rfl
  | succ n =>
      rw [show List.range' 0 (n + 1) = 0 :: List.range' 1 n from List.range'_succ 0 n 1,
        coreGo]
      rw [if_neg (by simp)]
      rw [List.flatMap_cons]
      have hrec := coreGo_range' (aggregation_switches p) (p / 2)
        (aggregation_switches p / p) hper n 0
      simp only [Nat.zero_mod, Nat.zero_add, Nat.mul_one] at hrec
      rw [hagg] at hrec
      simp only [Nat.zero_add]
      congr 1

end FatTree

theorem length_flatMap_const {β γ : Type} (l : List β) (f : β → List γ) (c : Nat)
    (h : ∀ x ∈ l, (f x).length = c) : (l.flatMap f).length = l.length * c := by
  induction l with
  | nil => simp
  | cons x xs ih =>
      rw [List.flatMap_cons, List.length_append, h x (by simp),
        ih (fun y hy => h y (by simp [hy])), List.length_cons]
      ring

namespace Fabric

theorem planeWhile_closed (sw n last : Nat) (hn : 1 ≤ n) :
    ∀ (fuel cur : Nat), last + 1 ≤ cur + fuel →
      planeWhile sw n last fuel cur =
      (List.range (if cur ≤ last then (last - cur) / n + 1 else 0)).flatMap
        (fun t => [(cur + n * t, sw), (sw, cur + n * t)]) := by
  intro fuel
  induction fuel with
  | zero =>
      intro cur hcur
      rw [planeWhile, if_neg (by omega)]
      rfl
  | succ fuel ih =>
      intro cur hcur
      rw [planeWhile]
      by_cases hle : cur ≤ last
      · rw [if_pos hle, if_pos hle, List.range_succ_eq_map, List.flatMap_cons,
          List.flatMap_map]
        have hshift : ∀ t : Nat, cur + n * (t + 1) = cur + n + n * t := by
          intro t
          rw [Nat.mul_succ]
          omega
        have hrec := ih (cur + n) (by omega)
        have hcnt : (if cur + n ≤ last then (last - (cur + n)) / n + 1 else 0) =
            (last - cur) / n := by
          by_cases hle2 : cur + n ≤ last
          · rw [if_pos hle2]
            have : (last - cur) / n = (last - cur - n) / n + 1 :=
              Nat.div_eq_sub_div (by omega) (by omega)
            rw [this]
            congr 2
            omega
          · rw [if_neg hle2, Nat.div_eq_of_lt (by omega)]
        rw [hcnt] at hrec
        rw [hrec]
        simp only [Nat.mul_zero, Nat.add_zero, List.cons_append, List.nil_append,
          Nat.succ_eq_add_one, hshift]
      · rw [if_neg hle, if_neg hle]
        rfl

theorem planeCursorGo_closed (P : Params) :
    ∀ (len s q : Nat),
      planeCursorGo P (List.range' s len) (q % P.nr_of_planes) =
      (List.range len).flatMap
        (fun t => connectPlaneEdges P ((q + t) % P.nr_of_planes) (s + t)) := by
  intro len
  induction len with
  | zero => intro s q; rfl
  | succ len ih =>
      intro s q
      rw [List.range'_succ, planeCursorGo, List.range_succ_eq_map, List.flatMap_cons,
        List.flatMap_map]
      congr 1
      have hstep : (q % P.nr_of_planes + 1) % P.nr_of_planes =
          (q + 1) % P.nr_of_planes := Nat.mod_add_mod q P.nr_of_planes 1
      rw [hstep]
      have hrec := ih (s + 1) (q + 1)
      rw [hrec]
      congr 1
      funext t
      simp only [Nat.succ_eq_add_one]
      have e1 : q + 1 + t = q + (t + 1) := by omega
      have e2 : s + 1 + t = s + (t + 1) := by omega
      rw [e1, e2]

theorem connectPlaneEdges_eq (P : Params) (plane sw : Nat)
    (hn : 1 ≤ P.nr_of_planes) (hsp : 1 ≤ P.server_pods)
    (hplane : plane < P.nr_of_planes) :
    connectPlaneEdges P plane sw =
    (List.range P.server_pods).flatMap (fun t =>
      [(last_fabric_idx P + 1 + plane + P.nr_of_planes * t, sw),
       (sw, last_fabric_idx P + 1 + plane + P.nr_of_planes * t)]) := by
  have hcur : last_fabric_idx P + 1 + plane ≤ last_spine_idx P := by
    have : plane < P.nr_of_planes * P.server_pods :=
      Nat.lt_of_lt_of_le hplane (Nat.le_mul_of_pos_right _ (by omega))
    simp only [last_spine_idx]
    omega
  rw [connectPlaneEdges,
    planeWhile_closed sw P.nr_of_planes (last_spine_idx P) hn _ _ (by omega),
    if_pos hcur]
  congr 2
  have hls : last_spine_idx P - (last_fabric_idx P + 1 + plane) =
      P.nr_of_planes * (P.server_pods - 1) + (P.nr_of_planes - 1 - plane) := by
    obtain ⟨m, hm⟩ : ∃ m, P.server_pods = m + 1 := ⟨P.server_pods - 1, by omega⟩
    have hexp : P.nr_of_planes * (m + 1) = P.nr_of_planes * m + P.nr_of_planes := by ring
    have hm1 : m + 1 - 1 = m := by omega
    simp only [last_spine_idx, hm, hexp, hm1]
    omega
  rw [hls, Nat.mul_add_div (by omega : 0 < P.nr_of_planes),
    Nat.div_eq_of_lt (by omega)]
  omega

end Fabric

namespace Jupiter

theorem cursorStep_stateOf (S c : Nat) :
    cursorStep S (stateOf S c) = stateOf S (c + 1) := by
  simp only [cursorStep, stateOf, switches_per_spine]
  have hb : (c % S + 1) % S = (c + 1) % S := Nat.mod_add_mod c S 1
  rw [hb]
  by_cases h0 : (c + 1) % S = 0
  · rw [if_pos h0]
    have hdiv : (c + 1) / S = c / S + 1 :=
      Nat.succ_div_of_dvd (Nat.dvd_of_mod_eq_zero h0)
    rw [hdiv, Nat.mod_add_mod]
  · rw [if_neg h0]
    have hdiv : (c + 1) / S = c / S :=
      Nat.succ_div_of_not_dvd (fun hd => h0 (Nat.mod_eq_zero_of_dvd hd))
    rw [hdiv]

theorem uplinkBurst_closed (S A aggId : Nat) :
    ∀ (k c : Nat),
      uplinkBurst S A aggId k (stateOf S c) =
      ((List.range k).flatMap (fun t =>
        [(aggId, spineTarget S A (c + t)), (spineTarget S A (c + t), aggId)]),
       stateOf S (c + k)) := by
  intro k
  induction k with
  | zero => intro c; rfl
  | succ k ih =>
      intro c
      rw [uplinkBurst, cursorStep_stateOf S c]
      have hrec := ih (c + 1)
      rw [hrec]
      rw [List.range_succ_eq_map, List.flatMap_cons, List.flatMap_map]
      have hshift : ∀ t : Nat, c + 1 + t = c + (t + 1) := by intro t; omega
      have hlast : c + 1 + k = c + (k + 1) := by omega
      simp only [Nat.succ_eq_add_one, Nat.add_zero, List.cons_append, List.nil_append,
        hshift, hlast]
      rfl

theorem aggFold_closed (S A : Nat) :
    ∀ (ts : List (Nat × Nat × Nat)) (c : Nat),
      aggFold S A ts (stateOf S c) = (closedAggGo S A ts c, stateOf S (c + 8 * ts.length)) := by
  intro ts
  induction ts with
  | nil => intro c; simp [aggFold, closedAggGo]
  | cons hd rest ih =>
      intro c
      obtain ⟨ab, mb, sw⟩ := hd
      rw [aggFold, aggSwitchBlock, closedAggGo]
      rw [uplinkBurst_closed S A (aggNode A ab mb sw) 8 c]
      have hrec := ih (c + 8)
      rw [hrec]
      simp only [List.append_assoc, List.length_cons]
      have harith : c + 8 + 8 * rest.length = c + 8 * (rest.length + 1) := by ring
      rw [harith]

theorem aggSection_closed (S A : Nat) :
    aggSection S A = closedAggGo S A (aggTriples A) 0 := by
  have h0 : stateOf S 0 = (0, 0) := by
    simp [stateOf]
  have key := aggFold_closed S A (aggTriples A) 0
  rw [h0] at key
  rw [aggSection, key]

end Jupiter

namespace JupiterBl

theorem rrBurst_closed (S A aggId : Nat) (hS : 1 ≤ S) :
    ∀ (k c : Nat),
      rrBurst S A aggId k (c % S) =
      ((List.range k).flatMap (fun t =>
        [(aggId, spineNode A ((c + t) % S)), (spineNode A ((c + t) % S), aggId)]),
       (c + k) % S) := by
  intro k
  induction k with
  | zero => intro c; rfl
  | succ k ih =>
      intro c
      rw [rrBurst]
      have hstep : (if c % S + 1 = S then 0 else c % S + 1) = (c + 1) % S :=
        (succ_mod_wrap hS).symm
      rw [hstep]
      have hrec := ih (c + 1)
      rw [hrec]
      rw [List.range_succ_eq_map, List.flatMap_cons, List.flatMap_map]
      have hshift : ∀ t : Nat, c + 1 + t = c + (t + 1) := by intro t; omega
      have hlast : c + 1 + k = c + (k + 1) := by omega
      simp only [Nat.succ_eq_add_one, Nat.add_zero, List.cons_append, List.nil_append,
        hshift, hlast]

theorem rrFold_closed (S A : Nat) (hS : 1 ≤ S) :
    ∀ (ts : List (Nat × Nat)) (c : Nat),
      rrFold S A ts (c % S) = (closedRRGo S A ts c, (c + 32 * ts.length) % S) := by
  intro ts
  induction ts with
  | nil => intro c; simp [rrFold, closedRRGo]
  | cons hd rest ih =>
      intro c
      obtain ⟨ab, mb⟩ := hd
      rw [rrFold, closedRRGo]
      rw [show ports_per_middle_block_up = 32 from rfl]
      rw [rrBurst_closed S A (aggNode A ab mb) hS 32 c]
      have hrec := ih (c + 32)
      rw [hrec]
      simp only [List.length_cons]
      have harith : c + 32 + 32 * rest.length = c + 32 * (rest.length + 1) := by ring
      rw [harith]

theorem aggSpineSection_rr (S A : Nat) (hS : 32 < S) :
    aggSpineSection S A = closedRRGo S A (mbPairs A) 0 := by
  have key := rrFold_closed S A (by omega) (mbPairs A) 0
  rw [Nat.zero_mod] at key
  rw [aggSpineSection, if_neg (by simp only [ports_per_middle_block_up]; omega), key]

end JupiterBl

theorem init_capacities_none {T α : Type} (self : T) (G : DiGraph α) :
    init_capacities self none G = G := rfl

theorem init_capacities_arity2 {T α : Type} (self : T) (f : CapacityFunction T α)
    (G : DiGraph α) (h2 : f.arity = 2) (e : Nat × Nat) (he : e ∈ G.edges) :
    (init_capacities self (some f) G).cap e.1 e.2 =
      some (f.call [CapArg.id e.1, CapArg.id e.2]) := by
  simp only [init_capacities, h2, if_pos]
  rw [if_pos (by rwa [Prod.mk.eta])]

theorem init_capacities_arity3 {T α : Type} (self : T) (f : CapacityFunction T α)
    (G : DiGraph α) (h3 : f.arity = 3) (e : Nat × Nat) (he : e ∈ G.edges) :
    (init_capacities self (some f) G).cap e.1 e.2 =
      some (f.call [CapArg.id e.1, CapArg.id e.2, CapArg.topo self]) := by
  simp only [init_capacities, h3]
  rw [if_neg (by omega)]
  simp only [if_pos]
  rw [if_pos (by rwa [Prod.mk.eta])]

/-- C1 (code bug witness): `connect_to_plane_switches` documents valid planes
as 0 .. nr_of_planes - 1 and is specified to raise for any other plane, but
its guard tests `plane > nr_of_planes` instead of `>=`: on the Fabric
topology with server_pods = 2, edge_pods = 1, nr_of_planes = 4,
port_count = 48, the out-of-range call plane = nr_of_planes = 4 is accepted
and wires switch 97 to spine switch 109 (a plane-0 spine) instead of raising
a configuration error. -/
theorem claim_C1 :
    Fabric.connect_to_plane_switches ⟨2, 1, 4, 48⟩ 4 97 =
      Except.ok [(109, 97), (97, 109)] := by
  rfl

/-- C8: construction fails synchronously (the topology object, prerequisite
of any gen_graph call, is never produced) with the configuration error for
each invalid condition: odd port_count for FatTree (so in particular
port_count = 7); spine_block_count < aggregation_block_count for either
Jupiter variant (so in particular 10 < 64); and a capacity function whose
parameter count is below 2 or above 3, for every topology. -/
theorem claim_C8 :
    (∀ (p : Nat) (cf : Option (CapacityFunction FatTree.Params Int)),
      p % 2 = 1 → FatTree.init p cf = Except.error FatTree.ftMsg) ∧
    @FatTree.init Int 7 none = Except.error FatTree.ftMsg ∧
    (∀ (S A : Nat) (cf : Option (CapacityFunction Jupiter.Params Int)),
      S < A → Jupiter.init S A cf = Except.error Jupiter.jupMsg) ∧
    @Jupiter.init Int 10 64 none = Except.error Jupiter.jupMsg ∧
    (∀ (S A : Nat) (cf : Option (CapacityFunction JupiterBl.Params Int)),
      S < A → JupiterBl.init S A cf = Except.error Jupiter.jupMsg) ∧
    @JupiterBl.init Int 10 64 none = Except.error Jupiter.jupMsg ∧
    (∀ (T α : Type) (f : CapacityFunction T α), f.arity < 2 ∨ 3 < f.arity →
      capacity_check (some f) = Except.error capacityMsg) ∧
    (∀ (p : Nat) (f : CapacityFunction FatTree.Params Int),
      p % 2 = 0 → f.arity < 2 ∨ 3 < f.arity →
      FatTree.init p (some f) = Except.error capacityMsg) := by
  refine ⟨?_, ?_, ?_, ?_, ?_, ?_, ?_, ?_⟩
  · intro p cf h
    rw [FatTree.init, if_pos (by omega)]
  · rfl
  · intro S A cf h
    rw [Jupiter.init, if_pos h]
  · rfl
  · intro S A cf h
    rw [JupiterBl.init, if_pos h]
  · rfl
  · intro T α f h
    simp only [capacity_check]
    rw [if_pos (by omega)]
  · intro p f hev h
    rw [FatTree.init, if_neg (by omega)]
    simp only [capacity_check]
    rw [if_pos (by omega)]
    rfl

theorem claim_C8_witness :
    (7 % 2 = 1 ∧
      FatTree.init 7 (none : Option (CapacityFunction FatTree.Params Int)) =
        Except.error FatTree.ftMsg) ∧
    ((10 : Nat) < 64 ∧
      Jupiter.init 10 64 (none : Option (CapacityFunction Jupiter.Params Int)) =
        Except.error Jupiter.jupMsg) ∧
    ((10 : Nat) < 64 ∧
      JupiterBl.init 10 64 (none : Option (CapacityFunction JupiterBl.Params Int)) =
        Except.error Jupiter.jupMsg) ∧
    ((4 < 2 ∨ 3 < 4) ∧
      capacity_check (some (⟨4, fun _ => (0 : Int)⟩ : CapacityFunction Unit Int)) =
        Except.error capacityMsg) ∧
    (6 % 2 = 0 ∧ (4 < 2 ∨ 3 < 4) ∧
      FatTree.init 6 (some (⟨4, fun _ => (0 : Int)⟩ : CapacityFunction FatTree.Params Int)) =
        Except.error capacityMsg) :=
  ⟨⟨by decide, claim_C8.1 7 none (by decide)⟩,
   ⟨by decide, claim_C8.2.2.1 10 64 none (by decide)⟩,
   ⟨by decide, claim_C8.2.2.2.2.1 10 64 none (by decide)⟩,
   ⟨Or.inr (by decide), claim_C8.2.2.2.2.2.2.1 Unit Int _ (Or.inr (by decide))⟩,
   ⟨by decide, Or.inr (by decide),
     claim_C8.2.2.2.2.2.2.2 6 _ (by decide) (Or.inr (by decide))⟩⟩

/-- C7: for each topology variant and any generated graph, a supplied
capacity function of arity 2 (or 3) puts on every edge the capacity obtained
by calling it on the edge's endpoints (plus the topology object for arity 3),
while with no capacity function init_capacities is the identity and no edge
carries a capacity. Stated generically over any fresh graph (covering every
variant, whose gen_graph hands init_capacities exactly such a graph) and
instantiated on the four variants' gen_graph pipelines. -/
theorem claim_C7 :
    (∀ (T α : Type) (self : T) (G : DiGraph α) (f : CapacityFunction T α),
      (f.arity = 2 → ∀ e ∈ G.edges, (init_capacities self (some f) G).cap e.1 e.2 =
        some (f.call [CapArg.id e.1, CapArg.id e.2])) ∧
      (f.arity = 3 → ∀ e ∈ G.edges, (init_capacities self (some f) G).cap e.1 e.2 =
        some (f.call [CapArg.id e.1, CapArg.id e.2, CapArg.topo self])) ∧
      init_capacities self none G = G) ∧
    (∀ (α : Type) (p : Nat) (f : CapacityFunction FatTree.Params α),
      (f.arity = 2 → ∀ e ∈ FatTree.edges p, (FatTree.gen_graph α p (some f)).cap e.1 e.2 =
        some (f.call [CapArg.id e.1, CapArg.id e.2])) ∧
      (f.arity = 3 → ∀ e ∈ FatTree.edges p, (FatTree.gen_graph α p (some f)).cap e.1 e.2 =
        some (f.call [CapArg.id e.1, CapArg.id e.2, CapArg.topo ⟨p⟩])) ∧
      (∀ u v : Nat, (FatTree.gen_graph α p none).cap u v = none)) ∧
    (∀ (α : Type) (P : Fabric.Params) (f : CapacityFunction Fabric.Params α),
      (f.arity = 2 → ∀ e ∈ Fabric.edges P, (Fabric.gen_graph α P (some f)).cap e.1 e.2 =
        some (f.call [CapArg.id e.1, CapArg.id e.2])) ∧
      (f.arity = 3 → ∀ e ∈ Fabric.edges P, (Fabric.gen_graph α P (some f)).cap e.1 e.2 =
        some (f.call [CapArg.id e.1, CapArg.id e.2, CapArg.topo P])) ∧
      (∀ u v : Nat, (Fabric.gen_graph α P none).cap u v = none)) ∧
    (∀ (α : Type) (S A : Nat) (f : CapacityFunction Jupiter.Params α),
      (f.arity = 2 → ∀ e ∈ Jupiter.edges S A, (Jupiter.gen_graph α S A (some f)).cap e.1 e.2 =
        some (f.call [CapArg.id e.1, CapArg.id e.2])) ∧
      (f.arity = 3 → ∀ e ∈ Jupiter.edges S A, (Jupiter.gen_graph α S A (some f)).cap e.1 e.2 =
        some (f.call [CapArg.id e.1, CapArg.id e.2, CapArg.topo ⟨S, A⟩])) ∧
      (∀ u v : Nat, (Jupiter.gen_graph α S A none).cap u v = none)) ∧
    (∀ (α : Type) (S A : Nat) (f : CapacityFunction JupiterBl.Params α),
      (f.arity = 2 → ∀ e ∈ JupiterBl.edges S A, (JupiterBl.gen_graph α S A (some f)).cap e.1 e.2 =
        some (f.call [CapArg.id e.1, CapArg.id e.2])) ∧
      (f.arity = 3 → ∀ e ∈ JupiterBl.edges S A, (JupiterBl.gen_graph α S A (some f)).cap e.1 e.2 =
        some (f.call [CapArg.id e.1, CapArg.id e.2, CapArg.topo ⟨S, A⟩])) ∧
      (∀ u v : Nat, (JupiterBl.gen_graph α S A none).cap u v = none)) := by
  refine ⟨fun T α self G f => ⟨?_, ?_, ?_⟩, fun α p f => ⟨?_, ?_, ?_⟩,
    fun α P f => ⟨?_, ?_, ?_⟩, fun α S A f => ⟨?_, ?_, ?_⟩, fun α S A f => ⟨?_, ?_, ?_⟩⟩
  · exact fun h2 e he => init_capacities_arity2 self f G h2 e he
  · exact fun h3 e he => init_capacities_arity3 self f G h3 e he
  · rfl
  · exact fun h2 e he => init_capacities_arity2 _ f _ h2 e he
  · exact fun h3 e he => init_capacities_arity3 _ f _ h3 e he
  · exact fun u v => rfl
  · exact fun h2 e he => init_capacities_arity2 _ f _ h2 e he
  · exact fun h3 e he => init_capacities_arity3 _ f _ h3 e he
  · exact fun u v => rfl
  · exact fun h2 e he => init_capacities_arity2 _ f _ h2 e he
  · exact fun h3 e he => init_capacities_arity3 _ f _ h3 e he
  · exact fun u v => rfl
  · exact fun h2 e he => init_capacities_arity2 _ f _ h2 e he
  · exact fun h3 e he => init_capacities_arity3 _ f _ h3 e he
  · exact fun u v => rfl

theorem claim_C7_witness :
    ((⟨2, fun _ => (5 : Int)⟩ : CapacityFunction FatTree.Params Int).arity = 2 ∧
      (1, 3) ∈ FatTree.edges 2) ∧
    (FatTree.gen_graph Int 2 (some ⟨2, fun _ => (5 : Int)⟩)).cap 1 3 = some 5 :=
  ⟨⟨rfl, by decide⟩,
    (claim_C7.2.1 Int 2 ⟨2, fun _ => (5 : Int)⟩).1 rfl (1, 3) (by decide)⟩

/-- C4: in FatTree with port_count = 4, the ToR and aggregation layers hold 8
switches each (identifiers 1-8 and 9-16), the core layer 4 switches (17-20);
each of the 4 pods holds ToRs 2p+1, 2p+2 and aggregation switches 2p+9,
2p+10, wired all-to-all inside the pod (and a ToR's aggregation neighbours
are exactly its pod's two); and each aggregation switch links to exactly the
two core switches of its core group (group 0 = 17,18 for even positions in
the pod, group 1 = 19,20 for odd positions). -/
theorem claim_C4 :
    FatTree.tor_idx_range 4 = List.range' 1 8 ∧
    FatTree.aggregation_idx_range 4 = List.range' 9 8 ∧
    FatTree.core_idx_range 4 = List.range' 17 4 ∧
    (∀ pod ∈ List.range 4, ∀ t ∈ [2 * pod + 1, 2 * pod + 2],
      ∀ a ∈ [2 * pod + 9, 2 * pod + 10],
        (t, a) ∈ FatTree.edges 4 ∧ (a, t) ∈ FatTree.edges 4) ∧
    (∀ t ∈ List.range' 1 8,
      ((FatTree.edges 4).filter
        (fun e => e.1 == t && decide (9 ≤ e.2) && decide (e.2 ≤ 16))).map Prod.snd =
        [2 * ((t - 1) / 2) + 9, 2 * ((t - 1) / 2) + 10]) ∧
    (∀ i ∈ List.range 8,
      ((FatTree.edges 4).filter
        (fun e => e.1 == 9 + i && decide (17 ≤ e.2))).map Prod.snd =
        [2 * (i % 2) + 17, 2 * (i % 2) + 18]) := by
  decide

theorem graphNodes_iff {α : Type} (G : DiGraph α) (N : Nat)
    (hnodes : G.nodes = List.range' 1 N)
    (hedges : ∀ e ∈ G.edges, (1 ≤ e.1 ∧ e.1 ≤ N) ∧ (1 ≤ e.2 ∧ e.2 ≤ N)) :
    ∀ x, x ∈ graphNodes G ↔ (1 ≤ x ∧ x ≤ N) := by
  intro x
  simp only [graphNodes, List.mem_append, List.mem_map]
  constructor
  · rintro ((hx | ⟨e, he, rfl⟩) | ⟨e, he, rfl⟩)
    · rw [hnodes, List.mem_range'_1] at hx
      omega
    · exact (hedges e he).1
    · exact (hedges e he).2
  · intro hx
    left; left
    rw [hnodes, List.mem_range'_1]
    omega

namespace FatTree

theorem intraPod_mem (p : Nat) (h2 : 2 ≤ p) :
    ∀ e ∈ intraPodEdges p,
      ((1 ≤ e.1 ∧ e.1 ≤ tor_switches p) ∧
       (tor_switches p + 1 ≤ e.2 ∧ e.2 ≤ tor_switches p + aggregation_switches p)) ∨
      ((tor_switches p + 1 ≤ e.1 ∧ e.1 ≤ tor_switches p + aggregation_switches p) ∧
       (1 ≤ e.2 ∧ e.2 ≤ tor_switches p)) := by
  intro e he
  rw [intraPodEdges_closed] at he
  simp only [List.mem_flatMap, List.mem_range, List.mem_cons, List.not_mem_nil,
    or_false] at he
  obtain ⟨q, hq, j, hj, he⟩ := he
  have hh : 1 ≤ p / 2 := by omega
  have hper : tor_switches p / p = p / 2 := by
    rw [tor_switches, Nat.mul_div_cancel_left _ (by omega)]
  have haggper : aggregation_switches p / p = p / 2 := by
    rw [aggregation_switches, Nat.mul_div_cancel_left _ (by omega)]
  rw [hper, haggper] at he
  have hqdiv : q / (p / 2) ≤ p - 1 := by
    have : q / (p / 2) < p := by
      rw [Nat.div_lt_iff_lt_mul (by omega)]
      exact hq
    omega
  have hmul : p / 2 * (q / (p / 2)) ≤ p / 2 * (p - 1) :=
    Nat.mul_le_mul_left _ hqdiv
  have hstep : p / 2 * (p - 1) + p / 2 = p / 2 * p := by
    have hp1 : p - 1 + 1 = p := by omega
    calc p / 2 * (p - 1) + p / 2 = p / 2 * (p - 1 + 1) := by ring
      _ = p / 2 * p := by rw [hp1]
  have hagg : aggregation_switches p = p * (p / 2) := rfl
  have hcomm : p * (p / 2) = p / 2 * p := Nat.mul_comm _ _
  have htor : q + 1 ≤ tor_switches p := hq
  rcases he with rfl | rfl
  · left
    constructor
    · simp only
      omega
    · simp only
      omega
  · right
    constructor
    · simp only
      omega
    · simp only
      omega

theorem core_mem (p : Nat) (h2 : 2 ≤ p) :
    ∀ e ∈ coreEdges p,
      ((tor_switches p + 1 ≤ e.1 ∧ e.1 ≤ tor_switches p + aggregation_switches p) ∧
       (tor_switches p + aggregation_switches p + 1 ≤ e.2 ∧
        e.2 ≤ tor_switches p + aggregation_switches p + core_switches p)) ∨
      ((tor_switches p + aggregation_switches p + 1 ≤ e.1 ∧
        e.1 ≤ tor_switches p + aggregation_switches p + core_switches p) ∧
       (tor_switches p + 1 ≤ e.2 ∧ e.2 ≤ tor_switches p + aggregation_switches p)) := by
  intro e he
  rw [coreEdges_closed p (by
    rw [aggregation_switches, Nat.mul_div_cancel_left _ (by omega)]
    omega)] at he
  simp only [List.mem_flatMap, List.mem_range, List.mem_cons, List.not_mem_nil,
    or_false] at he
  obtain ⟨q, hq, j, hj, he⟩ := he
  have hh : 1 ≤ p / 2 := by omega
  have haggper : aggregation_switches p / p = p / 2 := by
    rw [aggregation_switches, Nat.mul_div_cancel_left _ (by omega)]
  rw [haggper] at he
  have hmodlt : q % (p / 2) < p / 2 := Nat.mod_lt _ (by omega)
  have hmul : p / 2 * (q % (p / 2)) ≤ p / 2 * (p / 2 - 1) :=
    Nat.mul_le_mul_left _ (by omega)
  have hstep : p / 2 * (p / 2 - 1) + p / 2 = p / 2 * (p / 2) := by
    have hp1 : p / 2 - 1 + 1 = p / 2 := by omega
    calc p / 2 * (p / 2 - 1) + p / 2 = p / 2 * (p / 2 - 1 + 1) := by ring
      _ = p / 2 * (p / 2) := by rw [hp1]
  have hcore : core_switches p = p / 2 * (p / 2) := rfl
  have htoragg : tor_switches p = aggregation_switches p := rfl
  have h2agg : 2 * aggregation_switches p =
      tor_switches p + aggregation_switches p := by
    rw [htoragg]
    ring
  rcases he with rfl | rfl
  · left
    constructor
    · simp only
      omega
    · simp only
      omega
  · right
    constructor
    · simp only
      omega
    · simp only
      omega

theorem edges_endpoints (p : Nat) (h2 : 2 ≤ p) :
    ∀ e ∈ edges p,
      (1 ≤ e.1 ∧ e.1 ≤ tor_switches p + aggregation_switches p + core_switches p) ∧
      (1 ≤ e.2 ∧ e.2 ≤ tor_switches p + aggregation_switches p + core_switches p) := by
  intro e he
  rcases List.mem_append.1 he with h | h
  · rcases intraPod_mem p h2 e h with ⟨h1, h2'⟩ | ⟨h1, h2'⟩ <;> exact ⟨by omega, by omega⟩
  · rcases core_mem p h2 e h with ⟨h1, h2'⟩ | ⟨h1, h2'⟩ <;> exact ⟨by omega, by omega⟩

end FatTree

namespace Fabric

theorem intraPodF_mem (P : Params) :
    ∀ e ∈ intraPodEdges P,
      ((1 ≤ e.1 ∧ e.1 ≤ last_tor_idx P) ∧
       (last_tor_idx P + 1 ≤ e.2 ∧ e.2 ≤ last_fabric_idx P)) ∨
      ((last_tor_idx P + 1 ≤ e.1 ∧ e.1 ≤ last_fabric_idx P) ∧
       (1 ≤ e.2 ∧ e.2 ≤ last_tor_idx P)) := by
  intro e he
  simp only [intraPodEdges, tor_idx_range, List.mem_flatMap, List.mem_range,
    List.mem_range'_1, List.mem_cons, List.not_mem_nil, or_false] at he
  obtain ⟨i, hi, j, hj, he⟩ := he
  have hlt : 1 ≤ last_tor_idx P := by omega
  have hpc : 1 ≤ P.port_count := by
    rcases Nat.eq_zero_or_pos P.port_count with h | h
    · rw [last_tor_idx, h, Nat.zero_mul] at hlt
      omega
    · exact h
  have hsp : 1 ≤ P.server_pods := by
    rcases Nat.eq_zero_or_pos P.server_pods with h | h
    · rw [last_tor_idx, h, Nat.mul_zero] at hlt
      omega
    · exact h
  have hpod : (i - 1) / P.port_count ≤ P.server_pods - 1 := by
    have : (i - 1) / P.port_count < P.server_pods := by
      rw [Nat.div_lt_iff_lt_mul (by omega)]
      have : i - 1 < P.port_count * P.server_pods := by
        have := hi.2
        simp only [last_tor_idx] at this
        omega
      calc i - 1 < P.port_count * P.server_pods := this
        _ = P.server_pods * P.port_count := Nat.mul_comm _ _
    omega
  have hmul : P.nr_of_planes * ((i - 1) / P.port_count) ≤
      P.nr_of_planes * (P.server_pods - 1) := Nat.mul_le_mul_left _ hpod
  have hstep : P.nr_of_planes * (P.server_pods - 1) + P.nr_of_planes =
      P.nr_of_planes * P.server_pods := by
    have h1 : P.server_pods - 1 + 1 = P.server_pods := by omega
    calc P.nr_of_planes * (P.server_pods - 1) + P.nr_of_planes
        = P.nr_of_planes * (P.server_pods - 1 + 1) := by ring
      _ = P.nr_of_planes * P.server_pods := by rw [h1]
  have hlf : last_fabric_idx P = last_tor_idx P + P.nr_of_planes * P.server_pods := rfl
  rcases he with rfl | rfl
  · left
    refine ⟨⟨hi.1, by simp only; omega⟩, ⟨by simp only; omega, by simp only; omega⟩⟩
  · right
    refine ⟨⟨by simp only; omega, by simp only; omega⟩, ⟨hi.1, by simp only; omega⟩⟩

theorem planeCursorGo_mem (P : Params) (hn : 1 ≤ P.nr_of_planes)
    (hsp : 1 ≤ P.server_pods) (s len : Nat) :
    ∀ e ∈ planeCursorGo P (List.range' s len) 0,
      ((last_fabric_idx P + 1 ≤ e.1 ∧ e.1 ≤ last_spine_idx P) ∧
       (s ≤ e.2 ∧ e.2 < s + len)) ∨
      ((s ≤ e.1 ∧ e.1 < s + len) ∧
       (last_fabric_idx P + 1 ≤ e.2 ∧ e.2 ≤ last_spine_idx P)) := by
  have hcl := planeCursorGo_closed P len s 0
  rw [Nat.zero_mod] at hcl
  simp only [Nat.zero_add] at hcl
  intro e he
  rw [hcl] at he
  simp only [List.mem_flatMap, List.mem_range] at he
  obtain ⟨t, ht, hconn⟩ := he
  rw [connectPlaneEdges_eq P (t % P.nr_of_planes) (s + t) hn hsp
    (Nat.mod_lt _ (by omega))] at hconn
  simp only [List.mem_flatMap, List.mem_range, List.mem_cons, List.not_mem_nil,
    or_false] at hconn
  obtain ⟨u, hu, he⟩ := hconn
  have hmod : t % P.nr_of_planes ≤ P.nr_of_planes - 1 := by
    have := Nat.mod_lt t (show 0 < P.nr_of_planes by omega)
    omega
  have hmul : P.nr_of_planes * u ≤ P.nr_of_planes * (P.server_pods - 1) :=
    Nat.mul_le_mul_left _ (by omega)
  have hstep : P.nr_of_planes * (P.server_pods - 1) + P.nr_of_planes =
      P.nr_of_planes * P.server_pods := by
    have h1 : P.server_pods - 1 + 1 = P.server_pods := by omega
    calc P.nr_of_planes * (P.server_pods - 1) + P.nr_of_planes
        = P.nr_of_planes * (P.server_pods - 1 + 1) := by ring
      _ = P.nr_of_planes * P.server_pods := by rw [h1]
  have hls : last_spine_idx P = last_fabric_idx P + P.nr_of_planes * P.server_pods := rfl
  rcases he with rfl | rfl
  · left
    refine ⟨⟨by simp only; omega, by simp only; omega⟩, ⟨by simp only; omega, by simp only; omega⟩⟩
  · right
    refine ⟨⟨by simp only; omega, by simp only; omega⟩, ⟨by simp only; omega, by simp only; omega⟩⟩

theorem edgesF_endpoints (P : Params) (hn : 1 ≤ P.nr_of_planes)
    (hsp : 1 ≤ P.server_pods) :
    ∀ e ∈ edges P,
      (1 ≤ e.1 ∧ e.1 ≤ last_edge_idx P) ∧ (1 ≤ e.2 ∧ e.2 ≤ last_edge_idx P) := by
  intro e he
  have h1 : last_fabric_idx P = last_tor_idx P + P.nr_of_planes * P.server_pods := rfl
  have h2 : last_spine_idx P = last_fabric_idx P + P.nr_of_planes * P.server_pods := rfl
  have h3 : last_edge_idx P = last_spine_idx P + P.edge_pods * P.nr_of_planes := rfl
  rcases List.mem_append.1 he with he | he
  · rcases List.mem_append.1 he with he | he
    · rcases intraPodF_mem P e he with ⟨ha, hb⟩ | ⟨ha, hb⟩ <;>
        exact ⟨⟨by omega, by omega⟩, ⟨by omega, by omega⟩⟩
    · have hm := planeCursorGo_mem P hn hsp (last_tor_idx P + 1)
        (P.nr_of_planes * P.server_pods) e
      rw [show List.range' (last_tor_idx P + 1) (P.nr_of_planes * P.server_pods) =
        fabric_idx_range P from rfl] at hm
      rcases hm he with ⟨ha, hb⟩ | ⟨ha, hb⟩ <;>
        exact ⟨⟨by omega, by omega⟩, ⟨by omega, by omega⟩⟩
  · have hm := planeCursorGo_mem P hn hsp (last_spine_idx P + 1)
      (P.edge_pods * P.nr_of_planes) e
    rw [show List.range' (last_spine_idx P + 1) (P.edge_pods * P.nr_of_planes) =
      edge_idx_range P from rfl] at hm
    rcases hm he with ⟨ha, hb⟩ | ⟨ha, hb⟩ <;>
      exact ⟨⟨by omega, by omega⟩, ⟨by omega, by omega⟩⟩

end Fabric

namespace Jupiter

theorem mem_aggTriples {A ab mb sw : Nat} :
    (ab, mb, sw) ∈ aggTriples A ↔ ab < A ∧ mb < 8 ∧ sw < 4 := by
  simp only [aggTriples, middle_block_per_aggregation, switches_per_middle_block,
    List.mem_flatMap, List.mem_map, List.mem_range, Prod.mk.injEq]
  constructor
  · rintro ⟨a, ha, b, hb, c, hc, rfl, rfl, rfl⟩
    exact ⟨ha, hb, hc⟩
  · rintro ⟨ha, hb, hc⟩
    exact ⟨ab, ha, mb, hb, sw, hc, rfl, rfl, rfl⟩

theorem closedAggGo_mem (S A : Nat) (P : Nat × Nat → Prop) :
    ∀ (ts : List (Nat × Nat × Nat)) (c : Nat),
      (∀ ab mb sw, (ab, mb, sw) ∈ ts → ∀ pv, pv < sw →
        P (aggNode A ab mb sw, aggNode A ab mb pv) ∧
        P (aggNode A ab mb pv, aggNode A ab mb sw)) →
      (∀ ab mb sw, (ab, mb, sw) ∈ ts → ∀ k,
        P (aggNode A ab mb sw, spineTarget S A k) ∧
        P (spineTarget S A k, aggNode A ab mb sw)) →
      ∀ e ∈ closedAggGo S A ts c, P e := by
  intro ts
  induction ts with
  | nil => intro c _ _ e he; simp [closedAggGo] at he
  | cons hd rest ih =>
      intro c hintra hup e he
      obtain ⟨ab, mb, sw⟩ := hd
      rw [closedAggGo] at he
      rcases List.mem_append.1 he with he | he
      · rcases List.mem_append.1 he with he | he
        · simp only [List.mem_flatMap, List.mem_range, List.mem_cons,
            List.not_mem_nil, or_false] at he
          obtain ⟨pv, hpv, he⟩ := he
          rcases he with rfl | rfl
          · exact (hintra ab mb sw (by simp) pv hpv).1
          · exact (hintra ab mb sw (by simp) pv hpv).2
        · simp only [List.mem_flatMap, List.mem_range, List.mem_cons,
            List.not_mem_nil, or_false] at he
          obtain ⟨t, ht, he⟩ := he
          rcases he with rfl | rfl
          · exact (hup ab mb sw (by simp) (c + t)).1
          · exact (hup ab mb sw (by simp) (c + t)).2
      · exact ih (c + 8)
          (fun a m s hm => hintra a m s (by simp [hm]))
          (fun a m s hm => hup a m s (by simp [hm])) e he

theorem edgesJ_endpoints (S A : Nat) (hS : 1 ≤ S) :
    ∀ e ∈ edges S A,
      (1 ≤ e.1 ∧ e.1 ≤ A * 32 + A * 8 * 4 + S * 6) ∧
      (1 ≤ e.2 ∧ e.2 ≤ A * 32 + A * 8 * 4 + S * 6) := by
  intro e he
  rcases List.mem_append.1 he with he | he
  · rcases List.mem_append.1 he with he | he
    · simp only [intraSpineEdges, switches_per_spine, List.mem_flatMap,
        List.mem_range, List.mem_cons, List.not_mem_nil, or_false] at he
      obtain ⟨sb, hsb, sw, hsw, pv, hpv, he⟩ := he
      rcases he with rfl | rfl <;>
        simp only [spineSwitch] <;> exact ⟨⟨by omega, by omega⟩, ⟨by omega, by omega⟩⟩
    · rw [aggSection_closed S A] at he
      refine closedAggGo_mem S A
        (fun x => (1 ≤ x.1 ∧ x.1 ≤ A * 32 + A * 8 * 4 + S * 6) ∧
          (1 ≤ x.2 ∧ x.2 ≤ A * 32 + A * 8 * 4 + S * 6))
        (aggTriples A) 0 ?_ ?_ e he
      · intro ab mb sw hm pv hpv
        rw [mem_aggTriples] at hm
        simp only [aggNode]
        exact ⟨⟨⟨by omega, by omega⟩, ⟨by omega, by omega⟩⟩,
          ⟨⟨by omega, by omega⟩, ⟨by omega, by omega⟩⟩⟩
      · intro ab mb sw hm k
        rw [mem_aggTriples] at hm
        have hks : k % S < S := Nat.mod_lt _ (by omega)
        have hk6 : k / S % 6 < 6 := Nat.mod_lt _ (by omega)
        simp only [aggNode, spineTarget, spineSwitch]
        exact ⟨⟨⟨by omega, by omega⟩, ⟨by omega, by omega⟩⟩,
          ⟨⟨by omega, by omega⟩, ⟨by omega, by omega⟩⟩⟩
  · simp only [torEdges, tors_per_aggregation_block, middle_block_per_aggregation,
      List.mem_flatMap, List.mem_range, List.mem_cons, List.not_mem_nil,
      or_false] at he
    obtain ⟨ab, hab, t, ht, out, hout, he⟩ := he
    have hpos : t / 8 < 4 := by omega
    have hpos2 : (t / 8 + 1) % 4 < 4 := Nat.mod_lt _ (by omega)
    rcases he with rfl | rfl | rfl | rfl <;>
      simp only [torNode, aggNode] <;>
      exact ⟨⟨by omega, by omega⟩, ⟨by omega, by omega⟩⟩

end Jupiter

namespace JupiterBl

theorem mem_mbPairs {A ab mb : Nat} :
    (ab, mb) ∈ mbPairs A ↔ ab < A ∧ mb < 8 := by
  simp only [mbPairs, List.mem_flatMap, List.mem_map, List.mem_range, Prod.mk.injEq]
  constructor
  · rintro ⟨a, ha, b, hb, rfl, rfl⟩
    exact ⟨ha, hb⟩
  · rintro ⟨ha, hb⟩
    exact ⟨ab, ha, mb, hb, rfl, rfl⟩

theorem closedRRGo_mem (S A : Nat) (P : Nat × Nat → Prop) (hS : 1 ≤ S) :
    ∀ (ts : List (Nat × Nat)) (c : Nat),
      (∀ ab mb, (ab, mb) ∈ ts → ∀ r, r < S →
        P (aggNode A ab mb, spineNode A r) ∧ P (spineNode A r, aggNode A ab mb)) →
      ∀ e ∈ closedRRGo S A ts c, P e := by
  intro ts
  induction ts with
  | nil => intro c _ e he; simp [closedRRGo] at he
  | cons hd rest ih =>
      intro c hmb e he
      obtain ⟨ab, mb⟩ := hd
      rw [closedRRGo] at he
      rcases List.mem_append.1 he with he | he
      · simp only [List.mem_flatMap, List.mem_range, List.mem_cons,
          List.not_mem_nil, or_false] at he
        obtain ⟨t, ht, he⟩ := he
        have hr : (c + t) % S < S := Nat.mod_lt _ (by omega)
        rcases he with rfl | rfl
        · exact (hmb ab mb (by simp) _ hr).1
        · exact (hmb ab mb (by simp) _ hr).2
      · exact ih (c + 32) (fun a m hm => hmb a m (by simp [hm])) e he

theorem edgesJB_endpoints (S A : Nat) :
    ∀ e ∈ edges S A,
      (1 ≤ e.1 ∧ e.1 ≤ A * 32 + A * 8 + S) ∧
      (1 ≤ e.2 ∧ e.2 ≤ A * 32 + A * 8 + S) := by
  intro e he
  rcases List.mem_append.1 he with he | he
  · simp only [torEdges, List.mem_flatMap, List.mem_range, List.mem_cons,
      List.not_mem_nil, or_false] at he
    obtain ⟨ab, hab, t, ht, out, hout, he⟩ := he
    rcases he with rfl | rfl <;>
      simp only [torNode, aggNode] <;>
      exact ⟨⟨by omega, by omega⟩, ⟨by omega, by omega⟩⟩
  · rw [aggSpineSection] at he
    by_cases hbranch : ports_per_middle_block_up ≥ S
    · rw [if_pos hbranch] at he
      simp only [fullBipartiteEdges, List.mem_flatMap, List.mem_range,
        List.mem_cons, List.not_mem_nil, or_false] at he
      obtain ⟨ab, hab, mb, hmb, sidx, hsidx, he⟩ := he
      rcases he with rfl | rfl <;>
        simp only [aggNode, spineNode] <;>
        exact ⟨⟨by omega, by omega⟩, ⟨by omega, by omega⟩⟩
    · rw [if_neg hbranch] at he
      have hS : 1 ≤ S := by
        simp only [ports_per_middle_block_up] at hbranch
        omega
      have h0 : (0 : Nat) = 0 % S := (Nat.zero_mod S).symm
      rw [h0, rrFold_closed S A hS (mbPairs A) 0] at he
      refine closedRRGo_mem S A
        (fun x => (1 ≤ x.1 ∧ x.1 ≤ A * 32 + A * 8 + S) ∧
          (1 ≤ x.2 ∧ x.2 ≤ A * 32 + A * 8 + S)) hS (mbPairs A) 0 ?_ e he
      intro ab mb hm r hr
      rw [mem_mbPairs] at hm
      simp only [aggNode, spineNode]
      exact ⟨⟨⟨by omega, by omega⟩, ⟨by omega, by omega⟩⟩,
        ⟨⟨by omega, by omega⟩, ⟨by omega, by omega⟩⟩⟩

end JupiterBl

theorem init_capacities_preserves {T α : Type} (self : T)
    (cf : Option (CapacityFunction T α)) (G : DiGraph α) :
    (init_capacities self cf G).nodes = G.nodes ∧
    (init_capacities self cf G).edges = G.edges := by
  cases cf with
  | none => exact ⟨rfl, rfl⟩
  | some f =>
      simp only [init_capacities]
      split_ifs <;> exact ⟨rfl, rfl⟩

theorem flatten_ranges3 (a b c : Nat) :
    [List.range' 1 a, List.range' (a + 1) b, List.range' (a + b + 1) c].flatten =
      List.range' 1 (a + b + c) := by
  simp only [List.flatten_cons, List.flatten_nil, List.append_nil]
  have e1 : a + b + 1 = a + 1 + b := by omega
  rw [e1, List.range'_append_1 (a + 1) b c]
  have e2 : a + 1 = 1 + a := by omega
  rw [e2, List.range'_append_1 1 a (c + b)]
  congr 1
  omega

theorem flatten_ranges4 (a b c d : Nat) :
    [List.range' 1 a, List.range' (a + 1) b, List.range' (a + b + 1) c,
      List.range' (a + b + c + 1) d].flatten = List.range' 1 (a + b + c + d) := by
  simp only [List.flatten_cons, List.flatten_nil, List.append_nil]
  have e1 : a + b + c + 1 = a + b + 1 + c := by omega
  rw [e1, List.range'_append_1 (a + b + 1) c d]
  have e2 : a + b + 1 = a + 1 + b := by omega
  rw [e2, List.range'_append_1 (a + 1) b (d + c)]
  have e3 : a + 1 = 1 + a := by omega
  rw [e3, List.range'_append_1 1 a (d + c + b)]
  congr 1
  omega

theorem foldl_add3 (a b c : Nat) : List.foldl (· + ·) 0 [a, b, c] = a + b + c := by
  simp only [List.foldl]
  omega

theorem foldl_add4 (a b c d : Nat) :
    List.foldl (· + ·) 0 [a, b, c, d] = a + b + c + d := by
  simp only [List.foldl]
  omega

/-- C3: for every variant with valid parameters and any capacity function,
the generated graph's explicitly added node list is exactly the contiguous
identifier range 1 .. N with N the sum of the derived per-layer counts, the
semantic node set (explicit nodes plus all edge endpoints, since networkx
add_edge creates missing endpoints) is exactly {1, ..., N}, and the ordered
per-layer index ranges, leaf layer first, concatenate to exactly
1 .. N - hence they partition it contiguously with no gaps or overlaps. -/
theorem claim_C3 :
    (∀ (p : Nat) (cf : Option (CapacityFunction FatTree.Params Unit)),
      2 ≤ p → p % 2 = 0 →
      (FatTree.gen_graph Unit p cf).nodes = List.range' 1
        (FatTree.tor_switches p + FatTree.aggregation_switches p + FatTree.core_switches p) ∧
      (∀ x, x ∈ graphNodes (FatTree.gen_graph Unit p cf) ↔ 1 ≤ x ∧
        x ≤ FatTree.tor_switches p + FatTree.aggregation_switches p + FatTree.core_switches p) ∧
      (FatTree.indices p).flatten = List.range' 1
        (FatTree.tor_switches p + FatTree.aggregation_switches p + FatTree.core_switches p)) ∧
    (∀ (P : Fabric.Params) (cf : Option (CapacityFunction Fabric.Params Unit)),
      1 ≤ P.server_pods → 1 ≤ P.nr_of_planes →
      (Fabric.gen_graph Unit P cf).nodes = List.range' 1
        (Fabric.last_tor_idx P + P.nr_of_planes * P.server_pods +
          P.nr_of_planes * P.server_pods + P.edge_pods * P.nr_of_planes) ∧
      (∀ x, x ∈ graphNodes (Fabric.gen_graph Unit P cf) ↔ 1 ≤ x ∧
        x ≤ Fabric.last_tor_idx P + P.nr_of_planes * P.server_pods +
          P.nr_of_planes * P.server_pods + P.edge_pods * P.nr_of_planes) ∧
      (Fabric.indices P).flatten = List.range' 1
        (Fabric.last_tor_idx P + P.nr_of_planes * P.server_pods +
          P.nr_of_planes * P.server_pods + P.edge_pods * P.nr_of_planes)) ∧
    (∀ (S A : Nat) (cf : Option (CapacityFunction Jupiter.Params Unit)),
      1 ≤ A → A ≤ S →
      (Jupiter.gen_graph Unit S A cf).nodes =
        List.range' 1 (A * 32 + A * 8 * 4 + S * 6) ∧
      (∀ x, x ∈ graphNodes (Jupiter.gen_graph Unit S A cf) ↔ 1 ≤ x ∧
        x ≤ A * 32 + A * 8 * 4 + S * 6) ∧
      (Jupiter.indices S A).flatten = List.range' 1 (A * 32 + A * 8 * 4 + S * 6)) ∧
    (∀ (S A : Nat) (cf : Option (CapacityFunction JupiterBl.Params Unit)),
      1 ≤ A → A ≤ S →
      (JupiterBl.gen_graph Unit S A cf).nodes =
        List.range' 1 (A * 32 + A * 8 + S) ∧
      (∀ x, x ∈ graphNodes (JupiterBl.gen_graph Unit S A cf) ↔ 1 ≤ x ∧
        x ≤ A * 32 + A * 8 + S) ∧
      (JupiterBl.indices S A).flatten = List.range' 1 (A * 32 + A * 8 + S)) := by
  refine ⟨fun p cf h2 hev => ?_, fun P cf hsp hn => ?_, fun S A cf hA hAS => ?_,
    fun S A cf hA hAS => ?_⟩
  · have hpres := init_capacities_preserves (⟨p⟩ : FatTree.Params) cf
      { gen_nodes Unit [FatTree.tor_switches p, FatTree.aggregation_switches p,
          FatTree.core_switches p] with edges := FatTree.edges p }
    have hnodes : (FatTree.gen_graph Unit p cf).nodes = List.range' 1
        (FatTree.tor_switches p + FatTree.aggregation_switches p +
          FatTree.core_switches p) := by
      rw [FatTree.gen_graph, hpres.1]
      simp only [gen_nodes]
      rw [foldl_add3]
    have hedges : (FatTree.gen_graph Unit p cf).edges = FatTree.edges p := by
      rw [FatTree.gen_graph, hpres.2]
    refine ⟨hnodes, ?_, flatten_ranges3 _ _ _⟩
    refine graphNodes_iff _ _ hnodes ?_
    rw [hedges]
    exact FatTree.edges_endpoints p h2
  · have hpres := init_capacities_preserves P cf
      { gen_nodes Unit [Fabric.last_tor_idx P, P.nr_of_planes * P.server_pods,
          P.nr_of_planes * P.server_pods, P.edge_pods * P.nr_of_planes] with
        edges := Fabric.edges P }
    have hnodes : (Fabric.gen_graph Unit P cf).nodes = List.range' 1
        (Fabric.last_tor_idx P + P.nr_of_planes * P.server_pods +
          P.nr_of_planes * P.server_pods + P.edge_pods * P.nr_of_planes) := by
      rw [Fabric.gen_graph, hpres.1]
      simp only [gen_nodes]
      rw [foldl_add4]
    have hedges : (Fabric.gen_graph Unit P cf).edges = Fabric.edges P := by
      rw [Fabric.gen_graph, hpres.2]
    refine ⟨hnodes, ?_, flatten_ranges4 _ _ _ _⟩
    refine graphNodes_iff _ _ hnodes ?_
    rw [hedges]
    exact Fabric.edgesF_endpoints P hn hsp
  · have hpres := init_capacities_preserves (⟨S, A⟩ : Jupiter.Params) cf
      { gen_nodes Unit [A * 32, A * 8 * 4, S * 6] with edges := Jupiter.edges S A }
    have hnodes : (Jupiter.gen_graph Unit S A cf).nodes =
        List.range' 1 (A * 32 + A * 8 * 4 + S * 6) := by
      rw [Jupiter.gen_graph, hpres.1]
      simp only [gen_nodes]
      rw [foldl_add3]
    have hedges : (Jupiter.gen_graph Unit S A cf).edges = Jupiter.edges S A := by
      rw [Jupiter.gen_graph, hpres.2]
    refine ⟨hnodes, ?_, flatten_ranges3 _ _ _⟩
    refine graphNodes_iff _ _ hnodes ?_
    rw [hedges]
    exact Jupiter.edgesJ_endpoints S A (by omega)
  · have hpres := init_capacities_preserves (⟨S, A⟩ : JupiterBl.Params) cf
      { gen_nodes Unit [A * 32, A * 8, S] with edges := JupiterBl.edges S A }
    have hnodes : (JupiterBl.gen_graph Unit S A cf).nodes =
        List.range' 1 (A * 32 + A * 8 + S) := by
      rw [JupiterBl.gen_graph, hpres.1]
      simp only [gen_nodes]
      rw [foldl_add3]
    have hedges : (JupiterBl.gen_graph Unit S A cf).edges = JupiterBl.edges S A := by
      rw [JupiterBl.gen_graph, hpres.2]
    refine ⟨hnodes, ?_, flatten_ranges3 _ _ _⟩
    refine graphNodes_iff _ _ hnodes ?_
    rw [hedges]
    exact JupiterBl.edgesJB_endpoints S A

theorem claim_C3_witness :
    ((2 : Nat) ≤ 4 ∧ 4 % 2 = 0) ∧
    ((FatTree.gen_graph Unit 4 none).nodes = List.range' 1
        (FatTree.tor_switches 4 + FatTree.aggregation_switches 4 + FatTree.core_switches 4) ∧
      (∀ x, x ∈ graphNodes (FatTree.gen_graph Unit 4 none) ↔ 1 ≤ x ∧
        x ≤ FatTree.tor_switches 4 + FatTree.aggregation_switches 4 + FatTree.core_switches 4) ∧
      (FatTree.indices 4).flatten = List.range' 1
        (FatTree.tor_switches 4 + FatTree.aggregation_switches 4 + FatTree.core_switches 4)) :=
  ⟨⟨by decide, by decide⟩, claim_C3.1 4 none (by decide) (by decide)⟩

theorem swapClosed_quad (a b c d : Nat) :
    SwapClosed [(a, b), (b, a), (c, d), (d, c)] := by
  intro p hp
  simp only [List.mem_cons, List.not_mem_nil, or_false] at hp ⊢
  rcases hp with h | h | h | h <;> subst h <;> simp

theorem FatTree.edges_swapClosed (p : Nat) (h2 : 2 ≤ p) :
    SwapClosed (FatTree.edges p) := by
  have hper : 1 ≤ FatTree.aggregation_switches p / p := by
    rw [FatTree.aggregation_switches, Nat.mul_div_cancel_left _ (by omega)]
    omega
  refine swapClosed_append ?_ ?_
  · rw [FatTree.intraPodEdges_closed]
    refine swapClosed_flatMap fun q _ => swapClosed_flatMap fun j _ => ?_
    exact swapClosed_pair _ _
  · rw [FatTree.coreEdges_closed p hper]
    refine swapClosed_flatMap fun q _ => swapClosed_flatMap fun j _ => ?_
    exact swapClosed_pair _ _

theorem FatTree.edges_ne (p : Nat) (h2 : 2 ≤ p) :
    ∀ e ∈ FatTree.edges p, e.1 ≠ e.2 := by
  intro e he
  rcases List.mem_append.1 he with h | h
  · rcases FatTree.intraPod_mem p h2 e h with ⟨ha, hb⟩ | ⟨ha, hb⟩ <;> omega
  · rcases FatTree.core_mem p h2 e h with ⟨ha, hb⟩ | ⟨ha, hb⟩ <;> omega

namespace Fabric

theorem swapClosed_planeWhile (sw n last : Nat) :
    ∀ (fuel cur : Nat), SwapClosed (planeWhile sw n last fuel cur) := by
  intro fuel
  induction fuel with
  | zero => intro cur; rw [planeWhile]; exact swapClosed_nil
  | succ fuel ih =>
      intro cur
      rw [planeWhile]
      by_cases hle : cur ≤ last
      · rw [if_pos hle]
        intro e he
        simp only [List.mem_cons] at he ⊢
        rcases he with rfl | he
        · simp
        · rcases he with rfl | he
          · simp
          · right; right
            exact ih (cur + n) e he
      · rw [if_neg hle]
        exact swapClosed_nil

theorem swapClosed_planeCursorGo (P : Params) :
    ∀ (l : List Nat) (q : Nat), SwapClosed (planeCursorGo P l q) := by
  intro l
  induction l with
  | nil => intro q; exact swapClosed_nil
  | cons i rest ih =>
      intro q
      rw [planeCursorGo]
      exact swapClosed_append (swapClosed_planeWhile _ _ _ _ _) (ih _)

theorem edgesF_swapClosed (P : Params) : SwapClosed (edges P) := by
  refine swapClosed_append (swapClosed_append ?_ ?_) ?_
  · refine swapClosed_flatMap fun i _ => swapClosed_flatMap fun j _ => ?_
    exact swapClosed_pair _ _
  · exact swapClosed_planeCursorGo P _ _
  · exact swapClosed_planeCursorGo P _ _

theorem edgesF_ne (P : Params) (hn : 1 ≤ P.nr_of_planes) (hsp : 1 ≤ P.server_pods) :
    ∀ e ∈ edges P, e.1 ≠ e.2 := by
  intro e he
  have h1 : last_fabric_idx P = last_tor_idx P + P.nr_of_planes * P.server_pods := rfl
  have h2 : last_spine_idx P = last_fabric_idx P + P.nr_of_planes * P.server_pods := rfl
  rcases List.mem_append.1 he with he | he
  · rcases List.mem_append.1 he with he | he
    · rcases intraPodF_mem P e he with ⟨ha, hb⟩ | ⟨ha, hb⟩ <;> omega
    · have hm := planeCursorGo_mem P hn hsp (last_tor_idx P + 1)
        (P.nr_of_planes * P.server_pods) e
      rw [show List.range' (last_tor_idx P + 1) (P.nr_of_planes * P.server_pods) =
        fabric_idx_range P from rfl] at hm
      rcases hm he with ⟨ha, hb⟩ | ⟨ha, hb⟩ <;> omega
  · have hm := planeCursorGo_mem P hn hsp (last_spine_idx P + 1)
      (P.edge_pods * P.nr_of_planes) e
    rw [show List.range' (last_spine_idx P + 1) (P.edge_pods * P.nr_of_planes) =
      edge_idx_range P from rfl] at hm
    rcases hm he with ⟨ha, hb⟩ | ⟨ha, hb⟩ <;> omega

end Fabric

namespace Jupiter

theorem swapClosed_closedAggGo (S A : Nat) :
    ∀ (ts : List (Nat × Nat × Nat)) (c : Nat), SwapClosed (closedAggGo S A ts c) := by
  intro ts
  induction ts with
  | nil => intro c; rw [closedAggGo]; exact swapClosed_nil
  | cons hd rest ih =>
      intro c
      obtain ⟨ab, mb, sw⟩ := hd
      rw [closedAggGo]
      refine swapClosed_append (swapClosed_append ?_ ?_) (ih _)
      · refine swapClosed_flatMap fun pv _ => ?_
        exact swapClosed_pair _ _
      · refine swapClosed_flatMap fun t _ => ?_
        exact swapClosed_pair _ _

theorem edgesJ_swapClosed (S A : Nat) : SwapClosed (edges S A) := by
  refine swapClosed_append (swapClosed_append ?_ ?_) ?_
  · refine swapClosed_flatMap fun sb _ => swapClosed_flatMap fun sw _ =>
      swapClosed_flatMap fun pv _ => ?_
    exact swapClosed_pair _ _
  · rw [aggSection_closed S A]
    exact swapClosed_closedAggGo S A _ _
  · refine swapClosed_flatMap fun ab _ => swapClosed_flatMap fun t _ =>
      swapClosed_flatMap fun out _ => ?_
    exact swapClosed_quad _ _ _ _

theorem edgesJ_ne (S A : Nat) :
    ∀ e ∈ edges S A, e.1 ≠ e.2 := by
  intro e he
  rcases List.mem_append.1 he with he | he
  · rcases List.mem_append.1 he with he | he
    · simp only [intraSpineEdges, switches_per_spine, List.mem_flatMap,
        List.mem_range, List.mem_cons, List.not_mem_nil, or_false] at he
      obtain ⟨sb, hsb, sw, hsw, pv, hpv, he⟩ := he
      rcases he with rfl | rfl <;> simp only [spineSwitch] <;> omega
    · rw [aggSection_closed S A] at he
      refine closedAggGo_mem S A (fun x => x.1 ≠ x.2) (aggTriples A) 0 ?_ ?_ e he
      · intro ab mb sw hm pv hpv
        simp only [aggNode]
        constructor <;> omega
      · intro ab mb sw hm k
        rw [mem_aggTriples] at hm
        have hk6 : k / S % 6 < 6 := Nat.mod_lt _ (by omega)
        simp only [aggNode, spineTarget, spineSwitch]
        constructor <;> omega
  · simp only [torEdges, tors_per_aggregation_block, middle_block_per_aggregation,
      List.mem_flatMap, List.mem_range, List.mem_cons, List.not_mem_nil,
      or_false] at he
    obtain ⟨ab, hab, t, ht, out, hout, he⟩ := he
    rcases he with rfl | rfl | rfl | rfl <;> simp only [torNode, aggNode] <;> omega

end Jupiter

namespace JupiterBl

theorem swapClosed_closedRRGo (S A : Nat) :
    ∀ (ts : List (Nat × Nat)) (c : Nat), SwapClosed (closedRRGo S A ts c) := by
  intro ts
  induction ts with
  | nil => intro c; rw [closedRRGo]; exact swapClosed_nil
  | cons hd rest ih =>
      intro c
      obtain ⟨ab, mb⟩ := hd
      rw [closedRRGo]
      refine swapClosed_append ?_ (ih _)
      refine swapClosed_flatMap fun t _ => ?_
      exact swapClosed_pair _ _

theorem edgesJB_swapClosed (S A : Nat) : SwapClosed (edges S A) := by
  refine swapClosed_append ?_ ?_
  · refine swapClosed_flatMap fun ab _ => swapClosed_flatMap fun t _ =>
      swapClosed_flatMap fun out _ => ?_
    exact swapClosed_pair _ _
  · rw [aggSpineSection]
    by_cases hbranch : ports_per_middle_block_up ≥ S
    · rw [if_pos hbranch]
      refine swapClosed_flatMap fun ab _ => swapClosed_flatMap fun mb _ =>
        swapClosed_flatMap fun s _ => ?_
      exact swapClosed_pair _ _
    · rw [if_neg hbranch]
      have hS : 1 ≤ S := by
        simp only [ports_per_middle_block_up] at hbranch
        omega
      have h0 : (0 : Nat) = 0 % S := (Nat.zero_mod S).symm
      rw [h0, rrFold_closed S A hS (mbPairs A) 0]
      exact swapClosed_closedRRGo S A _ _

theorem edgesJB_ne (S A : Nat) :
    ∀ e ∈ edges S A, e.1 ≠ e.2 := by
  intro e he
  rcases List.mem_append.1 he with he | he
  · simp only [torEdges, List.mem_flatMap, List.mem_range, List.mem_cons,
      List.not_mem_nil, or_false] at he
    obtain ⟨ab, hab, t, ht, out, hout, he⟩ := he
    rcases he with rfl | rfl <;> simp only [torNode, aggNode] <;> omega
  · rw [aggSpineSection] at he
    by_cases hbranch : ports_per_middle_block_up ≥ S
    · rw [if_pos hbranch] at he
      simp only [fullBipartiteEdges, List.mem_flatMap, List.mem_range,
        List.mem_cons, List.not_mem_nil, or_false] at he
      obtain ⟨ab, hab, mb, hmb, sidx, hsidx, he⟩ := he
      rcases he with rfl | rfl <;> simp only [aggNode, spineNode] <;> omega
    · rw [if_neg hbranch] at he
      have hS : 1 ≤ S := by
        simp only [ports_per_middle_block_up] at hbranch
        omega
      have h0 : (0 : Nat) = 0 % S := (Nat.zero_mod S).symm
      rw [h0, rrFold_closed S A hS (mbPairs A) 0] at he
      refine closedRRGo_mem S A (fun x => x.1 ≠ x.2) hS (mbPairs A) 0 ?_ e he
      intro ab mb hm r hr
      rw [mem_mbPairs] at hm
      simp only [aggNode, spineNode]
      constructor <;> omega

end JupiterBl

/-- C2: for every variant with valid parameters and any capacity function,
the generated graph contains for every directed edge (u, v) the reverse edge
(v, u), contains no self-loop, and, per the set semantics of a networkx
DiGraph (which collapses repeated add_edge calls), at most one directed edge
per ordered pair - so (u, v) and (v, u) are the only edges between u and v. -/
theorem claim_C2 :
    (∀ (p : Nat) (cf : Option (CapacityFunction FatTree.Params Unit)),
      2 ≤ p → p % 2 = 0 →
      (∀ e ∈ (FatTree.gen_graph Unit p cf).edges,
        (e.2, e.1) ∈ (FatTree.gen_graph Unit p cf).edges ∧ e.1 ≠ e.2) ∧
      (FatTree.gen_graph Unit p cf).edges.dedup.Nodup) ∧
    (∀ (P : Fabric.Params) (cf : Option (CapacityFunction Fabric.Params Unit)),
      1 ≤ P.server_pods → 1 ≤ P.nr_of_planes →
      (∀ e ∈ (Fabric.gen_graph Unit P cf).edges,
        (e.2, e.1) ∈ (Fabric.gen_graph Unit P cf).edges ∧ e.1 ≠ e.2) ∧
      (Fabric.gen_graph Unit P cf).edges.dedup.Nodup) ∧
    (∀ (S A : Nat) (cf : Option (CapacityFunction Jupiter.Params Unit)),
      1 ≤ A → A ≤ S →
      (∀ e ∈ (Jupiter.gen_graph Unit S A cf).edges,
        (e.2, e.1) ∈ (Jupiter.gen_graph Unit S A cf).edges ∧ e.1 ≠ e.2) ∧
      (Jupiter.gen_graph Unit S A cf).edges.dedup.Nodup) ∧
    (∀ (S A : Nat) (cf : Option (CapacityFunction JupiterBl.Params Unit)),
      1 ≤ A → A ≤ S →
      (∀ e ∈ (JupiterBl.gen_graph Unit S A cf).edges,
        (e.2, e.1) ∈ (JupiterBl.gen_graph Unit S A cf).edges ∧ e.1 ≠ e.2) ∧
      (JupiterBl.gen_graph Unit S A cf).edges.dedup.Nodup) := by
  refine ⟨fun p cf h2 hev => ?_, fun P cf hsp hn => ?_, fun S A cf hA hAS => ?_,
    fun S A cf hA hAS => ?_⟩
  · have hedges : (FatTree.gen_graph Unit p cf).edges = FatTree.edges p := by
      rw [FatTree.gen_graph,
        (init_capacities_preserves (⟨p⟩ : FatTree.Params) cf _).2]
    rw [hedges]
    exact ⟨fun e he => ⟨FatTree.edges_swapClosed p h2 e he, FatTree.edges_ne p h2 e he⟩,
      List.nodup_dedup _⟩
  · have hedges : (Fabric.gen_graph Unit P cf).edges = Fabric.edges P := by
      rw [Fabric.gen_graph, (init_capacities_preserves P cf _).2]
    rw [hedges]
    exact ⟨fun e he => ⟨Fabric.edgesF_swapClosed P e he, Fabric.edgesF_ne P hn hsp e he⟩,
      List.nodup_dedup _⟩
  · have hedges : (Jupiter.gen_graph Unit S A cf).edges = Jupiter.edges S A := by
      rw [Jupiter.gen_graph,
        (init_capacities_preserves (⟨S, A⟩ : Jupiter.Params) cf _).2]
    rw [hedges]
    exact ⟨fun e he => ⟨Jupiter.edgesJ_swapClosed S A e he, Jupiter.edgesJ_ne S A e he⟩,
      List.nodup_dedup _⟩
  · have hedges : (JupiterBl.gen_graph Unit S A cf).edges = JupiterBl.edges S A := by
      rw [JupiterBl.gen_graph,
        (init_capacities_preserves (⟨S, A⟩ : JupiterBl.Params) cf _).2]
    rw [hedges]
    exact ⟨fun e he => ⟨JupiterBl.edgesJB_swapClosed S A e he, JupiterBl.edgesJB_ne S A e he⟩,
      List.nodup_dedup _⟩

theorem claim_C2_witness :
    ((2 : Nat) ≤ 2 ∧ 2 % 2 = 0 ∧ (1, 3) ∈ (FatTree.gen_graph Unit 2 none).edges) ∧
    ((3, 1) ∈ (FatTree.gen_graph Unit 2 none).edges ∧ (1 : Nat) ≠ 3) :=
  ⟨⟨by decide, by decide, by decide⟩,
    (claim_C2.1 2 none (by decide) (by decide)).1 (1, 3) (by decide)⟩

namespace Fabric

theorem fabric_spine_mem_iff (P : Params) (hn : 1 ≤ P.nr_of_planes)
    (hsp : 1 ≤ P.server_pods) (u v : Nat)
    (hu1 : last_tor_idx P + 1 ≤ u) (hu2 : u ≤ last_fabric_idx P)
    (hv1 : last_fabric_idx P + 1 ≤ v) (hv2 : v ≤ last_spine_idx P) :
    ((u, v) ∈ planeCursorGo P (fabric_idx_range P) 0 ↔
      (u - (last_tor_idx P + 1)) % P.nr_of_planes =
        (v - (last_fabric_idx P + 1)) % P.nr_of_planes) := by
  have hlf : last_fabric_idx P = last_tor_idx P + P.nr_of_planes * P.server_pods := rfl
  have hls : last_spine_idx P = last_fabric_idx P + P.nr_of_planes * P.server_pods := rfl
  have hcl := planeCursorGo_closed P (P.nr_of_planes * P.server_pods)
    (last_tor_idx P + 1) 0
  rw [Nat.zero_mod] at hcl
  simp only [Nat.zero_add] at hcl
  rw [show fabric_idx_range P =
    List.range' (last_tor_idx P + 1) (P.nr_of_planes * P.server_pods) from rfl, hcl]
  constructor
  · intro hmem
    simp only [List.mem_flatMap, List.mem_range] at hmem
    obtain ⟨t, ht, hconn⟩ := hmem
    rw [connectPlaneEdges_eq P (t % P.nr_of_planes) (last_tor_idx P + 1 + t) hn hsp
      (Nat.mod_lt _ (by omega))] at hconn
    simp only [List.mem_flatMap, List.mem_range, List.mem_cons, List.not_mem_nil,
      or_false, Prod.mk.injEq] at hconn
    obtain ⟨w, hw, hcase⟩ := hconn
    rcases hcase with ⟨he1, he2⟩ | ⟨he1, he2⟩
    · exfalso
      omega
    · have htu : t = u - (last_tor_idx P + 1) := by omega
      have hposv : v - (last_fabric_idx P + 1) =
          t % P.nr_of_planes + P.nr_of_planes * w := by omega
      rw [hposv, Nat.add_mul_mod_self_left,
        Nat.mod_eq_of_lt (Nat.mod_lt _ (by omega)), htu]
  · intro hres
    simp only [List.mem_flatMap, List.mem_range]
    refine ⟨u - (last_tor_idx P + 1), by omega, ?_⟩
    rw [connectPlaneEdges_eq P ((u - (last_tor_idx P + 1)) % P.nr_of_planes)
      (last_tor_idx P + 1 + (u - (last_tor_idx P + 1))) hn hsp
      (Nat.mod_lt _ (by omega))]
    simp only [List.mem_flatMap, List.mem_range, List.mem_cons, List.not_mem_nil,
      or_false, Prod.mk.injEq]
    refine ⟨(v - (last_fabric_idx P + 1)) / P.nr_of_planes, ?_, Or.inr ⟨?_, ?_⟩⟩
    · rw [Nat.div_lt_iff_lt_mul (by omega)]
      calc v - (last_fabric_idx P + 1) < P.nr_of_planes * P.server_pods := by omega
        _ = P.server_pods * P.nr_of_planes := Nat.mul_comm _ _
    · omega
    · have hdm := Nat.div_add_mod (v - (last_fabric_idx P + 1)) P.nr_of_planes
      rw [← hres] at hdm
      omega

theorem edges_fabric_spine_iff (P : Params) (hn : 1 ≤ P.nr_of_planes)
    (hsp : 1 ≤ P.server_pods) (u v : Nat)
    (hu1 : last_tor_idx P + 1 ≤ u) (hu2 : u ≤ last_fabric_idx P)
    (hv1 : last_fabric_idx P + 1 ≤ v) (hv2 : v ≤ last_spine_idx P) :
    ((u, v) ∈ edges P ↔
      (u - (last_tor_idx P + 1)) % P.nr_of_planes =
        (v - (last_fabric_idx P + 1)) % P.nr_of_planes) ∧
    ((v, u) ∈ edges P ↔
      (u - (last_tor_idx P + 1)) % P.nr_of_planes =
        (v - (last_fabric_idx P + 1)) % P.nr_of_planes) := by
  have hlf : last_fabric_idx P = last_tor_idx P + P.nr_of_planes * P.server_pods := rfl
  have hls : last_spine_idx P = last_fabric_idx P + P.nr_of_planes * P.server_pods := rfl
  have hkey := fabric_spine_mem_iff P hn hsp u v hu1 hu2 hv1 hv2
  have hnot_intra : ∀ a b : Nat, last_tor_idx P + 1 ≤ a → last_tor_idx P + 1 ≤ b →
      (a, b) ∉ intraPodEdges P := by
    intro a b ha hb hmem
    rcases intraPodF_mem P (a, b) hmem with ⟨hx, hy⟩ | ⟨hx, hy⟩ <;>
      simp only at hx hy <;> omega
  have hnot_edge : ∀ a b : Nat, a ≤ last_spine_idx P → b ≤ last_spine_idx P →
      (a, b) ∉ planeCursorGo P (edge_idx_range P) 0 := by
    intro a b ha hb hmem
    have hm := planeCursorGo_mem P hn hsp (last_spine_idx P + 1)
      (P.edge_pods * P.nr_of_planes) (a, b)
    rw [show List.range' (last_spine_idx P + 1) (P.edge_pods * P.nr_of_planes) =
      edge_idx_range P from rfl] at hm
    rcases hm hmem with ⟨hx, hy⟩ | ⟨hx, hy⟩ <;> simp only at hx hy <;> omega
  have hswap : SwapClosed (planeCursorGo P (fabric_idx_range P) 0) :=
    swapClosed_planeCursorGo P _ _
  constructor
  · rw [← hkey]
    constructor
    · intro hmem
      rcases List.mem_append.1 hmem with hmem | hmem
      · rcases List.mem_append.1 hmem with hmem | hmem
        · exact absurd hmem (hnot_intra u v (by omega) (by omega))
        · exact hmem
      · exact absurd hmem (hnot_edge u v (by omega) (by omega))
    · intro hmem
      exact List.mem_append.2 (Or.inl (List.mem_append.2 (Or.inr hmem)))
  · rw [← hkey]
    constructor
    · intro hmem
      rcases List.mem_append.1 hmem with hmem | hmem
      · rcases List.mem_append.1 hmem with hmem | hmem
        · exact absurd hmem (hnot_intra v u (by omega) (by omega))
        · exact hswap (v, u) hmem
      · exact absurd hmem (hnot_edge v u (by omega) (by omega))
    · intro hmem
      exact List.mem_append.2 (Or.inl (List.mem_append.2 (Or.inr
        (hswap (u, v) hmem))))

end Fabric

/-- C5: in the Fabric graph, for fabric switch u (position q within the
fabric range) and spine switch v (position r within the spine range), the
edges (u, v) and (v, u) are present exactly when q and r are congruent
modulo nr_of_planes. Hence for each plane p the fabric and spine members
congruent to p form a complete bipartite subgraph (both directions present),
an edge's plane is the uniquely determined common residue - so the planes'
fabric-spine edge sets are pairwise disjoint - and every fabric-spine edge
belongs to some plane, so the planes together exhaust them. -/
theorem claim_C5 :
    ∀ (P : Fabric.Params), 1 ≤ P.nr_of_planes → 1 ≤ P.server_pods →
    ∀ u v : Nat,
      Fabric.last_tor_idx P + 1 ≤ u → u ≤ Fabric.last_fabric_idx P →
      Fabric.last_fabric_idx P + 1 ≤ v → v ≤ Fabric.last_spine_idx P →
      (((u, v) ∈ Fabric.edges P ↔
        (u - (Fabric.last_tor_idx P + 1)) % P.nr_of_planes =
          (v - (Fabric.last_fabric_idx P + 1)) % P.nr_of_planes) ∧
       ((v, u) ∈ Fabric.edges P ↔
        (u - (Fabric.last_tor_idx P + 1)) % P.nr_of_planes =
          (v - (Fabric.last_fabric_idx P + 1)) % P.nr_of_planes)) :=
  fun P hn hsp u v hu1 hu2 hv1 hv2 =>
    Fabric.edges_fabric_spine_iff P hn hsp u v hu1 hu2 hv1 hv2

theorem claim_C5_witness :
    ((1 : Nat) ≤ 2 ∧ (1 : Nat) ≤ 2 ∧
      Fabric.last_tor_idx ⟨2, 1, 2, 3⟩ + 1 ≤ 7 ∧ (7 : Nat) ≤ Fabric.last_fabric_idx ⟨2, 1, 2, 3⟩ ∧
      Fabric.last_fabric_idx ⟨2, 1, 2, 3⟩ + 1 ≤ 11 ∧ (11 : Nat) ≤ Fabric.last_spine_idx ⟨2, 1, 2, 3⟩) ∧
    (((7, 11) ∈ Fabric.edges ⟨2, 1, 2, 3⟩ ↔
      ((7 : Nat) - (Fabric.last_tor_idx ⟨2, 1, 2, 3⟩ + 1)) % 2 =
        ((11 : Nat) - (Fabric.last_fabric_idx ⟨2, 1, 2, 3⟩ + 1)) % 2) ∧
     ((11, 7) ∈ Fabric.edges ⟨2, 1, 2, 3⟩ ↔
      ((7 : Nat) - (Fabric.last_tor_idx ⟨2, 1, 2, 3⟩ + 1)) % 2 =
        ((11 : Nat) - (Fabric.last_fabric_idx ⟨2, 1, 2, 3⟩ + 1)) % 2)) :=
  ⟨⟨by decide, by decide, by decide, by decide, by decide, by decide⟩,
    claim_C5 ⟨2, 1, 2, 3⟩ (by decide) (by decide) 7 11 (by decide) (by decide)
      (by decide) (by decide)⟩

theorem flatMap_congr_left {α β : Type} {l : List α} {f g : α → List β}
    (h : ∀ a ∈ l, f a = g a) : l.flatMap f = l.flatMap g := by
  induction l with
  | nil => rfl
  | cons x xs ih =>
      rw [List.flatMap_cons, List.flatMap_cons, h x (by simp),
        ih (fun a ha => h a (by simp [ha]))]

namespace JupiterBl

theorem mbPairs_eq (B : Nat) :
    mbPairs B = (List.range (8 * B)).map (fun m => (m / 8, m % 8)) := by
  rw [← range_map_blocks 8 (fun m => (m / 8, m % 8)) B, mbPairs]
  refine flatMap_congr_left fun ab _ => ?_
  refine List.map_congr_left fun mb hmb => ?_
  rw [List.mem_range] at hmb
  have h1 : (8 * ab + mb) / 8 = ab := by omega
  have h2 : (8 * ab + mb) % 8 = mb := by omega
  rw [h1, h2]

theorem closedRRGo_append (S A : Nat) :
    ∀ (l₁ l₂ : List (Nat × Nat)) (c : Nat),
      closedRRGo S A (l₁ ++ l₂) c =
        closedRRGo S A l₁ c ++ closedRRGo S A l₂ (c + 32 * l₁.length) := by
  intro l₁
  induction l₁ with
  | nil => intro l₂ c; simp [closedRRGo]
  | cons hd rest ih =>
      intro l₂ c
      obtain ⟨ab, mb⟩ := hd
      rw [List.cons_append, closedRRGo, closedRRGo, ih, List.append_assoc,
        List.length_cons]
      have : c + 8 * 4 + 32 * rest.length = c + 32 * (rest.length + 1) := by ring
      rw [show (8 : Nat) * 4 = 32 from rfl] at this
      rw [this]

theorem closedRRGo_map_range (S A : Nat) (g : Nat → Nat × Nat) :
    ∀ (n c : Nat),
      closedRRGo S A ((List.range n).map g) c =
        (List.range n).flatMap (fun m =>
          (List.range 32).flatMap (fun t =>
            [(aggNode A (g m).1 (g m).2, spineNode A ((c + 32 * m + t) % S)),
             (spineNode A ((c + 32 * m + t) % S), aggNode A (g m).1 (g m).2)])) := by
  intro n
  induction n with
  | zero => intro c; simp [closedRRGo]
  | succ n ih =>
      intro c
      rw [List.range_succ, List.map_append, closedRRGo_append, ih,
        List.flatMap_append]
      congr 1
      simp only [List.map_cons, List.map_nil, List.length_map, List.length_range,
        List.flatMap_cons, List.flatMap_nil, List.append_nil]
      rw [closedRRGo, closedRRGo]
      obtain ⟨a, b⟩ := g n
      simp only [List.append_nil]

theorem aggSpineSection_global (S A : Nat) (hS : 32 < S) :
    aggSpineSection S A =
      (List.range (32 * (8 * A))).flatMap (fun k =>
        [(32 * A + k / 32 + 1, spineNode A (k % S)),
         (spineNode A (k % S), 32 * A + k / 32 + 1)]) := by
  rw [aggSpineSection_rr S A hS, mbPairs_eq, closedRRGo_map_range]
  rw [← range_flatMap_blocks 32 (fun k =>
    [(32 * A + k / 32 + 1, spineNode A (k % S)),
     (spineNode A (k % S), 32 * A + k / 32 + 1)]) (8 * A)]
  refine flatMap_congr_left fun m hm => ?_
  refine flatMap_congr_left fun t ht => ?_
  rw [List.mem_range] at hm ht
  have hdiv : (32 * m + t) / 32 = m := by omega
  have hmod : (32 * m + t) % 8 = t % 8 := by omega
  have hagg : aggNode A (m / 8) (m % 8) = 32 * A + m + 1 := by
    simp only [aggNode]
    omega
  have harg : 0 + 32 * m + t = 32 * m + t := by omega
  rw [hagg, harg, hdiv]

end JupiterBl

/-- C10: in the Jupiter-Blocks generator with ports_per_middle_block_up (32)
below spine_block_count, the round-robin branch's spine cursor is
initialised once, before the aggregation-block loop, and threads through all
middle blocks of all aggregation blocks without ever being reset: the
aggregation-to-spine section equals, in generation order, the links k = 0,
1, ..., 32·8·A - 1 where link k joins middle-block node 32·A + k/32 + 1 to
the spine node at position k mod spine_block_count (both directions). -/
theorem claim_C10 :
    ∀ S A : Nat, 32 < S →
      JupiterBl.aggSpineSection S A =
        (List.range (32 * (8 * A))).flatMap (fun k =>
          [(32 * A + k / 32 + 1, JupiterBl.spineNode A (k % S)),
           (JupiterBl.spineNode A (k % S), 32 * A + k / 32 + 1)]) :=
  fun S A hS => JupiterBl.aggSpineSection_global S A hS

theorem claim_C10_witness :
    32 < 33 ∧
      JupiterBl.aggSpineSection 33 1 =
        (List.range (32 * (8 * 1))).flatMap (fun k =>
          [(32 * 1 + k / 32 + 1, JupiterBl.spineNode 1 (k % 33)),
           (JupiterBl.spineNode 1 (k % 33), 32 * 1 + k / 32 + 1)]) :=
  ⟨by decide, claim_C10 33 1 (by decide)⟩

namespace Jupiter

theorem closedAggGo_append (S A : Nat) :
    ∀ (l₁ l₂ : List (Nat × Nat × Nat)) (c : Nat),
      closedAggGo S A (l₁ ++ l₂) c =
        closedAggGo S A l₁ c ++ closedAggGo S A l₂ (c + 8 * l₁.length) := by
  intro l₁
  induction l₁ with
  | nil => intro l₂ c; simp [closedAggGo]
  | cons hd rest ih =>
      intro l₂ c
      obtain ⟨ab, mb, sw⟩ := hd
      rw [List.cons_append, closedAggGo, closedAggGo, ih, List.length_cons]
      have : c + 8 + 8 * rest.length = c + 8 * (rest.length + 1) := by ring
      rw [this]
      simp only [List.append_assoc]

theorem aggTriples_eq (A : Nat) :
    aggTriples A = (List.range (32 * A)).map (fun m => (m / 32, m % 32 / 4, m % 4)) := by
  rw [← range_map_blocks 32 (fun m => (m / 32, m % 32 / 4, m % 4)) A, aggTriples]
  refine flatMap_congr_left fun ab _ => ?_
  rw [show (List.range middle_block_per_aggregation) = List.range 8 from rfl,
    ← range_map_blocks 4 (fun r => ((32 * ab + r) / 32, (32 * ab + r) % 32 / 4,
      (32 * ab + r) % 4)) 8]
  refine flatMap_congr_left fun mb hmb => ?_
  rw [show (List.range switches_per_middle_block) = List.range 4 from rfl]
  refine List.map_congr_left fun sw hsw => ?_
  rw [List.mem_range] at hmb hsw
  have h1 : (32 * ab + (4 * mb + sw)) / 32 = ab := by omega
  have h2 : (32 * ab + (4 * mb + sw)) % 32 / 4 = mb := by omega
  have h3 : (32 * ab + (4 * mb + sw)) % 4 = sw := by omega
  rw [h1, h2, h3]

theorem closedAggGo_map_range (S A : Nat) (g : Nat → Nat × Nat × Nat) :
    ∀ (n c : Nat),
      closedAggGo S A ((List.range n).map g) c =
        (List.range n).flatMap (fun m =>
          ((List.range (g m).2.2).flatMap fun pv =>
            [(aggNode A (g m).1 (g m).2.1 (g m).2.2, aggNode A (g m).1 (g m).2.1 pv),
             (aggNode A (g m).1 (g m).2.1 pv, aggNode A (g m).1 (g m).2.1 (g m).2.2)])
          ++ ((List.range 8).flatMap fun t =>
            [(aggNode A (g m).1 (g m).2.1 (g m).2.2, spineTarget S A (c + 8 * m + t)),
             (spineTarget S A (c + 8 * m + t),
              aggNode A (g m).1 (g m).2.1 (g m).2.2)])) := by
  intro n
  induction n with
  | zero => intro c; simp [closedAggGo]
  | succ n ih =>
      intro c
      rw [List.range_succ, List.map_append, closedAggGo_append, ih,
        List.flatMap_append]
      congr 1
      simp only [List.map_cons, List.map_nil, List.length_map, List.length_range,
        List.flatMap_cons, List.flatMap_nil, List.append_nil]
      rw [closedAggGo, closedAggGo]
      obtain ⟨ab, mb, sw⟩ := g n
      simp only [List.append_nil]
end Jupiter

theorem flatMap_singleton_eq_map {α β : Type} (l : List α) (f : α → β) :
    (l.flatMap fun a => [f a]) = l.map f := by
  induction l with
  | nil => rfl
  | cons x xs ih => rw [List.flatMap_cons, List.map_cons, ih]; rfl

namespace Jupiter

theorem isUplink_true (S A : Nat) (e : Nat × Nat)
    (h : 32 * A + 1 ≤ e.1 ∧ e.1 ≤ 64 * A ∧ 64 * A + 1 ≤ e.2 ∧ e.2 ≤ 64 * A + 6 * S) :
    isUplink S A e = true := by
  simp only [isUplink, decide_eq_true_eq]
  exact h

theorem isUplink_false (S A : Nat) (e : Nat × Nat)
    (h : ¬(32 * A + 1 ≤ e.1 ∧ e.1 ≤ 64 * A ∧ 64 * A + 1 ≤ e.2 ∧ e.2 ≤ 64 * A + 6 * S)) :
    isUplink S A e = false := by
  simp only [isUplink, decide_eq_false_iff_not]
  exact h

theorem uplinks_eq (S A : Nat) (hS : 1 ≤ S) :
    (edges S A).filter (isUplink S A) =
      (List.range (8 * (32 * A))).map (fun k => (32 * A + k / 8 + 1, spineTarget S A k)) := by
  rw [edges, List.filter_append, List.filter_append]
  have h1 : (intraSpineEdges S A).filter (isUplink S A) = [] := by
    rw [List.filter_eq_nil_iff]
    intro e he
    simp only [intraSpineEdges, switches_per_spine, List.mem_flatMap, List.mem_range,
      List.mem_cons, List.not_mem_nil, or_false] at he
    obtain ⟨sb, hsb, sw, hsw, pv, hpv, he⟩ := he
    have : isUplink S A e = false := by
      refine isUplink_false S A e ?_
      rcases he with rfl | rfl <;> simp only [spineSwitch] <;> omega
    simp [this]
  have h3 : (torEdges A).filter (isUplink S A) = [] := by
    rw [List.filter_eq_nil_iff]
    intro e he
    simp only [torEdges, tors_per_aggregation_block, middle_block_per_aggregation,
      List.mem_flatMap, List.mem_range, List.mem_cons, List.not_mem_nil,
      or_false] at he
    obtain ⟨ab, hab, t, ht, out, hout, he⟩ := he
    have : isUplink S A e = false := by
      refine isUplink_false S A e ?_
      rcases he with rfl | rfl | rfl | rfl <;> simp only [torNode, aggNode] <;> omega
    simp [this]
  rw [h1, h3, List.nil_append, List.append_nil]
  rw [aggSection_closed, aggTriples_eq, closedAggGo_map_range, List.filter_flatMap]
  rw [← range_map_blocks 8 (fun k => (32 * A + k / 8 + 1, spineTarget S A k)) (32 * A)]
  refine flatMap_congr_left fun m hm => ?_
  rw [List.mem_range] at hm
  rw [List.filter_append]
  have hab : m / 32 < A := by omega
  have hmb : m % 32 / 4 < 8 := by omega
  have hsw : m % 4 < 4 := by omega
  have haggid : aggNode A (m / 32) (m % 32 / 4) (m % 4) = 32 * A + m + 1 := by
    simp only [aggNode]
    omega
  have hintra : ((List.range (m % 4)).flatMap fun pv =>
      [(aggNode A (m / 32) (m % 32 / 4) (m % 4), aggNode A (m / 32) (m % 32 / 4) pv),
       (aggNode A (m / 32) (m % 32 / 4) pv,
        aggNode A (m / 32) (m % 32 / 4) (m % 4))]).filter (isUplink S A) = [] := by
    rw [List.filter_eq_nil_iff]
    intro e he
    simp only [List.mem_flatMap, List.mem_range, List.mem_cons, List.not_mem_nil,
      or_false] at he
    obtain ⟨pv, hpv, he⟩ := he
    have : isUplink S A e = false := by
      refine isUplink_false S A e ?_
      rcases he with rfl | rfl <;> simp only [aggNode] <;> omega
    simp [this]
  rw [hintra, List.nil_append, List.filter_flatMap]
  have hup : ∀ t ∈ List.range 8,
      ([(aggNode A (m / 32) (m % 32 / 4) (m % 4), spineTarget S A (0 + 8 * m + t)),
        (spineTarget S A (0 + 8 * m + t),
         aggNode A (m / 32) (m % 32 / 4) (m % 4))]).filter (isUplink S A) =
      [(32 * A + (8 * m + t) / 8 + 1, spineTarget S A (8 * m + t))] := by
    intro t ht
    rw [List.mem_range] at ht
    have hks : (0 + 8 * m + t) % S < S := Nat.mod_lt _ (by omega)
    have hk6 : (0 + 8 * m + t) / S % 6 < 6 := Nat.mod_lt _ (by omega)
    have hfst : isUplink S A (aggNode A (m / 32) (m % 32 / 4) (m % 4),
        spineTarget S A (0 + 8 * m + t)) = true := by
      refine isUplink_true S A _ ?_
      simp only [aggNode, spineTarget, spineSwitch]
      omega
    have hsnd : isUplink S A (spineTarget S A (0 + 8 * m + t),
        aggNode A (m / 32) (m % 32 / 4) (m % 4)) = false := by
      refine isUplink_false S A _ ?_
      simp only [aggNode, spineTarget, spineSwitch]
      omega
    rw [List.filter_cons_of_pos hfst, List.filter_cons_of_neg (by rw [hsnd]; simp),
      List.filter_nil]
    have hz : 0 + 8 * m + t = 8 * m + t := by omega
    have hdiv : (8 * m + t) / 8 = m := by omega
    rw [hz, haggid, hdiv]
  rw [flatMap_congr_left hup, flatMap_singleton_eq_map]

end Jupiter

theorem count_div_filter (d m : Nat) (hd : 1 ≤ d) :
    ∀ n, ((List.range (d * n)).filter (fun k => k / d == m)).length =
      if m < n then d else 0 := by
  intro n
  induction n with
  | zero => simp
  | succ n ih =>
      rw [Nat.mul_succ, List.range_add, List.filter_append, List.length_append, ih]
      have hblock : ((List.range d).map (d * n + ·)).filter (fun k => k / d == m) =
          if n = m then (List.range d).map (d * n + ·) else [] := by
        by_cases hnm : n = m
        · rw [if_pos hnm, List.filter_eq_self]
          intro a ha
          simp only [List.mem_map, List.mem_range] at ha
          obtain ⟨t, ht, rfl⟩ := ha
          have h0 : t / d = 0 := Nat.div_eq_of_lt ht
          have hdt : (d * n + t) / d = n := by
            rw [Nat.mul_add_div (by omega), h0]
            omega
          rw [hdt, hnm]
          simp
        · rw [if_neg hnm, List.filter_eq_nil_iff]
          intro a ha
          simp only [List.mem_map, List.mem_range] at ha
          obtain ⟨t, ht, rfl⟩ := ha
          have h0 : t / d = 0 := Nat.div_eq_of_lt ht
          have hdt : (d * n + t) / d = n := by
            rw [Nat.mul_add_div (by omega), h0]
            omega
          rw [hdt]
          simp [hnm]
      rw [hblock]
      by_cases hnm : n = m
      · rw [if_pos hnm, List.length_map, List.length_range, if_neg (by omega),
          if_pos (by omega)]
        omega
      · rw [if_neg hnm, List.length_nil]
        by_cases hlt : m < n
        · rw [if_pos hlt, if_pos (by omega)]
          omega
        · rw [if_neg hlt, if_neg (by omega)]

theorem pair_residue_eq (S b p : Nat) (hS : 1 ≤ S) (hb : b < S) (hp : p < 6) (k : Nat) :
    ((k % S == b) && (k / S % 6 == p)) = (k % (6 * S) == b + S * p) := by
  rw [Bool.eq_iff_iff]
  simp only [Bool.and_eq_true, beq_iff_eq]
  have h6S : 0 < 6 * S := by omega
  have hrlt : k % (6 * S) < 6 * S := Nat.mod_lt _ h6S
  have hmodS : k % S = k % (6 * S) % S := (Nat.mod_mod_of_dvd k ⟨6, by ring⟩).symm
  have hdiv6 : k / S % 6 = k % (6 * S) / S := by
    have hmul : 6 * S * (k / (6 * S)) = S * (6 * (k / (6 * S))) := by ring
    have hdm := Nat.div_add_mod k (6 * S)
    have hk : k = k % (6 * S) + S * (6 * (k / (6 * S))) := by
      rw [← hmul]
      omega
    conv_lhs => rw [hk]
    rw [Nat.add_mul_div_left _ _ (by omega : 0 < S), Nat.add_mul_mod_self_left]
    exact Nat.mod_eq_of_lt (by
      rw [Nat.div_lt_iff_lt_mul (by omega : 0 < S)]
      omega)
  constructor
  · rintro ⟨h1, h2⟩
    rw [hmodS] at h1
    rw [hdiv6] at h2
    have hdm2 := Nat.div_add_mod (k % (6 * S)) S
    rw [h2, h1] at hdm2
    omega
  · intro h
    rw [h] at hmodS hdiv6
    constructor
    · rw [hmodS, Nat.add_mul_mod_self_left, Nat.mod_eq_of_lt hb]
    · rw [hdiv6, Nat.add_mul_div_left _ _ (by omega : 0 < S), Nat.div_eq_of_lt hb]
      omega

/-- C6: in switch-level Jupiter with valid parameters, the aggregation-to-
spine adds of the generation, taken in order (the filter of the edge list
keeping aggregation-to-spine pairs), are exactly the uplinks k = 0, 1, ...,
8·32·A - 1, where uplink k leaves aggregation switch 32·A + k/8 + 1 (so each
of a middle block's 4 switches makes exactly 8 consecutive uplinks, as the
second conjunct also states by counting) and lands on the spine switch at
block k mod S, switch position (k/S) mod 6 - precisely the cursor that
advances to the next block every uplink and to the next switch position only
once a full pass over all S spine blocks completes. The last two conjuncts
state the resulting even spread: the uplink counts of any two spine blocks,
and of any two (spine block, switch position) slots, differ by at most 1. -/
theorem claim_C6 :
    ∀ S A : Nat, 1 ≤ A → A ≤ S →
      ((Jupiter.edges S A).filter (Jupiter.isUplink S A) =
        (List.range (8 * (32 * A))).map (fun k =>
          (32 * A + k / 8 + 1, Jupiter.spineTarget S A k))) ∧
      (∀ m, m < 32 * A →
        ((Jupiter.edges S A).filter (fun e =>
          (e.1 == 32 * A + m + 1) && Jupiter.isUplink S A e)).length = 8) ∧
      (∀ b₁ b₂, b₁ < S → b₂ < S →
        ((Jupiter.edges S A).filter (fun e =>
          (decide (64 * A + 6 * b₁ + 1 ≤ e.2) && decide (e.2 ≤ 64 * A + 6 * b₁ + 6)) &&
            Jupiter.isUplink S A e)).length ≤
        ((Jupiter.edges S A).filter (fun e =>
          (decide (64 * A + 6 * b₂ + 1 ≤ e.2) && decide (e.2 ≤ 64 * A + 6 * b₂ + 6)) &&
            Jupiter.isUplink S A e)).length + 1) ∧
      (∀ b₁ p₁ b₂ p₂, b₁ < S → p₁ < 6 → b₂ < S → p₂ < 6 →
        ((Jupiter.edges S A).filter (fun e =>
          (e.2 == Jupiter.spineSwitch A b₁ p₁) && Jupiter.isUplink S A e)).length ≤
        ((Jupiter.edges S A).filter (fun e =>
          (e.2 == Jupiter.spineSwitch A b₂ p₂) && Jupiter.isUplink S A e)).length + 1) := by
  intro S A hA hAS
  have hS : 1 ≤ S := by omega
  have hup := Jupiter.uplinks_eq S A hS
  refine ⟨hup, ?_, ?_, ?_⟩
  · intro m hm
    rw [← List.filter_filter, hup, List.filter_map, List.length_map]
    have hpt : ∀ k ∈ List.range (8 * (32 * A)),
        (((fun e : Nat × Nat => e.1 == 32 * A + m + 1) ∘
          (fun k => (32 * A + k / 8 + 1, Jupiter.spineTarget S A k))) k) =
        (k / 8 == m) := by
      intro k _
      simp only [Function.comp]
      rw [Bool.eq_iff_iff]
      simp only [beq_iff_eq]
      omega
    rw [List.filter_congr hpt, count_div_filter 8 m (by omega) (32 * A), if_pos hm]
  · intro b₁ b₂ hb₁ hb₂
    have key : ∀ b, b < S →
        ((Jupiter.edges S A).filter (fun e =>
          (decide (64 * A + 6 * b + 1 ≤ e.2) && decide (e.2 ≤ 64 * A + 6 * b + 6)) &&
            Jupiter.isUplink S A e)).length =
        8 * (32 * A) / S + if b < 8 * (32 * A) % S then 1 else 0 := by
      intro b hb
      rw [← List.filter_filter, hup, List.filter_map, List.length_map]
      have hpt : ∀ k ∈ List.range (8 * (32 * A)),
          (((fun e : Nat × Nat =>
            decide (64 * A + 6 * b + 1 ≤ e.2) && decide (e.2 ≤ 64 * A + 6 * b + 6)) ∘
            (fun k => (32 * A + k / 8 + 1, Jupiter.spineTarget S A k))) k) =
          (k % S == b) := by
        intro k _
        simp only [Function.comp]
        have hks : k % S < S := Nat.mod_lt _ (by omega)
        have hk6 : k / S % 6 < 6 := Nat.mod_lt _ (by omega)
        rw [Bool.eq_iff_iff]
        simp only [Bool.and_eq_true, decide_eq_true_eq, beq_iff_eq,
          Jupiter.spineTarget, Jupiter.spineSwitch]
        omega
      rw [List.filter_congr hpt, count_mod_filter S b hb]
    rw [key b₁ hb₁, key b₂ hb₂]
    split_ifs <;> omega
  · intro b₁ p₁ b₂ p₂ hb₁ hp₁ hb₂ hp₂
    have key : ∀ b p, b < S → p < 6 →
        ((Jupiter.edges S A).filter (fun e =>
          (e.2 == Jupiter.spineSwitch A b p) && Jupiter.isUplink S A e)).length =
        8 * (32 * A) / (6 * S) + if b + S * p < 8 * (32 * A) % (6 * S) then 1 else 0 := by
      intro b p hb hp
      rw [← List.filter_filter, hup, List.filter_map, List.length_map]
      have hpt : ∀ k ∈ List.range (8 * (32 * A)),
          (((fun e : Nat × Nat => e.2 == Jupiter.spineSwitch A b p) ∘
            (fun k => (32 * A + k / 8 + 1, Jupiter.spineTarget S A k))) k) =
          ((k % S == b) && (k / S % 6 == p)) := by
        intro k _
        simp only [Function.comp]
        have hks : k % S < S := Nat.mod_lt _ (by omega)
        have hk6 : k / S % 6 < 6 := Nat.mod_lt _ (by omega)
        rw [Bool.eq_iff_iff]
        simp only [Bool.and_eq_true, beq_iff_eq, Jupiter.spineTarget,
          Jupiter.spineSwitch]
        omega
      have hpt2 : ∀ k ∈ List.range (8 * (32 * A)),
          ((k % S == b) && (k / S % 6 == p)) = (k % (6 * S) == b + S * p) :=
        fun k _ => pair_residue_eq S b p hS hb hp k
      have hbound : b + S * p < 6 * S := by
        have h5 : S * p ≤ S * 5 := Nat.mul_le_mul_left _ (by omega)
        have h6 : S * 5 + S = 6 * S := by ring
        omega
      rw [List.filter_congr hpt, List.filter_congr hpt2,
        count_mod_filter (6 * S) (b + S * p) hbound]
    rw [key b₁ p₁ hb₁ hp₁, key b₂ p₂ hb₂ hp₂]
    split_ifs <;> omega

theorem claim_C6_witness :
    ((1 : Nat) ≤ 1 ∧ (1 : Nat) ≤ 2) ∧
    (Jupiter.edges 2 1).filter (Jupiter.isUplink 2 1) =
      (List.range (8 * (32 * 1))).map (fun k =>
        (32 * 1 + k / 8 + 1, Jupiter.spineTarget 2 1 k)) :=
  ⟨⟨by decide, by decide⟩, (claim_C6 2 1 (by decide) (by decide)).1⟩

theorem add_mod_eq_self_iff (S k d : Nat) (hS : 1 ≤ S) :
    (k + d) % S = k % S ↔ d % S = 0 := by
  constructor
  · intro h
    rw [Nat.add_mod] at h
    have ha : k % S < S := Nat.mod_lt _ (by omega)
    have he : d % S < S := Nat.mod_lt _ (by omega)
    by_cases hlt : k % S + d % S < S
    · rw [Nat.mod_eq_of_lt hlt] at h
      omega
    · have h2 : (k % S + d % S) % S = k % S + d % S - S := by
        rw [Nat.mod_eq_sub_mod (by omega), Nat.mod_eq_of_lt (by omega)]
      rw [h2] at h
      omega
  · intro h
    rw [Nat.add_mod, h, Nat.add_zero, Nat.mod_mod_of_dvd k (dvd_refl S)]

theorem disjoint_of_forall_pred {β : Type} {l₁ l₂ : List β} (P : β → Prop)
    (h1 : ∀ x ∈ l₁, P x) (h2 : ∀ x ∈ l₂, ¬ P x) : l₁.Disjoint l₂ :=
  fun _ hx1 hx2 => h2 _ hx2 (h1 _ hx1)

theorem nodup_flatMap_range {β : Type} (n : Nat) (f : Nat → List β)
    (hno : ∀ i, i < n → (f i).Nodup)
    (hdisj : ∀ i j, i < j → j < n → ∀ x ∈ f i, x ∉ f j) :
    ((List.range n).flatMap f).Nodup := by
  rw [List.nodup_flatMap]
  constructor
  · intro x hx
    exact hno x (List.mem_range.1 hx)
  · rw [List.pairwise_iff_getElem]
    intro i j hi hj hij
    simp only [List.getElem_range]
    have hj' : j < n := by simpa using hj
    exact fun x hxi hxj => hdisj _ _ hij hj' x hxi hxj

theorem nodup_swap_pairs_flatMap (n : Nat) (a b : Nat → Nat)
    (hab : ∀ i, i < n → a i ≠ b i)
    (hinj : ∀ i j, i < n → j < n →
      (a i = a j ∧ b i = b j) ∨ (a i = b j ∧ b i = a j) → i = j) :
    ((List.range n).flatMap (fun i => [(a i, b i), (b i, a i)])).Nodup := by
  refine nodup_flatMap_range n _ (fun i hi => ?_) (fun i j hij hj x hxi hxj => ?_)
  · simp only [List.nodup_cons, List.mem_cons, List.mem_singleton, List.not_mem_nil,
      List.nodup_nil, and_true, not_false_eq_true, or_false]
    intro h
    rw [Prod.mk.injEq] at h
    exact hab i hi h.1
  · have hi : i < n := Nat.lt_trans hij hj
    simp only [List.mem_cons, List.mem_singleton, List.not_mem_nil, or_false] at hxi hxj
    have heq : i = j := by
      rcases hxi with h1 | h1 <;> rcases hxj with h2 | h2
      · refine hinj i j hi hj (Or.inl ?_)
        rw [h1, Prod.mk.injEq] at h2
        exact h2
      · refine hinj i j hi hj (Or.inr ?_)
        rw [h1, Prod.mk.injEq] at h2
        exact h2
      · refine hinj i j hi hj (Or.inr ?_)
        rw [h1, Prod.mk.injEq] at h2
        exact ⟨h2.2, h2.1⟩
      · refine hinj i j hi hj (Or.inl ?_)
        rw [h1, Prod.mk.injEq] at h2
        exact ⟨h2.2, h2.1⟩
    omega

theorem length_flatMap_sum {β γ : Type} (l : List β) (f : β → List γ) (g : β → Nat)
    (h : ∀ x ∈ l, (f x).length = g x) :
    (l.flatMap f).length = (l.map g).sum := by
  induction l with
  | nil => rfl
  | cons x xs ih =>
      rw [List.flatMap_cons, List.length_append, h x (by simp), List.map_cons,
        List.sum_cons, ih (fun y hy => h y (by simp [hy]))]

theorem sum_map_range_mod (d : Nat) (g : Nat → Nat) :
    ∀ n : Nat, ((List.range (d * n)).map (fun m => g (m % d))).sum =
      n * ((List.range d).map g).sum := by
  intro n
  induction n with
  | zero => simp
  | succ n ih =>
      have hd : d * (n + 1) = d * n + d := by ring
      rw [hd, List.range_add, List.map_append, List.sum_append, ih, List.map_map]
      have hblk : ((List.range d).map ((fun m => g (m % d)) ∘ (d * n + ·))).sum =
          ((List.range d).map g).sum := by
        refine congrArg List.sum (List.map_congr_left fun t ht => ?_)
        rw [List.mem_range] at ht
        simp only [Function.comp]
        rw [Nat.add_comm (d * n) t, Nat.add_mul_mod_self_left, Nat.mod_eq_of_lt ht]
      rw [hblk]
      ring

theorem length_flatMap_pairs {β : Type} (n : Nat) (f g : Nat → β) :
    ((List.range n).flatMap (fun i => [f i, g i])).length = n * 2 := by
  rw [length_flatMap_const (List.range n) (fun i => [f i, g i]) 2 (fun x _ => rfl),
    List.length_range]

theorem length_flatMap_quad {β : Type} (n : Nat) (f g f' g' : Nat → β) :
    ((List.range n).flatMap (fun i => [f i, g i, f' i, g' i])).length = n * 4 := by
  rw [length_flatMap_const (List.range n) (fun i => [f i, g i, f' i, g' i]) 4
    (fun x _ => rfl), List.length_range]

namespace FatTree

theorem intraPod_flat (p : Nat) (h2 : 2 ≤ p) :
    intraPodEdges p =
      (List.range ((p / 2) * tor_switches p)).flatMap (fun i =>
        [(i / (p / 2) + 1,
          tor_switches p + (p / 2) * (i / (p / 2) / (p / 2)) + i % (p / 2) + 1),
         (tor_switches p + (p / 2) * (i / (p / 2) / (p / 2)) + i % (p / 2) + 1,
          i / (p / 2) + 1)]) := by
  have hp : 0 < p := by omega
  have hh : 1 ≤ p / 2 := by omega
  have hagg : aggregation_switches p / p = p / 2 := Nat.mul_div_cancel_left _ hp
  have hper : tor_switches p / p = p / 2 := Nat.mul_div_cancel_left _ hp
  rw [intraPodEdges_closed p, hagg, hper,
    ← range_flatMap_blocks (p / 2) (fun i =>
      [(i / (p / 2) + 1,
        tor_switches p + (p / 2) * (i / (p / 2) / (p / 2)) + i % (p / 2) + 1),
       (tor_switches p + (p / 2) * (i / (p / 2) / (p / 2)) + i % (p / 2) + 1,
        i / (p / 2) + 1)]) (tor_switches p)]
  refine flatMap_congr_left fun q hq => ?_
  refine flatMap_congr_left fun j hj => ?_
  rw [List.mem_range] at hj
  have hdiv : (p / 2 * q + j) / (p / 2) = q := by
    rw [Nat.mul_add_div (by omega), Nat.div_eq_of_lt hj, Nat.add_zero]
  have hmod : (p / 2 * q + j) % (p / 2) = j := by
    rw [Nat.mul_add_mod, Nat.mod_eq_of_lt hj]
  rw [hdiv, hmod]

theorem core_flat (p : Nat) (h2 : 2 ≤ p) :
    coreEdges p =
      (List.range ((p / 2) * aggregation_switches p)).flatMap (fun i =>
        [(aggregation_switches p + i / (p / 2) + 1,
          2 * aggregation_switches p + (p / 2) * (i / (p / 2) % (p / 2)) +
            i % (p / 2) + 1),
         (2 * aggregation_switches p + (p / 2) * (i / (p / 2) % (p / 2)) +
            i % (p / 2) + 1,
          aggregation_switches p + i / (p / 2) + 1)]) := by
  have hp : 0 < p := by omega
  have hh : 1 ≤ p / 2 := by omega
  have hagg : aggregation_switches p / p = p / 2 := Nat.mul_div_cancel_left _ hp
  rw [coreEdges_closed p (by rw [hagg]; omega), hagg,
    ← range_flatMap_blocks (p / 2) (fun i =>
      [(aggregation_switches p + i / (p / 2) + 1,
        2 * aggregation_switches p + (p / 2) * (i / (p / 2) % (p / 2)) +
          i % (p / 2) + 1),
       (2 * aggregation_switches p + (p / 2) * (i / (p / 2) % (p / 2)) +
          i % (p / 2) + 1,
        aggregation_switches p + i / (p / 2) + 1)]) (aggregation_switches p)]
  refine flatMap_congr_left fun q hq => ?_
  refine flatMap_congr_left fun j hj => ?_
  rw [List.mem_range] at hj
  have hdiv : (p / 2 * q + j) / (p / 2) = q := by
    rw [Nat.mul_add_div (by omega), Nat.div_eq_of_lt hj, Nat.add_zero]
  have hmod : (p / 2 * q + j) % (p / 2) = j := by
    rw [Nat.mul_add_mod, Nat.mod_eq_of_lt hj]
  rw [hdiv, hmod]

theorem intraPod_nodup (p : Nat) (h2 : 2 ≤ p) : (intraPodEdges p).Nodup := by
  have hh : 1 ≤ p / 2 := by omega
  rw [intraPod_flat p h2]
  refine nodup_swap_pairs_flatMap _ (fun i => i / (p / 2) + 1)
    (fun i => tor_switches p + (p / 2) * (i / (p / 2) / (p / 2)) + i % (p / 2) + 1)
    (fun i hi => ?_) (fun i j hi hj hcase => ?_)
  · simp only []
    set X := (p / 2) * (i / (p / 2) / (p / 2)) with hX
    have hD : i / (p / 2) < tor_switches p := by
      rw [Nat.div_lt_iff_lt_mul (by omega), Nat.mul_comm]
      exact hi
    omega
  · simp only [] at hcase
    rcases hcase with ⟨ha, hb⟩ | ⟨ha, hb⟩
    · have hq : i / (p / 2) = j / (p / 2) := by omega
      rw [hq] at hb
      have hr : i % (p / 2) = j % (p / 2) := by
        set X := (p / 2) * (j / (p / 2) / (p / 2)) with hX
        omega
      have h1 := Nat.div_add_mod i (p / 2)
      have h2' := Nat.div_add_mod j (p / 2)
      rw [hq, hr] at h1
      set Y := (p / 2) * (j / (p / 2)) with hY
      omega
    · exfalso
      have hD : i / (p / 2) < tor_switches p := by
        rw [Nat.div_lt_iff_lt_mul (by omega), Nat.mul_comm]
        exact hi
      set X := (p / 2) * (j / (p / 2) / (p / 2)) with hX
      omega

theorem core_nodup (p : Nat) (h2 : 2 ≤ p) : (coreEdges p).Nodup := by
  have hh : 1 ≤ p / 2 := by omega
  rw [core_flat p h2]
  refine nodup_swap_pairs_flatMap _
    (fun i => aggregation_switches p + i / (p / 2) + 1)
    (fun i => 2 * aggregation_switches p + (p / 2) * (i / (p / 2) % (p / 2)) +
      i % (p / 2) + 1)
    (fun i hi => ?_) (fun i j hi hj hcase => ?_)
  · simp only []
    set X := (p / 2) * (i / (p / 2) % (p / 2)) with hX
    have hD : i / (p / 2) < aggregation_switches p := by
      rw [Nat.div_lt_iff_lt_mul (by omega), Nat.mul_comm]
      exact hi
    omega
  · simp only [] at hcase
    rcases hcase with ⟨ha, hb⟩ | ⟨ha, hb⟩
    · have hq : i / (p / 2) = j / (p / 2) := by omega
      rw [hq] at hb
      have hr : i % (p / 2) = j % (p / 2) := by
        set X := (p / 2) * (j / (p / 2) % (p / 2)) with hX
        omega
      have h1 := Nat.div_add_mod i (p / 2)
      have h2' := Nat.div_add_mod j (p / 2)
      rw [hq, hr] at h1
      set Y := (p / 2) * (j / (p / 2)) with hY
      omega
    · exfalso
      have hD : i / (p / 2) < aggregation_switches p := by
        rw [Nat.div_lt_iff_lt_mul (by omega), Nat.mul_comm]
        exact hi
      set X := (p / 2) * (j / (p / 2) % (p / 2)) with hX
      omega

theorem edges_nodup (p : Nat) (h2 : 2 ≤ p) : (edges p).Nodup := by
  rw [edges]
  refine (intraPod_nodup p h2).append (core_nodup p h2) ?_
  refine disjoint_of_forall_pred
    (fun x => x.1 ≤ tor_switches p ∨ x.2 ≤ tor_switches p)
    (fun x hx => ?_) (fun x hx => ?_)
  · rcases intraPod_mem p h2 x hx with ⟨h1, _⟩ | ⟨_, h1⟩
    · exact Or.inl h1.2
    · exact Or.inr h1.2
  · rcases core_mem p h2 x hx with ⟨h1, hb⟩ | ⟨h1, hb⟩ <;> omega

theorem intraPod_length (p : Nat) (h2 : 2 ≤ p) :
    (intraPodEdges p).length = p / 2 * tor_switches p * 2 := by
  rw [intraPod_flat p h2, length_flatMap_pairs]

theorem core_length (p : Nat) (h2 : 2 ≤ p) :
    (coreEdges p).length = p / 2 * aggregation_switches p * 2 := by
  rw [core_flat p h2, length_flatMap_pairs]

theorem edges_dedup_count (p : Nat) (h2 : 2 ≤ p) :
    (edges p).dedup.length =
      2 * (tor_switches p * (p / 2) + aggregation_switches p * (p / 2)) := by
  rw [List.dedup_eq_self.2 (edges_nodup p h2), edges, List.length_append,
    intraPod_length p h2, core_length p h2]
  ring

end FatTree

namespace Fabric

theorem intraPodF_flat (P : Params) (hn : 1 ≤ P.nr_of_planes) :
    intraPodEdges P =
      (List.range (P.nr_of_planes * last_tor_idx P)).flatMap (fun k =>
        [(1 + k / P.nr_of_planes,
          last_tor_idx P + 1 +
            P.nr_of_planes * (k / P.nr_of_planes / P.port_count) +
            k % P.nr_of_planes),
         (last_tor_idx P + 1 +
            P.nr_of_planes * (k / P.nr_of_planes / P.port_count) +
            k % P.nr_of_planes,
          1 + k / P.nr_of_planes)]) := by
  rw [intraPodEdges, tor_idx_range, List.range'_eq_map_range, List.flatMap_map,
    ← range_flatMap_blocks P.nr_of_planes (fun k =>
      [(1 + k / P.nr_of_planes,
        last_tor_idx P + 1 +
          P.nr_of_planes * (k / P.nr_of_planes / P.port_count) +
          k % P.nr_of_planes),
       (last_tor_idx P + 1 +
          P.nr_of_planes * (k / P.nr_of_planes / P.port_count) +
          k % P.nr_of_planes,
        1 + k / P.nr_of_planes)]) (last_tor_idx P)]
  refine flatMap_congr_left fun q hq => ?_
  refine flatMap_congr_left fun j hj => ?_
  rw [List.mem_range] at hj
  have hdiv : (P.nr_of_planes * q + j) / P.nr_of_planes = q := by
    rw [Nat.mul_add_div (by omega), Nat.div_eq_of_lt hj, Nat.add_zero]
  have hmod : (P.nr_of_planes * q + j) % P.nr_of_planes = j := by
    rw [Nat.mul_add_mod, Nat.mod_eq_of_lt hj]
  rw [hdiv, hmod]
  have hsub : 1 + q - 1 = q := by omega
  rw [hsub]

theorem cursor_section_flat (P : Params) (hn : 1 ≤ P.nr_of_planes)
    (hsp : 1 ≤ P.server_pods) (base len : Nat) :
    planeCursorGo P (List.range' (base + 1) len) 0 =
      (List.range (P.server_pods * len)).flatMap (fun k =>
        [(last_fabric_idx P + 1 + k / P.server_pods % P.nr_of_planes +
            P.nr_of_planes * (k % P.server_pods),
          base + 1 + k / P.server_pods),
         (base + 1 + k / P.server_pods,
          last_fabric_idx P + 1 + k / P.server_pods % P.nr_of_planes +
            P.nr_of_planes * (k % P.server_pods))]) := by
  have hclosed := planeCursorGo_closed P len (base + 1) 0
  rw [Nat.zero_mod] at hclosed
  rw [hclosed,
    ← range_flatMap_blocks P.server_pods (fun k =>
      [(last_fabric_idx P + 1 + k / P.server_pods % P.nr_of_planes +
          P.nr_of_planes * (k % P.server_pods),
        base + 1 + k / P.server_pods),
       (base + 1 + k / P.server_pods,
        last_fabric_idx P + 1 + k / P.server_pods % P.nr_of_planes +
          P.nr_of_planes * (k % P.server_pods))]) len]
  refine flatMap_congr_left fun t ht => ?_
  rw [List.mem_range] at ht
  rw [connectPlaneEdges_eq P ((0 + t) % P.nr_of_planes) (base + 1 + t) hn hsp
    (Nat.mod_lt _ (by omega))]
  refine flatMap_congr_left fun u hu => ?_
  rw [List.mem_range] at hu
  have hdiv : (P.server_pods * t + u) / P.server_pods = t := by
    rw [Nat.mul_add_div (by omega), Nat.div_eq_of_lt hu, Nat.add_zero]
  have hmod : (P.server_pods * t + u) % P.server_pods = u := by
    rw [Nat.mul_add_mod, Nat.mod_eq_of_lt hu]
  rw [hdiv, hmod, Nat.zero_add]

theorem intraPodF_nodup (P : Params) (hn : 1 ≤ P.nr_of_planes) :
    (intraPodEdges P).Nodup := by
  rw [intraPodF_flat P hn]
  refine nodup_swap_pairs_flatMap _ (fun k => 1 + k / P.nr_of_planes)
    (fun k => last_tor_idx P + 1 +
      P.nr_of_planes * (k / P.nr_of_planes / P.port_count) + k % P.nr_of_planes)
    (fun i hi => ?_) (fun i j hi hj hcase => ?_)
  · simp only []
    have hD : i / P.nr_of_planes < last_tor_idx P := by
      rw [Nat.div_lt_iff_lt_mul (by omega), Nat.mul_comm]
      exact hi
    set X := P.nr_of_planes * (i / P.nr_of_planes / P.port_count) with hX
    omega
  · simp only [] at hcase
    rcases hcase with ⟨ha, hb⟩ | ⟨ha, hb⟩
    · have hq : i / P.nr_of_planes = j / P.nr_of_planes := by omega
      rw [hq] at hb
      have hr : i % P.nr_of_planes = j % P.nr_of_planes := by
        set X := P.nr_of_planes * (j / P.nr_of_planes / P.port_count) with hX
        omega
      have h1 := Nat.div_add_mod i P.nr_of_planes
      have h2 := Nat.div_add_mod j P.nr_of_planes
      rw [hq, hr] at h1
      set Y := P.nr_of_planes * (j / P.nr_of_planes) with hY
      omega
    · exfalso
      have hD : i / P.nr_of_planes < last_tor_idx P := by
        rw [Nat.div_lt_iff_lt_mul (by omega), Nat.mul_comm]
        exact hi
      set X := P.nr_of_planes * (j / P.nr_of_planes / P.port_count) with hX
      omega

theorem cursor_section_nodup (P : Params) (hn : 1 ≤ P.nr_of_planes)
    (hsp : 1 ≤ P.server_pods) (base len : Nat)
    (hbase : base + len ≤ last_fabric_idx P ∨ last_spine_idx P ≤ base) :
    (planeCursorGo P (List.range' (base + 1) len) 0).Nodup := by
  have hls : last_spine_idx P =
      last_fabric_idx P + P.nr_of_planes * P.server_pods := rfl
  have hmul : P.nr_of_planes * (P.server_pods - 1) + P.nr_of_planes =
      P.nr_of_planes * P.server_pods := by
    obtain ⟨m, hm⟩ : ∃ m, P.server_pods = m + 1 := ⟨P.server_pods - 1, by omega⟩
    rw [hm, Nat.add_sub_cancel]
    ring
  rw [cursor_section_flat P hn hsp base len]
  refine nodup_swap_pairs_flatMap _
    (fun k => last_fabric_idx P + 1 + k / P.server_pods % P.nr_of_planes +
      P.nr_of_planes * (k % P.server_pods))
    (fun k => base + 1 + k / P.server_pods)
    (fun i hi => ?_) (fun i j hi hj hcase => ?_)
  · simp only []
    have hD : i / P.server_pods < len := by
      rw [Nat.div_lt_iff_lt_mul (by omega), Nat.mul_comm]
      exact hi
    have hm2 : P.nr_of_planes * (i % P.server_pods) ≤
        P.nr_of_planes * (P.server_pods - 1) :=
      Nat.mul_le_mul_left _ (Nat.le_sub_one_of_lt (Nat.mod_lt _ (by omega)))
    have hmod : i / P.server_pods % P.nr_of_planes < P.nr_of_planes :=
      Nat.mod_lt _ (by omega)
    generalize hE : i / P.server_pods % P.nr_of_planes = E at hmod ⊢
    generalize hDg : i / P.server_pods = D at hD ⊢
    generalize hX : P.nr_of_planes * (i % P.server_pods) = X at hm2 ⊢
    generalize hY : P.nr_of_planes * (P.server_pods - 1) = Y at hm2 hmul
    generalize hZ : P.nr_of_planes * P.server_pods = Z at hmul hls
    omega
  · simp only [] at hcase
    have hDi : i / P.server_pods < len := by
      rw [Nat.div_lt_iff_lt_mul (by omega), Nat.mul_comm]
      exact hi
    have hDj : j / P.server_pods < len := by
      rw [Nat.div_lt_iff_lt_mul (by omega), Nat.mul_comm]
      exact hj
    rcases hcase with ⟨ha, hb⟩ | ⟨ha, hb⟩
    · have hq : i / P.server_pods = j / P.server_pods := by omega
      rw [hq] at ha
      have hr : i % P.server_pods = j % P.server_pods := by
        have := Nat.eq_of_mul_eq_mul_left (show 0 < P.nr_of_planes by omega)
          (show P.nr_of_planes * (i % P.server_pods) =
            P.nr_of_planes * (j % P.server_pods) by omega)
        exact this
      have h1 := Nat.div_add_mod i P.server_pods
      have h2 := Nat.div_add_mod j P.server_pods
      rw [hq, hr] at h1
      generalize hY : P.server_pods * (j / P.server_pods) = Y at h1 h2
      omega
    · exfalso
      have hm2i : P.nr_of_planes * (i % P.server_pods) ≤
          P.nr_of_planes * (P.server_pods - 1) :=
        Nat.mul_le_mul_left _ (Nat.le_sub_one_of_lt (Nat.mod_lt _ (by omega)))
      have hm2j : P.nr_of_planes * (j % P.server_pods) ≤
          P.nr_of_planes * (P.server_pods - 1) :=
        Nat.mul_le_mul_left _ (Nat.le_sub_one_of_lt (Nat.mod_lt _ (by omega)))
      have hmodi : i / P.server_pods % P.nr_of_planes < P.nr_of_planes :=
        Nat.mod_lt _ (by omega)
      have hmodj : j / P.server_pods % P.nr_of_planes < P.nr_of_planes :=
        Nat.mod_lt _ (by omega)
      generalize hEi : i / P.server_pods % P.nr_of_planes = Ei at hmodi ha
      generalize hEj : j / P.server_pods % P.nr_of_planes = Ej at hmodj hb
      generalize hDi2 : i / P.server_pods = Di at hDi hb
      generalize hDj2 : j / P.server_pods = Dj at hDj ha
      generalize hXi : P.nr_of_planes * (i % P.server_pods) = Xi at hm2i ha
      generalize hXj : P.nr_of_planes * (j % P.server_pods) = Xj at hm2j hb
      generalize hY : P.nr_of_planes * (P.server_pods - 1) = Y at hm2i hm2j hmul
      generalize hZ : P.nr_of_planes * P.server_pods = Z at hmul hls
      omega

theorem cursor_section_mem (P : Params) (hn : 1 ≤ P.nr_of_planes)
    (hsp : 1 ≤ P.server_pods) (base len : Nat) :
    ∀ x ∈ planeCursorGo P (List.range' (base + 1) len) 0,
      (last_fabric_idx P + 1 ≤ x.1 ∧ x.1 ≤ last_spine_idx P ∧
        base + 1 ≤ x.2 ∧ x.2 ≤ base + len) ∨
      (last_fabric_idx P + 1 ≤ x.2 ∧ x.2 ≤ last_spine_idx P ∧
        base + 1 ≤ x.1 ∧ x.1 ≤ base + len) := by
  intro x hx
  rw [cursor_section_flat P hn hsp base len] at hx
  rw [List.mem_flatMap] at hx
  obtain ⟨k, hk, hxm⟩ := hx
  rw [List.mem_range] at hk
  have hls : last_spine_idx P =
      last_fabric_idx P + P.nr_of_planes * P.server_pods := rfl
  have hmul : P.nr_of_planes * (P.server_pods - 1) + P.nr_of_planes =
      P.nr_of_planes * P.server_pods := by
    obtain ⟨m, hm⟩ : ∃ m, P.server_pods = m + 1 := ⟨P.server_pods - 1, by omega⟩
    rw [hm, Nat.add_sub_cancel]
    ring
  have hD : k / P.server_pods < len := by
    rw [Nat.div_lt_iff_lt_mul (by omega), Nat.mul_comm]
    exact hk
  have hm2 : P.nr_of_planes * (k % P.server_pods) ≤
      P.nr_of_planes * (P.server_pods - 1) :=
    Nat.mul_le_mul_left _ (Nat.le_sub_one_of_lt (Nat.mod_lt _ (by omega)))
  have hmod : k / P.server_pods % P.nr_of_planes < P.nr_of_planes :=
    Nat.mod_lt _ (by omega)
  simp only [List.mem_cons, List.mem_singleton, List.not_mem_nil, or_false] at hxm
  rcases hxm with rfl | rfl
  · left
    simp only
    generalize hE : k / P.server_pods % P.nr_of_planes = E at hmod ⊢
    generalize hDg : k / P.server_pods = D at hD ⊢
    generalize hX : P.nr_of_planes * (k % P.server_pods) = X at hm2 ⊢
    generalize hY : P.nr_of_planes * (P.server_pods - 1) = Y at hm2 hmul
    generalize hZ : P.nr_of_planes * P.server_pods = Z at hmul hls
    omega
  · right
    simp only
    generalize hE : k / P.server_pods % P.nr_of_planes = E at hmod ⊢
    generalize hDg : k / P.server_pods = D at hD ⊢
    generalize hX : P.nr_of_planes * (k % P.server_pods) = X at hm2 ⊢
    generalize hY : P.nr_of_planes * (P.server_pods - 1) = Y at hm2 hmul
    generalize hZ : P.nr_of_planes * P.server_pods = Z at hmul hls
    omega

theorem edgesF_nodup (P : Params) (hn : 1 ≤ P.nr_of_planes)
    (hsp : 1 ≤ P.server_pods) : (edges P).Nodup := by
  have hfr : fabric_idx_range P =
      List.range' (last_tor_idx P + 1) (P.nr_of_planes * P.server_pods) := rfl
  have her : edge_idx_range P =
      List.range' (last_spine_idx P + 1) (P.edge_pods * P.nr_of_planes) := rfl
  have hlf : last_fabric_idx P =
      last_tor_idx P + P.nr_of_planes * P.server_pods := rfl
  have hls : last_spine_idx P =
      last_fabric_idx P + P.nr_of_planes * P.server_pods := rfl
  rw [edges, hfr, her]
  have n1 := intraPodF_nodup P hn
  have n2 := cursor_section_nodup P hn hsp (last_tor_idx P)
    (P.nr_of_planes * P.server_pods) (Or.inl (by omega))
  have n3 := cursor_section_nodup P hn hsp (last_spine_idx P)
    (P.edge_pods * P.nr_of_planes) (Or.inr (by omega))
  have d12 : (intraPodEdges P).Disjoint
      (planeCursorGo P (List.range' (last_tor_idx P + 1)
        (P.nr_of_planes * P.server_pods)) 0) := by
    refine disjoint_of_forall_pred
      (fun x => x.1 ≤ last_fabric_idx P ∧ x.2 ≤ last_fabric_idx P)
      (fun x hx => ?_) (fun x hx => ?_)
    · rcases intraPodF_mem P x hx with ⟨h1, h2⟩ | ⟨h1, h2⟩ <;>
        exact ⟨by omega, by omega⟩
    · rcases cursor_section_mem P hn hsp _ _ x hx with ⟨h1, _⟩ | ⟨h1, _⟩ <;> omega
  have d123 : ((intraPodEdges P) ++
      (planeCursorGo P (List.range' (last_tor_idx P + 1)
        (P.nr_of_planes * P.server_pods)) 0)).Disjoint
      (planeCursorGo P (List.range' (last_spine_idx P + 1)
        (P.edge_pods * P.nr_of_planes)) 0) := by
    refine disjoint_of_forall_pred
      (fun x => x.1 ≤ last_spine_idx P ∧ x.2 ≤ last_spine_idx P)
      (fun x hx => ?_) (fun x hx => ?_)
    · rcases List.mem_append.1 hx with h | h
      · rcases intraPodF_mem P x h with ⟨h1, h2⟩ | ⟨h1, h2⟩ <;>
          exact ⟨by omega, by omega⟩
      · rcases cursor_section_mem P hn hsp _ _ x h with ⟨h1, h2, h3, h4⟩ |
          ⟨h1, h2, h3, h4⟩ <;> exact ⟨by omega, by omega⟩
    · rcases cursor_section_mem P hn hsp _ _ x hx with ⟨h1, h2, h3, _⟩ |
        ⟨h1, h2, h3, _⟩ <;> omega
  exact (n1.append n2 d12).append n3 d123

theorem intraPodF_length (P : Params) (hn : 1 ≤ P.nr_of_planes) :
    (intraPodEdges P).length = P.nr_of_planes * last_tor_idx P * 2 := by
  rw [intraPodF_flat P hn, length_flatMap_pairs]

theorem cursor_section_length (P : Params) (hn : 1 ≤ P.nr_of_planes)
    (hsp : 1 ≤ P.server_pods) (base len : Nat) :
    (planeCursorGo P (List.range' (base + 1) len) 0).length =
      P.server_pods * len * 2 := by
  rw [cursor_section_flat P hn hsp base len, length_flatMap_pairs]

theorem edgesF_dedup_count (P : Params) (hn : 1 ≤ P.nr_of_planes)
    (hsp : 1 ≤ P.server_pods) :
    (edges P).dedup.length =
      2 * (last_tor_idx P * P.nr_of_planes +
        P.nr_of_planes * P.server_pods * P.server_pods +
        P.edge_pods * P.nr_of_planes * P.server_pods) := by
  have hfr : fabric_idx_range P =
      List.range' (last_tor_idx P + 1) (P.nr_of_planes * P.server_pods) := rfl
  have her : edge_idx_range P =
      List.range' (last_spine_idx P + 1) (P.edge_pods * P.nr_of_planes) := rfl
  rw [List.dedup_eq_self.2 (edgesF_nodup P hn hsp), edges, hfr, her,
    List.length_append, List.length_append, intraPodF_length P hn,
    cursor_section_length P hn hsp _ _, cursor_section_length P hn hsp _ _]
  ring

end Fabric

namespace Jupiter

theorem spineTarget_bounds (S A c : Nat) (hS : 1 ≤ S) :
    64 * A + 1 ≤ spineTarget S A c ∧ spineTarget S A c ≤ 64 * A + 6 * S := by
  simp only [spineTarget, spineSwitch]
  have h1 : c % S ≤ S - 1 := Nat.le_sub_one_of_lt (Nat.mod_lt _ (by omega))
  have h2 : c / S % 6 < 6 := Nat.mod_lt _ (by omega)
  have h3 : 6 * (c % S) ≤ 6 * (S - 1) := Nat.mul_le_mul_left _ h1
  have h4 : 6 * (S - 1) + 6 = 6 * S := by
    obtain ⟨m, hm⟩ : ∃ m, S = m + 1 := ⟨S - 1, by omega⟩
    rw [hm, Nat.add_sub_cancel]
    ring
  generalize hB : c % S = B at h1 h3 ⊢
  generalize hP : c / S % 6 = Pp at h2 ⊢
  generalize hX : 6 * B = X at h3 ⊢
  generalize hY : 6 * (S - 1) = Y at h3 h4
  generalize hZ : 6 * S = Z at h4 ⊢
  omega

theorem spineTarget_window_aux (S : Nat) (hS : 2 ≤ S) (x d : Nat) (hd : d < 8)
    (hb : (x + d) % S = x % S) (hp : (x + d) / S % 6 = x / S % 6) : d = 0 := by
  have hdS : d % S = 0 := (add_mod_eq_self_iff S x d (by omega)).1 hb
  by_cases h0 : d = 0
  · exact h0
  · exfalso
    have hSd : S ∣ d := Nat.dvd_of_mod_eq_zero hdS
    have hSled : S ≤ d := Nat.le_of_dvd (by omega) hSd
    obtain ⟨e, he⟩ := hSd
    have he1 : 1 ≤ e := by
      rcases Nat.eq_zero_or_pos e with h | h
      · rw [h, Nat.mul_zero] at he
        omega
      · exact h
    have he3 : e ≤ 3 := by
      have hlt : S * e < 8 := by omega
      have h2e : 2 * e ≤ S * e := Nat.mul_le_mul_right _ (by omega)
      omega
    have hdiv : (x + d) / S = x / S + e := by
      rw [he, Nat.add_mul_div_left _ _ (by omega : 0 < S)]
    rw [hdiv] at hp
    have he6 : e % 6 = 0 := (add_mod_eq_self_iff 6 (x / S) e (by omega)).1 hp
    omega

theorem spineTarget_inj_window (S A : Nat) (hS : 2 ≤ S) (c t t' : Nat)
    (ht : t < 8) (ht' : t' < 8)
    (heq : spineTarget S A (c + t) = spineTarget S A (c + t')) : t = t' := by
  simp only [spineTarget, spineSwitch] at heq
  have hb6 : c % 1 = 0 := Nat.mod_one c
  have hmod1 : (c + t) / S % 6 < 6 := Nat.mod_lt _ (by omega)
  have hmod2 : (c + t') / S % 6 < 6 := Nat.mod_lt _ (by omega)
  have hkey : 6 * ((c + t) % S) + (c + t) / S % 6 =
      6 * ((c + t') % S) + (c + t') / S % 6 := by omega
  obtain ⟨hbq, hbr⟩ := two_digit_inj hmod1 hmod2 hkey
  rcases Nat.le_total t t' with hle | hle
  · obtain ⟨d, hd⟩ : ∃ d, t' = t + d := ⟨t' - t, by omega⟩
    have : d = 0 := by
      refine spineTarget_window_aux S hS (c + t) d (by omega) ?_ ?_
      · rw [show c + t + d = c + t' by omega, hbq]
      · rw [show c + t + d = c + t' by omega, hbr]
    omega
  · obtain ⟨d, hd⟩ : ∃ d, t = t' + d := ⟨t - t', by omega⟩
    have : d = 0 := by
      refine spineTarget_window_aux S hS (c + t') d (by omega) ?_ ?_
      · rw [show c + t' + d = c + t by omega, hbq]
      · rw [show c + t' + d = c + t by omega, hbr]
    omega

theorem aggSection_flat (S A : Nat) :
    aggSection S A = (List.range (32 * A)).flatMap (fun m =>
      ((List.range (m % 4)).flatMap fun pv =>
        [(32 * A + m + 1, 32 * A + (m - m % 4) + pv + 1),
         (32 * A + (m - m % 4) + pv + 1, 32 * A + m + 1)])
      ++ ((List.range 8).flatMap fun t =>
        [(32 * A + m + 1, spineTarget S A (8 * m + t)),
         (spineTarget S A (8 * m + t), 32 * A + m + 1)])) := by
  rw [aggSection_closed, aggTriples_eq, closedAggGo_map_range]
  refine flatMap_congr_left fun m hm => ?_
  rw [List.mem_range] at hm
  have hid : aggNode A (m / 32) (m % 32 / 4) (m % 4) = 32 * A + m + 1 := by
    simp only [aggNode]
    omega
  have hpartner : ∀ pv : Nat,
      aggNode A (m / 32) (m % 32 / 4) pv = 32 * A + (m - m % 4) + pv + 1 := by
    intro pv
    simp only [aggNode]
    omega
  congr 1
  · refine flatMap_congr_left fun pv hpv => ?_
    rw [hid, hpartner pv]
  · refine flatMap_congr_left fun t ht => ?_
    rw [hid, Nat.zero_add]

theorem intraSpineJ_length (S A : Nat) :
    (intraSpineEdges S A).length = S * 30 := by
  rw [intraSpineEdges]
  rw [length_flatMap_const _ _ 30 (fun sb _ => ?_), List.length_range]
  rw [length_flatMap_sum _ _ (fun sw => sw * 2) (fun sw _ => ?_)]
  · rfl
  · rw [length_flatMap_pairs]

theorem aggSectionJ_length (S A : Nat) :
    (aggSection S A).length = 608 * A := by
  rw [aggSection_flat]
  rw [length_flatMap_sum _ _ (fun m => m % 4 * 2 + 16) (fun m _ => ?_)]
  · have h32 : (32 : Nat) * A = 4 * (8 * A) := by ring
    rw [h32, sum_map_range_mod 4 (fun r => r * 2 + 16) (8 * A)]
    have : ((List.range 4).map (fun r => r * 2 + 16)).sum = 76 := rfl
    rw [this]
    ring
  · rw [List.length_append, length_flatMap_pairs, length_flatMap_pairs]

theorem torEdgesJ_flat (A : Nat) :
    torEdges A = (List.range (256 * A)).flatMap (fun k =>
      [(torNode (k / 8 / 32) (k / 8 % 32), aggNode A (k / 8 / 32) (k % 8) (k / 8 % 32 / 8)),
       (aggNode A (k / 8 / 32) (k % 8) (k / 8 % 32 / 8), torNode (k / 8 / 32) (k / 8 % 32)),
       (torNode (k / 8 / 32) (k / 8 % 32),
        aggNode A (k / 8 / 32) (k % 8) ((k / 8 % 32 / 8 + 1) % 4)),
       (aggNode A (k / 8 / 32) (k % 8) ((k / 8 % 32 / 8 + 1) % 4),
        torNode (k / 8 / 32) (k / 8 % 32))]) := by
  rw [torEdges,
    ← range_flatMap_blocks 256 (fun k =>
      [(torNode (k / 8 / 32) (k / 8 % 32), aggNode A (k / 8 / 32) (k % 8) (k / 8 % 32 / 8)),
       (aggNode A (k / 8 / 32) (k % 8) (k / 8 % 32 / 8), torNode (k / 8 / 32) (k / 8 % 32)),
       (torNode (k / 8 / 32) (k / 8 % 32),
        aggNode A (k / 8 / 32) (k % 8) ((k / 8 % 32 / 8 + 1) % 4)),
       (aggNode A (k / 8 / 32) (k % 8) ((k / 8 % 32 / 8 + 1) % 4),
        torNode (k / 8 / 32) (k / 8 % 32))]) A]
  refine flatMap_congr_left fun ab hab => ?_
  rw [show tors_per_aggregation_block = 32 from rfl,
    show middle_block_per_aggregation = 8 from rfl,
    ← range_flatMap_blocks 8 (fun r =>
      [(torNode ((256 * ab + r) / 8 / 32) ((256 * ab + r) / 8 % 32),
        aggNode A ((256 * ab + r) / 8 / 32) ((256 * ab + r) % 8)
          ((256 * ab + r) / 8 % 32 / 8)),
       (aggNode A ((256 * ab + r) / 8 / 32) ((256 * ab + r) % 8)
          ((256 * ab + r) / 8 % 32 / 8),
        torNode ((256 * ab + r) / 8 / 32) ((256 * ab + r) / 8 % 32)),
       (torNode ((256 * ab + r) / 8 / 32) ((256 * ab + r) / 8 % 32),
        aggNode A ((256 * ab + r) / 8 / 32) ((256 * ab + r) % 8)
          (((256 * ab + r) / 8 % 32 / 8 + 1) % 4)),
       (aggNode A ((256 * ab + r) / 8 / 32) ((256 * ab + r) % 8)
          (((256 * ab + r) / 8 % 32 / 8 + 1) % 4),
        torNode ((256 * ab + r) / 8 / 32) ((256 * ab + r) / 8 % 32))]) 32]
  refine flatMap_congr_left fun t ht => ?_
  refine flatMap_congr_left fun out hout => ?_
  rw [List.mem_range] at ht hout
  have h1 : (256 * ab + (8 * t + out)) / 8 / 32 = ab := by omega
  have h2 : (256 * ab + (8 * t + out)) / 8 % 32 = t := by omega
  have h3 : (256 * ab + (8 * t + out)) % 8 = out := by omega
  rw [h1, h2, h3]

theorem torEdgesJ_length (A : Nat) : (torEdges A).length = 1024 * A := by
  rw [torEdgesJ_flat, length_flatMap_quad]
  ring

theorem edgesJ_length (S A : Nat) :
    (edges S A).length = 30 * S + 1632 * A := by
  rw [edges, List.length_append, List.length_append, intraSpineJ_length,
    aggSectionJ_length, torEdgesJ_length]
  ring

end Jupiter

namespace Jupiter

theorem spineMesh_mem (S A sb : Nat) :
    ∀ x ∈ (List.range switches_per_spine).flatMap (fun sw =>
      (List.range sw).flatMap fun pv =>
        [(spineSwitch A sb sw, spineSwitch A sb pv),
         (spineSwitch A sb pv, spineSwitch A sb sw)]),
      (64 * A + 6 * sb + 1 ≤ x.1 ∧ x.1 ≤ 64 * A + 6 * sb + 6) ∧
      (64 * A + 6 * sb + 1 ≤ x.2 ∧ x.2 ≤ 64 * A + 6 * sb + 6) := by
  intro x hx
  simp only [List.mem_flatMap, List.mem_range, List.mem_cons, List.mem_singleton,
    List.not_mem_nil, or_false] at hx
  obtain ⟨sw, hsw, pv, hpv, hx⟩ := hx
  have hsw6 : sw < 6 := hsw
  rcases hx with rfl | rfl <;>
    · simp only [spineSwitch]
      constructor <;> constructor <;> omega

theorem spineMesh_nodup (S A sb : Nat) :
    ((List.range switches_per_spine).flatMap (fun sw =>
      (List.range sw).flatMap fun pv =>
        [(spineSwitch A sb sw, spineSwitch A sb pv),
         (spineSwitch A sb pv, spineSwitch A sb sw)])).Nodup := by
  rw [show switches_per_spine = 6 from rfl]
  refine nodup_flatMap_range 6 _ (fun sw hsw => ?_)
    (fun sw sw' hlt hsw' x hx1 hx2 => ?_)
  · refine nodup_swap_pairs_flatMap sw (fun pv => spineSwitch A sb sw)
      (fun pv => spineSwitch A sb pv) (fun pv hpv => ?_)
      (fun pv pv' hpv hpv' hcase => ?_)
    · simp only [spineSwitch]
      omega
    · simp only [spineSwitch] at hcase
      omega
  · simp only [List.mem_flatMap, List.mem_range, List.mem_cons, List.mem_singleton,
      List.not_mem_nil, or_false] at hx1 hx2
    obtain ⟨pv, hpv, hx1⟩ := hx1
    obtain ⟨pv', hpv', hx2⟩ := hx2
    rcases hx1 with rfl | rfl <;> rcases hx2 with h | h <;>
      · rw [Prod.mk.injEq] at h
        simp only [spineSwitch] at h
        omega

theorem intraSpineJ_nodup (S A : Nat) : (intraSpineEdges S A).Nodup := by
  rw [intraSpineEdges]
  refine nodup_flatMap_range S _ (fun sb _ => spineMesh_nodup S A sb)
    (fun sb sb' hlt hsb' x hx1 hx2 => ?_)
  have h1 := spineMesh_mem S A sb x hx1
  have h2 := spineMesh_mem S A sb' x hx2
  omega

theorem intraSpineJ_mem (S A : Nat) :
    ∀ x ∈ intraSpineEdges S A, 64 * A + 1 ≤ x.1 ∧ 64 * A + 1 ≤ x.2 := by
  intro x hx
  rw [intraSpineEdges] at hx
  rw [List.mem_flatMap] at hx
  obtain ⟨sb, hsb, hx⟩ := hx
  have := spineMesh_mem S A sb x hx
  omega

end Jupiter

namespace Jupiter

theorem aggBlock_nodup (S A : Nat) (hS : 2 ≤ S) (m : Nat) (hm : m < 32 * A) :
    (((List.range (m % 4)).flatMap fun pv =>
        [(32 * A + m + 1, 32 * A + (m - m % 4) + pv + 1),
         (32 * A + (m - m % 4) + pv + 1, 32 * A + m + 1)])
      ++ ((List.range 8).flatMap fun t =>
        [(32 * A + m + 1, spineTarget S A (8 * m + t)),
         (spineTarget S A (8 * m + t), 32 * A + m + 1)])).Nodup := by
  refine List.Nodup.append ?_ ?_ ?_
  · refine nodup_swap_pairs_flatMap (m % 4) (fun pv => 32 * A + m + 1)
      (fun pv => 32 * A + (m - m % 4) + pv + 1)
      (fun pv hpv => by simp only []; omega)
      (fun pv pv' hpv hpv' hcase => by simp only [] at hcase; omega)
  · refine nodup_swap_pairs_flatMap 8 (fun t => 32 * A + m + 1)
      (fun t => spineTarget S A (8 * m + t))
      (fun t ht => ?_) (fun t t' ht ht' hcase => ?_)
    · simp only []
      have := (spineTarget_bounds S A (8 * m + t) (by omega)).1
      omega
    · simp only [] at hcase
      rcases hcase with ⟨ha, hb⟩ | ⟨ha, hb⟩
      · exact spineTarget_inj_window S A hS (8 * m) t t' ht ht' hb
      · exfalso
        have := (spineTarget_bounds S A (8 * m + t') (by omega)).1
        omega
  · refine disjoint_of_forall_pred (fun x => x.1 ≤ 64 * A ∧ x.2 ≤ 64 * A)
      (fun x hx => ?_) (fun x hx => ?_)
    · simp only [List.mem_flatMap, List.mem_range, List.mem_cons, List.mem_singleton,
        List.not_mem_nil, or_false] at hx
      obtain ⟨pv, hpv, hx⟩ := hx
      rcases hx with rfl | rfl <;> exact ⟨by omega, by omega⟩
    · simp only [List.mem_flatMap, List.mem_range, List.mem_cons, List.mem_singleton,
        List.not_mem_nil, or_false] at hx
      obtain ⟨t, ht, hx⟩ := hx
      have := (spineTarget_bounds S A (8 * m + t) (by omega)).1
      rcases hx with rfl | rfl <;>
        · simp only [not_and]
          intro h1 h2
          omega

theorem aggSectionJ_nodup (S A : Nat) (hS : 2 ≤ S) : (aggSection S A).Nodup := by
  rw [aggSection_flat]
  refine nodup_flatMap_range (32 * A) _ (fun m hm => aggBlock_nodup S A hS m hm)
    (fun m m' hlt hm' x hx1 hx2 => ?_)
  have hm : m < 32 * A := by omega
  rcases List.mem_append.1 hx1 with h1 | h1 <;> rcases List.mem_append.1 hx2 with h2 | h2
  · simp only [List.mem_flatMap, List.mem_range, List.mem_cons, List.mem_singleton,
      List.not_mem_nil, or_false] at h1 h2
    obtain ⟨pv, hpv, h1⟩ := h1
    obtain ⟨pv', hpv', h2⟩ := h2
    rcases h1 with rfl | rfl <;> rcases h2 with h | h <;>
      · rw [Prod.mk.injEq] at h
        omega
  · simp only [List.mem_flatMap, List.mem_range, List.mem_cons, List.mem_singleton,
      List.not_mem_nil, or_false] at h1 h2
    obtain ⟨pv, hpv, h1⟩ := h1
    obtain ⟨t', ht', h2⟩ := h2
    have hb := (spineTarget_bounds S A (8 * m' + t') (by omega)).1
    rcases h1 with rfl | rfl <;> rcases h2 with h | h <;>
      · rw [Prod.mk.injEq] at h
        omega
  · simp only [List.mem_flatMap, List.mem_range, List.mem_cons, List.mem_singleton,
      List.not_mem_nil, or_false] at h1 h2
    obtain ⟨t, ht, h1⟩ := h1
    obtain ⟨pv', hpv', h2⟩ := h2
    have hb := (spineTarget_bounds S A (8 * m + t) (by omega)).1
    rcases h1 with rfl | rfl <;> rcases h2 with h | h <;>
      · rw [Prod.mk.injEq] at h
        omega
  · simp only [List.mem_flatMap, List.mem_range, List.mem_cons, List.mem_singleton,
      List.not_mem_nil, or_false] at h1 h2
    obtain ⟨t, ht, h1⟩ := h1
    obtain ⟨t', ht', h2⟩ := h2
    have hb1 := (spineTarget_bounds S A (8 * m + t) (by omega)).1
    have hb2 := (spineTarget_bounds S A (8 * m' + t') (by omega)).1
    rcases h1 with rfl | rfl <;> rcases h2 with h | h <;>
      · rw [Prod.mk.injEq] at h
        omega

theorem aggSectionJ_mem (S A : Nat) (hS : 1 ≤ S) :
    ∀ x ∈ aggSection S A,
      32 * A + 1 ≤ x.1 ∧ 32 * A + 1 ≤ x.2 ∧ (x.1 ≤ 64 * A ∨ x.2 ≤ 64 * A) := by
  rw [aggSection_flat]
  intro x hx
  rw [List.mem_flatMap] at hx
  obtain ⟨m, hm, hx⟩ := hx
  rw [List.mem_range] at hm
  rcases List.mem_append.1 hx with h | h
  · simp only [List.mem_flatMap, List.mem_range, List.mem_cons, List.mem_singleton,
      List.not_mem_nil, or_false] at h
    obtain ⟨pv, hpv, h⟩ := h
    rcases h with rfl | rfl <;> exact ⟨by omega, by omega, by omega⟩
  · simp only [List.mem_flatMap, List.mem_range, List.mem_cons, List.mem_singleton,
      List.not_mem_nil, or_false] at h
    obtain ⟨t, ht, h⟩ := h
    have hb := (spineTarget_bounds S A (8 * m + t) hS).1
    rcases h with rfl | rfl <;> exact ⟨by omega, by omega, by omega⟩

end Jupiter

namespace Jupiter

theorem torEdgesJ_nodup (A : Nat) : (torEdges A).Nodup := by
  rw [torEdgesJ_flat]
  refine nodup_flatMap_range (256 * A) _ (fun k hk => ?_)
    (fun k k' hlt hk' x hx1 hx2 => ?_)
  · simp only [List.nodup_cons, List.mem_cons, List.mem_singleton, List.not_mem_nil,
      List.nodup_nil, and_true, or_false, not_or, Prod.mk.injEq, not_and,
      true_implies, not_false_eq_true, torNode, aggNode]
    obtain ⟨q, w, hkq, hw, hq32⟩ : ∃ q w, k = 8 * q + w ∧ w < 8 ∧ q < 32 * A :=
      ⟨k / 8, k % 8, by omega, by omega, by omega⟩
    obtain ⟨u, r, hqu, hr⟩ : ∃ u r, q = 32 * u + r ∧ r < 32 :=
      ⟨q / 32, q % 32, by omega, by omega⟩
    have c1 : k / 8 / 32 = u := by omega
    have c2 : k / 8 % 32 = r := by omega
    have c3 : k % 8 = w := by omega
    rw [c1, c2, c3]
    omega
  · have hk : k < 256 * A := by omega
    simp only [List.mem_cons, List.mem_singleton, List.not_mem_nil, or_false] at hx1 hx2
    obtain ⟨q, w, hkq, hw, hq32⟩ : ∃ q w, k = 8 * q + w ∧ w < 8 ∧ q < 32 * A :=
      ⟨k / 8, k % 8, by omega, by omega, by omega⟩
    obtain ⟨u, r, hqu, hr⟩ : ∃ u r, q = 32 * u + r ∧ r < 32 :=
      ⟨q / 32, q % 32, by omega, by omega⟩
    have c1 : k / 8 / 32 = u := by omega
    have c2 : k / 8 % 32 = r := by omega
    have c3 : k % 8 = w := by omega
    obtain ⟨q', w', hkq', hw', hq32'⟩ : ∃ q w, k' = 8 * q + w ∧ w < 8 ∧ q < 32 * A :=
      ⟨k' / 8, k' % 8, by omega, by omega, by omega⟩
    obtain ⟨u', r', hqu', hr'⟩ : ∃ u r, q' = 32 * u + r ∧ r < 32 :=
      ⟨q' / 32, q' % 32, by omega, by omega⟩
    have c1' : k' / 8 / 32 = u' := by omega
    have c2' : k' / 8 % 32 = r' := by omega
    have c3' : k' % 8 = w' := by omega
    rcases hx1 with rfl | rfl | rfl | rfl <;> rcases hx2 with h | h | h | h <;>
      · rw [Prod.mk.injEq] at h
        simp only [torNode, aggNode, c1, c2, c3, c1', c2', c3'] at h
        omega

theorem torEdgesJ_mem (A : Nat) :
    ∀ x ∈ torEdges A, x.1 ≤ 32 * A ∨ x.2 ≤ 32 * A := by
  rw [torEdgesJ_flat]
  intro x hx
  simp only [List.mem_flatMap, List.mem_range, List.mem_cons, List.mem_singleton,
    List.not_mem_nil, or_false] at hx
  obtain ⟨k, hk, hx⟩ := hx
  rcases hx with rfl | rfl | rfl | rfl <;>
    · simp only [torNode]
      omega

theorem edgesJ_nodup (S A : Nat) (hS : 2 ≤ S) : (edges S A).Nodup := by
  rw [edges]
  refine ((intraSpineJ_nodup S A).append (aggSectionJ_nodup S A hS) ?_).append
    (torEdgesJ_nodup A) ?_
  · refine disjoint_of_forall_pred (fun x => 64 * A + 1 ≤ x.1 ∧ 64 * A + 1 ≤ x.2)
      (intraSpineJ_mem S A) (fun x hx => ?_)
    have := aggSectionJ_mem S A (by omega) x hx
    omega
  · refine disjoint_of_forall_pred (fun x => 32 * A + 1 ≤ x.1 ∧ 32 * A + 1 ≤ x.2)
      (fun x hx => ?_) (fun x hx => ?_)
    · rcases List.mem_append.1 hx with h | h
      · have := intraSpineJ_mem S A x h
        omega
      · have := aggSectionJ_mem S A (by omega) x h
        omega
    · have := torEdgesJ_mem A x hx
      omega

theorem edgesJ_dedup_count (S A : Nat) (hS : 2 ≤ S) :
    (edges S A).dedup.length = 2 * (15 * S + 48 * A + 256 * A + 512 * A) := by
  rw [List.dedup_eq_self.2 (edgesJ_nodup S A hS), edgesJ_length]
  ring

end Jupiter

namespace JupiterBl

theorem torEdgesJB_flat (A : Nat) :
    torEdges A = (List.range (256 * A)).flatMap (fun k =>
      [(torNode (k / 8 / 32) (k / 8 % 32), aggNode A (k / 8 / 32) (k % 8)),
       (aggNode A (k / 8 / 32) (k % 8), torNode (k / 8 / 32) (k / 8 % 32))]) := by
  rw [torEdges,
    ← range_flatMap_blocks 256 (fun k =>
      [(torNode (k / 8 / 32) (k / 8 % 32), aggNode A (k / 8 / 32) (k % 8)),
       (aggNode A (k / 8 / 32) (k % 8), torNode (k / 8 / 32) (k / 8 % 32))]) A]
  refine flatMap_congr_left fun ab hab => ?_
  rw [← range_flatMap_blocks 8 (fun r =>
      [(torNode ((256 * ab + r) / 8 / 32) ((256 * ab + r) / 8 % 32),
        aggNode A ((256 * ab + r) / 8 / 32) ((256 * ab + r) % 8)),
       (aggNode A ((256 * ab + r) / 8 / 32) ((256 * ab + r) % 8),
        torNode ((256 * ab + r) / 8 / 32) ((256 * ab + r) / 8 % 32))]) 32]
  refine flatMap_congr_left fun t ht => ?_
  refine flatMap_congr_left fun out hout => ?_
  rw [List.mem_range] at ht hout
  have h1 : (256 * ab + (8 * t + out)) / 8 / 32 = ab := by omega
  have h2 : (256 * ab + (8 * t + out)) / 8 % 32 = t := by omega
  have h3 : (256 * ab + (8 * t + out)) % 8 = out := by omega
  rw [h1, h2, h3]

theorem torEdgesJB_nodup (A : Nat) : (torEdges A).Nodup := by
  rw [torEdgesJB_flat]
  refine nodup_swap_pairs_flatMap _ (fun k => torNode (k / 8 / 32) (k / 8 % 32))
    (fun k => aggNode A (k / 8 / 32) (k % 8))
    (fun i hi => ?_) (fun i j hi hj hcase => ?_)
  · simp only [torNode, aggNode]
    obtain ⟨q, w, hkq, hw, hq32⟩ : ∃ q w, i = 8 * q + w ∧ w < 8 ∧ q < 32 * A :=
      ⟨i / 8, i % 8, by omega, by omega, by omega⟩
    have c1 : i / 8 / 32 = q / 32 := by omega
    have c2 : i / 8 % 32 = q % 32 := by omega
    have c3 : i % 8 = w := by omega
    rw [c1, c2, c3]
    omega
  · simp only [torNode, aggNode] at hcase
    obtain ⟨q, w, hkq, hw, hq32⟩ : ∃ q w, i = 8 * q + w ∧ w < 8 ∧ q < 32 * A :=
      ⟨i / 8, i % 8, by omega, by omega, by omega⟩
    obtain ⟨q', w', hkq', hw', hq32'⟩ : ∃ q w, j = 8 * q + w ∧ w < 8 ∧ q < 32 * A :=
      ⟨j / 8, j % 8, by omega, by omega, by omega⟩
    have c1 : i / 8 / 32 = q / 32 := by omega
    have c2 : i / 8 % 32 = q % 32 := by omega
    have c3 : i % 8 = w := by omega
    have c1' : j / 8 / 32 = q' / 32 := by omega
    have c2' : j / 8 % 32 = q' % 32 := by omega
    have c3' : j % 8 = w' := by omega
    rw [c1, c2, c3, c1', c2', c3'] at hcase
    omega

theorem torEdgesJB_mem (A : Nat) :
    ∀ x ∈ torEdges A, x.1 ≤ 32 * A ∨ x.2 ≤ 32 * A := by
  rw [torEdgesJB_flat]
  intro x hx
  simp only [List.mem_flatMap, List.mem_range, List.mem_cons, List.mem_singleton,
    List.not_mem_nil, or_false] at hx
  obtain ⟨k, hk, hx⟩ := hx
  rcases hx with rfl | rfl <;>
    · simp only [torNode]
      omega

theorem fullBipartite_flat (S A : Nat) :
    fullBipartiteEdges S A = (List.range (S * (8 * A))).flatMap (fun k =>
      [(32 * A + k / S + 1, 40 * A + k % S + 1),
       (40 * A + k % S + 1, 32 * A + k / S + 1)]) := by
  have hassoc : S * (8 * A) = S * 8 * A := by ring
  rw [hassoc, fullBipartiteEdges,
    ← range_flatMap_blocks (S * 8) (fun k =>
      [(32 * A + k / S + 1, 40 * A + k % S + 1),
       (40 * A + k % S + 1, 32 * A + k / S + 1)]) A]
  refine flatMap_congr_left fun ab hab => ?_
  rw [← range_flatMap_blocks S (fun r =>
      [(32 * A + (S * 8 * ab + r) / S + 1, 40 * A + (S * 8 * ab + r) % S + 1),
       (40 * A + (S * 8 * ab + r) % S + 1, 32 * A + (S * 8 * ab + r) / S + 1)]) 8]
  refine flatMap_congr_left fun mb hmb => ?_
  refine flatMap_congr_left fun s hs => ?_
  rw [List.mem_range] at hmb hs
  have hS : 0 < S := by omega
  have hdiv : (S * 8 * ab + (S * mb + s)) / S = 8 * ab + mb := by
    have he : S * 8 * ab + (S * mb + s) = S * (8 * ab + mb) + s := by ring
    rw [he, Nat.mul_add_div hS, Nat.div_eq_of_lt hs, Nat.add_zero]
  have hmod : (S * 8 * ab + (S * mb + s)) % S = s := by
    have he : S * 8 * ab + (S * mb + s) = S * (8 * ab + mb) + s := by ring
    rw [he, Nat.mul_add_mod, Nat.mod_eq_of_lt hs]
  rw [hdiv, hmod]
  simp only [aggNode, spineNode]
  have e1 : 32 * A + 8 * ab + mb + 1 = 32 * A + (8 * ab + mb) + 1 := by ring
  rw [e1]

theorem fullBipartite_nodup (S A : Nat) (hS : 1 ≤ S) :
    (fullBipartiteEdges S A).Nodup := by
  rw [fullBipartite_flat]
  refine nodup_swap_pairs_flatMap _ (fun k => 32 * A + k / S + 1)
    (fun k => 40 * A + k % S + 1)
    (fun i hi => ?_) (fun i j hi hj hcase => ?_)
  · simp only []
    have hD : i / S < 8 * A := by
      rw [Nat.div_lt_iff_lt_mul (by omega), Nat.mul_comm]
      exact hi
    have hm : i % S < S := Nat.mod_lt _ (by omega)
    generalize hDg : i / S = D at hD ⊢
    generalize hM : i % S = M at hm ⊢
    omega
  · simp only [] at hcase
    have hDi : i / S < 8 * A := by
      rw [Nat.div_lt_iff_lt_mul (by omega), Nat.mul_comm]
      exact hi
    have hDj : j / S < 8 * A := by
      rw [Nat.div_lt_iff_lt_mul (by omega), Nat.mul_comm]
      exact hj
    have h1 := Nat.div_add_mod i S
    have h2 := Nat.div_add_mod j S
    rcases hcase with ⟨ha, hb⟩ | ⟨ha, hb⟩
    · have hq : i / S = j / S := by omega
      have hr : i % S = j % S := by omega
      rw [hq, hr] at h1
      generalize hY : S * (j / S) = Y at h1 h2
      omega
    · exfalso
      have hm : j % S < S := Nat.mod_lt _ (by omega)
      generalize hDg : i / S = D at hDi ha
      generalize hM : j % S = M at hm ha
      omega

theorem rr_nodup (S A : Nat) (hS : 32 < S) :
    ((List.range (32 * (8 * A))).flatMap (fun k =>
      [(32 * A + k / 32 + 1, spineNode A (k % S)),
       (spineNode A (k % S), 32 * A + k / 32 + 1)])).Nodup := by
  refine nodup_swap_pairs_flatMap _ (fun k => 32 * A + k / 32 + 1)
    (fun k => spineNode A (k % S))
    (fun i hi => ?_) (fun i j hi hj hcase => ?_)
  · simp only [spineNode]
    have hm : i % S < S := Nat.mod_lt _ (by omega)
    generalize hM : i % S = M at hm ⊢
    omega
  · simp only [spineNode] at hcase
    rcases hcase with ⟨ha, hb⟩ | ⟨ha, hb⟩
    · have hq : i / 32 = j / 32 := by omega
      have hrS : i % S = j % S := by omega
      rcases Nat.le_total i j with hle | hle
      · obtain ⟨d, hd⟩ : ∃ d, j = i + d := ⟨j - i, by omega⟩
        have hd32 : d < 32 := by omega
        have hd0 : d % S = 0 := by
          refine (add_mod_eq_self_iff S i d (by omega)).1 ?_
          rw [← hd, hrS]
        rw [Nat.mod_eq_of_lt (by omega)] at hd0
        omega
      · obtain ⟨d, hd⟩ : ∃ d, i = j + d := ⟨i - j, by omega⟩
        have hd32 : d < 32 := by omega
        have hd0 : d % S = 0 := by
          refine (add_mod_eq_self_iff S j d (by omega)).1 ?_
          rw [← hd, hrS]
        rw [Nat.mod_eq_of_lt (by omega)] at hd0
        omega
    · exfalso
      have hm : j % S < S := Nat.mod_lt _ (by omega)
      generalize hM : j % S = M at hm ha
      have hD : i / 32 < 8 * A := by omega
      omega

theorem aggSpineJB_mem (S A : Nat) (hS : 1 ≤ S) :
    ∀ x ∈ aggSpineSection S A, 32 * A + 1 ≤ x.1 ∧ 32 * A + 1 ≤ x.2 := by
  intro x hx
  rcases Nat.le_total S 32 with hle | hgt
  · rw [aggSpineSection, if_pos (by
      simp only [ports_per_middle_block_up]
      omega), fullBipartite_flat] at hx
    simp only [List.mem_flatMap, List.mem_range, List.mem_cons, List.mem_singleton,
      List.not_mem_nil, or_false] at hx
    obtain ⟨k, hk, hx⟩ := hx
    rcases hx with rfl | rfl <;>
      · refine ⟨?_, ?_⟩ <;>
          · generalize k / S = D
            generalize k % S = M
            omega
  · rcases Nat.eq_or_lt_of_le hgt with heq | hlt
    · rw [aggSpineSection, if_pos (by
        simp only [ports_per_middle_block_up]
        omega), fullBipartite_flat] at hx
      simp only [List.mem_flatMap, List.mem_range, List.mem_cons, List.mem_singleton,
        List.not_mem_nil, or_false] at hx
      obtain ⟨k, hk, hx⟩ := hx
      rcases hx with rfl | rfl <;>
        · refine ⟨?_, ?_⟩ <;>
            · generalize k / S = D
              generalize k % S = M
              omega
    · rw [aggSpineSection_global S A hlt] at hx
      simp only [List.mem_flatMap, List.mem_range, List.mem_cons, List.mem_singleton,
        List.not_mem_nil, or_false, spineNode] at hx
      obtain ⟨k, hk, hx⟩ := hx
      rcases hx with rfl | rfl <;>
        · refine ⟨?_, ?_⟩ <;>
            · generalize k % S = M
              omega

theorem edgesJB_nodup (S A : Nat) (hS : 1 ≤ S) : (edges S A).Nodup := by
  rw [edges]
  have hdisj : (torEdges A).Disjoint (aggSpineSection S A) := by
    refine disjoint_of_forall_pred (fun x => x.1 ≤ 32 * A ∨ x.2 ≤ 32 * A)
      (torEdgesJB_mem A) (fun x hx => ?_)
    have := aggSpineJB_mem S A hS x hx
    omega
  refine (torEdgesJB_nodup A).append ?_ hdisj
  rcases Nat.le_total S 32 with hle | hgt
  · rw [aggSpineSection, if_pos (by
      simp only [ports_per_middle_block_up]
      omega)]
    exact fullBipartite_nodup S A hS
  · rcases Nat.eq_or_lt_of_le hgt with heq | hlt
    · rw [aggSpineSection, if_pos (by
        simp only [ports_per_middle_block_up]
        omega)]
      exact fullBipartite_nodup S A hS
    · rw [aggSpineSection_global S A hlt]
      exact rr_nodup S A hlt

theorem torEdgesJB_length (A : Nat) : (torEdges A).length = 256 * A * 2 := by
  rw [torEdgesJB_flat, length_flatMap_pairs]

theorem edgesJB_dedup_count (S A : Nat) (hS : 1 ≤ S) :
    (edges S A).dedup.length =
      2 * (32 * A * 8 + 8 * A * (if S ≤ 32 then S else 32)) := by
  rw [List.dedup_eq_self.2 (edgesJB_nodup S A hS), edges, List.length_append,
    torEdgesJB_length]
  rcases Nat.lt_or_ge 32 S with hlt | hge
  · rw [if_neg (by omega), aggSpineSection_global S A hlt, length_flatMap_pairs]
    ring
  · rw [if_pos (by omega), aggSpineSection, if_pos (by
      simp only [ports_per_middle_block_up]
      omega), fullBipartite_flat, length_flatMap_pairs]
    ring

end JupiterBl

/-- C9 (counterexample): at the valid parameters spine_block_count = 1,
aggregation_block_count = 1 (accepted by Jupiter.__init__ since S ≥ A), the
switch-level Jupiter graph does NOT contain 2 × (15 S + 48 A + 256 A + 512 A)
distinct directed edges: the uplink cursor revisits spine switch positions
inside a single aggregation switch's 8-uplink burst, so duplicate arcs are
inserted and the distinct count falls short of the claimed total. -/
theorem claim_C9_counterexample :
    Jupiter.init 1 1 (none : Option (CapacityFunction Jupiter.Params Unit)) =
      Except.ok ⟨1, 1⟩ ∧
    (Jupiter.gen_graph Unit 1 1 none).edges.dedup.length ≠
      2 * (15 * 1 + 48 * 1 + 256 * 1 + 512 * 1) := by
  constructor
  · rfl
  · intro hEq
    have hge : (Jupiter.gen_graph Unit 1 1 none).edges = Jupiter.edges 1 1 := rfl
    rw [hge] at hEq
    have hlen : (Jupiter.edges 1 1).length = 1662 := by
      rw [Jupiter.edgesJ_length]
    have hnodup : ¬ (Jupiter.edges 1 1).Nodup := by
      intro hnd
      have hfil := hnd.filter (Jupiter.isUplink 1 1)
      rw [Jupiter.uplinks_eq 1 1 (by omega)] at hfil
      have hinj := List.nodup_iff_injective_get.1 hfil
      have hlen' : ((List.range (8 * (32 * 1))).map (fun k =>
          (32 * 1 + k / 8 + 1, Jupiter.spineTarget 1 1 k))).length = 256 := by
        rw [List.length_map, List.length_range]
      have h06 : ((List.range (8 * (32 * 1))).map (fun k =>
          (32 * 1 + k / 8 + 1, Jupiter.spineTarget 1 1 k))).get
            ⟨0, by rw [hlen']; omega⟩ =
          ((List.range (8 * (32 * 1))).map (fun k =>
          (32 * 1 + k / 8 + 1, Jupiter.spineTarget 1 1 k))).get
            ⟨6, by rw [hlen']; omega⟩ := by
        rfl
      have hfin := hinj h06
      have h06' : (0 : Nat) = 6 := congrArg Fin.val hfin
      omega
    have hsub : (Jupiter.edges 1 1).dedup.Sublist (Jupiter.edges 1 1) :=
      List.dedup_sublist _
    have heq2 : (Jupiter.edges 1 1).dedup = Jupiter.edges 1 1 :=
      hsub.eq_of_length (by omega)
    exact hnodup (heq2 ▸ List.nodup_dedup (Jupiter.edges 1 1))

/-- C9 (amended): in every topology variant each link addition inserts both
arc directions, and the number of distinct directed edges of the generated
graph is exactly twice the number of physical cables given by the
architecture's wiring formulas — FatTree: each of the p·(p/2) ToR switches
has p/2 pod uplinks and each of the p·(p/2) aggregation switches has p/2
core uplinks; Fabric: each ToR joins all nr_of_planes pod fabric switches,
and each fabric and edge switch joins the server_pods spine switches of its
plane; switch-level Jupiter (amended: spine_block_count ≥ 2, for
spine_block_count = 1 the round-robin uplinks repeat and collapse):
15 cables per spine-block mesh, 48 per aggregation block of middle-block
meshes, 8 uplinks per aggregation switch (256 per block), 16 links per ToR
(512 per block); Jupiter-Blocks: 8 middle-block links per ToR and
min(spine_block_count, 32) spine links per middle block. -/
theorem claim_C9 :
    (∀ (p : Nat) (cf : Option (CapacityFunction FatTree.Params Unit)),
      2 ≤ p → p % 2 = 0 →
      SwapClosed (FatTree.gen_graph Unit p cf).edges ∧
      (FatTree.gen_graph Unit p cf).edges.dedup.length =
        2 * (FatTree.tor_switches p * (p / 2) +
          FatTree.aggregation_switches p * (p / 2))) ∧
    (∀ (P : Fabric.Params) (cf : Option (CapacityFunction Fabric.Params Unit)),
      1 ≤ P.nr_of_planes → 1 ≤ P.server_pods →
      SwapClosed (Fabric.gen_graph Unit P cf).edges ∧
      (Fabric.gen_graph Unit P cf).edges.dedup.length =
        2 * (Fabric.last_tor_idx P * P.nr_of_planes +
          P.nr_of_planes * P.server_pods * P.server_pods +
          P.edge_pods * P.nr_of_planes * P.server_pods)) ∧
    (∀ (S A : Nat) (cf : Option (CapacityFunction Jupiter.Params Unit)),
      1 ≤ A → A ≤ S → 2 ≤ S →
      SwapClosed (Jupiter.gen_graph Unit S A cf).edges ∧
      (Jupiter.gen_graph Unit S A cf).edges.dedup.length =
        2 * (15 * S + 48 * A + 256 * A + 512 * A)) ∧
    (∀ (S A : Nat) (cf : Option (CapacityFunction JupiterBl.Params Unit)),
      1 ≤ A → A ≤ S →
      SwapClosed (JupiterBl.gen_graph Unit S A cf).edges ∧
      (JupiterBl.gen_graph Unit S A cf).edges.dedup.length =
        2 * (32 * A * 8 + 8 * A * (if S ≤ 32 then S else 32))) := by
  refine ⟨fun p cf h2 hev => ?_, fun P cf hn hsp => ?_,
    fun S A cf hA hAS hS2 => ?_, fun S A cf hA hAS => ?_⟩
  · have hge : (FatTree.gen_graph Unit p cf).edges = FatTree.edges p := by
      simp only [FatTree.gen_graph]
      exact (init_capacities_preserves _ _ _).2
    rw [hge]
    exact ⟨FatTree.edges_swapClosed p h2, FatTree.edges_dedup_count p h2⟩
  · have hge : (Fabric.gen_graph Unit P cf).edges = Fabric.edges P := by
      simp only [Fabric.gen_graph]
      exact (init_capacities_preserves _ _ _).2
    rw [hge]
    exact ⟨Fabric.edgesF_swapClosed P, Fabric.edgesF_dedup_count P hn hsp⟩
  · have hge : (Jupiter.gen_graph Unit S A cf).edges = Jupiter.edges S A := by
      simp only [Jupiter.gen_graph]
      exact (init_capacities_preserves _ _ _).2
    rw [hge]
    exact ⟨Jupiter.edgesJ_swapClosed S A, Jupiter.edgesJ_dedup_count S A hS2⟩
  · have hge : (JupiterBl.gen_graph Unit S A cf).edges = JupiterBl.edges S A := by
      simp only [JupiterBl.gen_graph]
      exact (init_capacities_preserves _ _ _).2
    rw [hge]
    exact ⟨JupiterBl.edgesJB_swapClosed S A,
      JupiterBl.edgesJB_dedup_count S A (by omega)⟩

theorem claim_C9_witness :
    ((2 ≤ 2 ∧ 2 % 2 = 0) ∧ (1 ≤ (1 : Nat) ∧ 1 ≤ (1 : Nat)) ∧
      (1 ≤ (1 : Nat) ∧ (1 : Nat) ≤ 2 ∧ 2 ≤ (2 : Nat)) ∧
      (1 ≤ (1 : Nat) ∧ (1 : Nat) ≤ 1)) ∧
    (SwapClosed (FatTree.gen_graph Unit 2 none).edges ∧
      (FatTree.gen_graph Unit 2 none).edges.dedup.length =
        2 * (FatTree.tor_switches 2 * (2 / 2) +
          FatTree.aggregation_switches 2 * (2 / 2))) ∧
    (SwapClosed (Fabric.gen_graph Unit ⟨1, 1, 1, 1⟩ none).edges ∧
      (Fabric.gen_graph Unit ⟨1, 1, 1, 1⟩ none).edges.dedup.length =
        2 * (Fabric.last_tor_idx ⟨1, 1, 1, 1⟩ * (1 : Nat) +
          1 * 1 * 1 + 1 * 1 * 1)) ∧
    (SwapClosed (Jupiter.gen_graph Unit 2 1 none).edges ∧
      (Jupiter.gen_graph Unit 2 1 none).edges.dedup.length =
        2 * (15 * 2 + 48 * 1 + 256 * 1 + 512 * 1)) ∧
    (SwapClosed (JupiterBl.gen_graph Unit 1 1 none).edges ∧
      (JupiterBl.gen_graph Unit 1 1 none).edges.dedup.length =
        2 * (32 * 1 * 8 + 8 * 1 * (if (1 : Nat) ≤ 32 then 1 else 32))) :=
  ⟨⟨⟨by decide, by decide⟩, ⟨by decide, by decide⟩,
    ⟨by decide, by decide, by decide⟩, ⟨by decide, by decide⟩⟩,
   claim_C9.1 2 none (by decide) (by decide),
   claim_C9.2.1 ⟨1, 1, 1, 1⟩ none (by decide) (by decide),
   claim_C9.2.2.1 2 1 none (by decide) (by decide) (by decide),
   claim_C9.2.2.2 1 1 none (by decide) (by decide)⟩
